import Mathlib

set_option autoImplicit false

/-! # sparsefs / filterfs: rule store, path classification and source resolution

A shallow embedding of `sparsefs.c` and `filterfs.c`.

* C strings are lists of characters (the characters before the terminating NUL).
* `rule->pattern` is a pointer into the character array handed to `append_rule`; the arrays
  live in `Store.mem`, so that the in-place writes of `append_rule` and `append_rules` are
  visible through every pointer into the same array.
* The two collision structures (`ht[i]` with its `next` links, and `chain`) are lists in link
  order.
* The real file system and the external `wildmatch` library are parameters (`Env`).
* `malloc`/`strdup` are taken to succeed.  An access outside the character array a pointer
  points into has no meaning in C and makes the embedded function return `none`.
-/

/-- A C string: the characters before its terminating NUL (never contains NUL itself). -/
abbrev CStr := List Char

/-- The string terminator. -/
def NUL : Char := Char.ofNat 0

/-- The quotation mark stripped by `append_rule`. -/
def QUOTE : Char := Char.ofNat 34

/-- A character array: a `strdup`/`malloc` block, terminator and all. -/
abbrev Buffer := List Char

/-- The allocated character arrays, by allocation number. -/
abbrev Mem := List Buffer

/-- A `char *`: array number and offset into that array. -/
structure Ptr where
  buf : Nat
  off : Nat
deriving DecidableEq

/-- The C string that starts at offset `off` of a character array. -/
def cstrAt (b : Buffer) (off : Nat) : CStr :=
  (b.drop off).takeWhile (fun c => decide (c ≠ NUL))

/-- The C string a pointer designates. -/
def Mem.str (m : Mem) (p : Ptr) : CStr :=
  cstrAt (m.getD p.buf []) p.off

/-- The call `strdup(s)`: a new array holding `s` and its terminator; returns the memory and the
pointer. -/
def strdup (m : Mem) (s : CStr) : Mem × Ptr :=
  (m ++ [s ++ [NUL]], ⟨m.length, 0⟩)

/-- Read `p[i]` for `p` at offset `off` of array `b`; `none` outside the array. -/
def peek (b : Buffer) (off : Nat) (i : Int) : Option Char :=
  if 0 ≤ (off : Int) + i then b[((off : Int) + i).toNat]? else none

/-- Write `p[i] = c` for `p` at offset `off` of array `b`; `none` outside the array. -/
def poke (b : Buffer) (off : Nat) (i : Int) (c : Char) : Option Buffer :=
  if 0 ≤ (off : Int) + i ∧ ((off : Int) + i).toNat < b.length then
    some (b.set ((off : Int) + i).toNat c)
  else none

/-- The test `strpbrk(s, "*?") != NULL`, which is also `strchr(s, '*') || strchr(s, '?')`. -/
def has_wildcard (s : CStr) : Bool :=
  s.any (fun c => decide (c = '*') || decide (c = '?'))

/-- Type `struct rule` (the `next` link is the list structure of the bucket or chain holding it). -/
structure Rule where
  pattern : Ptr
  exclude : Int
deriving DecidableEq

/-- Constant `#define HT_LENGTH 100`. -/
def HT_LENGTH : Nat := 100

/-- The rule store: the character arrays the rules point into, `ht[HT_LENGTH]` and `chain`. -/
structure Store where
  mem : Mem
  ht : Nat → List Rule
  chain : List Rule

/-- The store before any rule is ingested (zero-initialised globals). -/
def Store.empty : Store := ⟨[], fun _ => [], []⟩

/-- The pattern string of a rule, as read now through `rule->pattern`. -/
def Store.pat (st : Store) (r : Rule) : CStr := st.mem.str r.pattern

/-- Function `calc_hash`: djb2 over `unsigned long` (64 bit). -/
def calc_hash (hstr : CStr) : Nat :=
  hstr.foldl (fun hash c => ((hash <<< 5) + hash + c.toNat) % 2 ^ 64) 5381

/-- The lines `rule->pattern = pattern; pattern_length = strlen(pattern);` and the first `if`
of `append_rule` (the same text in both programs): when the pattern begins or ends with a
quotation mark, `rule->pattern` moves one character on and the last character is overwritten.
Returns the array after the write, the offset of `rule->pattern` and `pattern_length`. -/
def strip_quotes (b : Buffer) (off : Nat) : Option (Buffer × Nat × Int) := do
  let pattern_length : Int := ((cstrAt b off).length : Int)
  let c0 ← peek b off 0
  let quoted ←
    if c0 = QUOTE then some true
    else (peek b off (pattern_length - 1)).map (fun c => decide (c = QUOTE))
  if quoted then
    (poke b off (pattern_length - 1) NUL).map (fun b1 => (b1, off + 1, pattern_length - 1))
  else some (b, off, pattern_length)

/-- The second `if` of `append_rule`: a trailing slash is overwritten. -/
def strip_slash (b : Buffer) (off : Nat) (pattern_length : Int) : Option Buffer := do
  let c1 ← peek b off (pattern_length - 1)
  if c1 = '/' then poke b off (pattern_length - 1) NUL else some b

/-- Both stripping steps of `append_rule`: the array after the writes and the offset of
`rule->pattern`. -/
def strip_pattern (b : Buffer) (off : Nat) : Option (Buffer × Nat) :=
  (strip_quotes b off).bind (fun q =>
    (strip_slash q.1 off q.2.2).map (fun b2 => (b2, q.2.1)))

/-- The routing part of `append_rule` (the same in both programs): a pattern with a wildcard
goes to the tail of `chain`, any other to the tail of its bucket `ht[hash % HT_LENGTH]`. -/
def route_rule (st : Store) (mem1 : Mem) (pattern : Ptr) (rule : Rule) : Store :=
  if has_wildcard (mem1.str pattern) then
    { mem := mem1, ht := st.ht, chain := st.chain ++ [rule] }
  else
    let hash := calc_hash (mem1.str rule.pattern)
    { mem := mem1,
      ht := Function.update st.ht (hash % HT_LENGTH) (st.ht (hash % HT_LENGTH) ++ [rule]),
      chain := st.chain }

/-- A directory entry as returned by `readdir(3)`. -/
structure Dirent where
  d_name : CStr
  d_ino : Nat
  d_type : Nat
deriving DecidableEq

/-- What `ffs_readdir` hands to the filler: the name and the two `struct stat` fields it sets. -/
structure FillArg where
  name : CStr
  st_ino : Nat
  st_mode : Nat
deriving DecidableEq

/-- The world outside the two programs: the `wildmatch` library and the real file system,
fixed for the duration of a request. -/
structure Env where
  /-- The test `wildmatch(pattern, text, WM_PATHNAME, NULL) == WM_MATCH`. -/
  wildmatch : CStr → CStr → Bool
  /-- The test `access(path, F_OK) != -1`. -/
  access : CStr → Bool
  /-- The call `opendir(path)` followed by `readdir` until it returns NULL; `error errno` when
  `opendir` fails. -/
  readdir : CStr → Except Int (List Dirent)
  /-- The test `stat(path, &s) >= 0 && S_ISDIR(s.st_mode)`. -/
  is_dir : CStr → Bool

/-- Constant `PATH_MAX` of `<limits.h>` on Linux. -/
def PATH_MAX : Nat := 4096

/-- The call `snprintf(dst, size, ...)` for a formatted text `s`: the first `size - 1`
characters (`size` is `PATH_MAX` at every call). -/
def snprintf (size : Nat) (s : CStr) : CStr := s.take (size - 1)

/-- The test `strcmp(&path[len-k], suffix) == 0` with `len = strlen(path)`, `k = strlen(suffix)`.
For `len < k` the C code starts reading before the string; for the absolute paths both programs
build (a source root begins with a slash) that comparison fails on the first character of `path`
whatever lies before it, which is what dropping nothing yields. -/
def tail_is (path : CStr) (suffix : CStr) : Bool :=
  decide (path.drop (path.length - suffix.length) = suffix)

/-- The rule search of `exclude_chroot_path` once `curr_rule` is set from the hash table:
walk `chain` for the first pattern that `wildmatch` accepts unless an exact rule was found. -/
def rule_or_chain (env : Env) (st : Store) (curr_rule : Option Rule) (path : CStr) :
    Option Rule :=
  match curr_rule with
  | some r => some r
  | none => st.chain.find? (fun r => env.wildmatch (st.pat r) path)

/-- Function `append_rule` from its first line to the insertion of the rule: all of the function
in sparsefs.c, and in filterfs.c (same text, with `strchr` twice for `strpbrk`) the part before
the parent directory is looked at. -/
def store_rule (st : Store) (pattern : Ptr) (exclude : Int) : Option Store := do
  let b ← st.mem[pattern.buf]?
  let (b1, roff) ← strip_pattern b pattern.off
  let mem1 := st.mem.set pattern.buf b1
  some (route_rule st mem1 pattern ⟨⟨pattern.buf, roff⟩, exclude⟩)

namespace Sparsefs

/-- Function `getRuleByHash`: first rule of the bucket whose pattern is `s`. -/
def getRuleByHash (st : Store) (s : CStr) : Option Rule :=
  (st.ht (calc_hash s % HT_LENGTH)).find? (fun e => decide (st.pat e = s))

/-- Function `append_rule` of sparsefs.c. -/
def append_rule (st : Store) (pattern : Ptr) (exclude : Int) : Option Store :=
  store_rule st pattern exclude

/-- The loop of `append_rules`; every round moves `str` past one more colon, so the length of
the list is enough fuel. -/
def append_rules_loop : Nat → Store → Ptr → Int → Option Store
  | 0, _, _, _ => none
  | fuel + 1, st, str, exclude => do
    let st1 ← append_rule st str exclude
    let b := st1.mem.getD str.buf []
    let s := cstrAt b str.off
    if ':' ∈ s then
      let i := str.off + s.indexOf ':'
      append_rules_loop fuel { st1 with mem := st1.mem.set str.buf (b.set i NUL) }
        ⟨str.buf, i + 1⟩ exclude
    else some st1

/-- Function `append_rules` of sparsefs.c. -/
def append_rules (st : Store) (patterns : Ptr) (exclude : Int) : Option Store :=
  append_rules_loop ((st.mem.str patterns).length + 1) st patterns exclude

/-- The call `append_rule(strdup(line), exclude)` of `parse_file`: `append_rule` on a string of
its own. -/
def append_rule_dup (st : Store) (pattern : CStr) (exclude : Int) : Option Store :=
  append_rule { st with mem := (strdup st.mem pattern).1 } (strdup st.mem pattern).2 exclude

/-- The call `append_rules(strdup(str), exclude)` of `ffs_opt_proc`. -/
def append_rules_dup (st : Store) (patterns : CStr) (exclude : Int) : Option Store :=
  append_rules { st with mem := (strdup st.mem patterns).1 } (strdup st.mem patterns).2 exclude

/-- A sequence of `append_rule` calls, each on a string of its own, in order. -/
def ingest : Store → List (CStr × Int) → Option Store
  | st, [] => some st
  | st, (pattern, exclude) :: rest =>
    (append_rule_dup st pattern exclude).bind (fun st1 => ingest st1 rest)

/-- The globals of sparsefs.c: rule store, `sources[]` and `default_exclude`. -/
structure Globals where
  store : Store
  sources : List CStr
  default_exclude : Int

/-- Function `append_source`: the source root is stored with a trailing slash. -/
def append_source (g : Globals) (source : CStr) : Globals :=
  { g with sources := g.sources ++
      [if source.getLast? = some '/' then source else source ++ ['/']] }

/-- Function `exclude_chroot_path` of sparsefs.c; 0 is include, anything else exclude. -/
def exclude_chroot_path (env : Env) (g : Globals) (path : CStr) : Int :=
  if g.sources.any (fun src => decide (path = src)) then 0
  else if tail_is path ['/', '.'] then 0
  else if tail_is path ['/', '.', '.'] then 0
  else
    let curr_rule := if has_wildcard path then none else getRuleByHash g.store path
    match rule_or_chain env g.store curr_rule path with
    | some r => r.exclude
    | none => g.default_exclude

/-- The `for` loop of `exclude_path` over the sources still to try; the state is the pair of
`exclude` and the content of the `realpath` buffer. -/
def exclude_path_loop (env : Env) (g : Globals) (realpath_size : Nat) (fuse_path : CStr) :
    List CStr → Int × CStr → Int × CStr
  | [], acc => acc
  | src :: rest, (exclude, _) =>
    let realpath := snprintf realpath_size (src ++ fuse_path.drop 1)
    if env.access realpath then
      let exclude1 := exclude_chroot_path env g realpath
      if exclude1 = 0 then (exclude1, realpath)
      else exclude_path_loop env g realpath_size fuse_path rest (exclude1, realpath)
    else exclude_path_loop env g realpath_size fuse_path rest (exclude, realpath)

/-- Function `exclude_path` of sparsefs.c: the return value and the final content of `realpath`
(`realpath` is the content of the buffer on entry). -/
def exclude_path (env : Env) (g : Globals) (realpath : CStr) (realpath_size : Nat)
    (fuse_path : CStr) : Int × CStr :=
  exclude_path_loop env g realpath_size fuse_path g.sources (1, realpath)

/-- The separator `path[1] == 0 ? "" : "/"` used when a directory entry is appended. -/
def name_sep (path : CStr) : CStr := if path.drop 1 = [] then [] else ['/']

/-- The inner `for` loop of `ffs_readdir_helper`: does a source before `source_idx` have the
entry, existing and included? -/
def skip_entry (env : Env) (g : Globals) (source_idx : Nat) (path : CStr) (d_name : CStr) :
    Bool :=
  (g.sources.take source_idx).any (fun src =>
    let subpath := snprintf PATH_MAX (src ++ path.drop 1 ++ name_sep path ++ d_name)
    env.access subpath && decide (exclude_chroot_path env g subpath = 0))

/-- The `while ((de = readdir(dp)) != NULL)` loop of `ffs_readdir_helper`.  `buf` lists the
arguments of the filler calls made so far and `filler buf arg` is what the filler returns for
the next call. -/
def readdir_loop (env : Env) (g : Globals) (source_idx : Nat) (realpath path : CStr)
    (filler : List FillArg → FillArg → Int) : List Dirent → List FillArg → List FillArg
  | [], buf => buf
  | de :: rest, buf =>
    if skip_entry env g source_idx path de.d_name then
      readdir_loop env g source_idx realpath path filler rest buf
    else
      let subpath := snprintf PATH_MAX (realpath ++ name_sep path ++ de.d_name)
      if exclude_chroot_path env g subpath ≠ 0 then
        readdir_loop env g source_idx realpath path filler rest buf
      else
        let st : FillArg := ⟨de.d_name, de.d_ino, de.d_type <<< 12⟩
        if filler buf st ≠ 0 then buf ++ [st]
        else readdir_loop env g source_idx realpath path filler rest (buf ++ [st])

/-- Function `ffs_readdir_helper` of sparsefs.c: return value and filler calls so far. -/
def ffs_readdir_helper (env : Env) (g : Globals) (source_idx : Nat) (realpath path : CStr)
    (buf : List FillArg) (filler : List FillArg → FillArg → Int) : Int × List FillArg :=
  match env.readdir realpath with
  | .error errno => (-errno, buf)
  | .ok entries => (0, readdir_loop env g source_idx realpath path filler entries buf)

/-- The first `for` loop of `ffs_readdir` (mount root), from source number `i` on. -/
def readdir_root (env : Env) (g : Globals) (path : CStr)
    (filler : List FillArg → FillArg → Int) : Nat → List CStr → List FillArg → Int × List FillArg
  | _, [], buf => (0, buf)
  | i, src :: rest, buf =>
    let r := ffs_readdir_helper env g i src path buf filler
    if r.1 ≠ 0 then r else readdir_root env g path filler (i + 1) rest r.2

/-- The second `for` loop of `ffs_readdir` (any other directory), from source number `i` on. -/
def readdir_sub (env : Env) (g : Globals) (path : CStr)
    (filler : List FillArg → FillArg → Int) : Nat → List CStr → List FillArg → Int × List FillArg
  | _, [], buf => (0, buf)
  | i, src :: rest, buf =>
    let realpath := snprintf PATH_MAX (src ++ path.drop 1)
    if env.access realpath then
      if exclude_chroot_path env g realpath = 0 then
        let r := ffs_readdir_helper env g i realpath path buf filler
        if r.1 ≠ 0 then r else readdir_sub env g path filler (i + 1) rest r.2
      else readdir_sub env g path filler (i + 1) rest buf
    else readdir_sub env g path filler (i + 1) rest buf

/-- Function `ffs_readdir` of sparsefs.c: return value and the filler calls made, in order. -/
def ffs_readdir (env : Env) (g : Globals) (path : CStr) (buf : List FillArg)
    (filler : List FillArg → FillArg → Int) : Int × List FillArg :=
  if path = ['/'] then readdir_root env g path filler 0 g.sources buf
  else readdir_sub env g path filler 0 g.sources buf

end Sparsefs


namespace Filterfs

/-- The globals of filterfs.c: rule store, `srcdir` and `default_exclude`. -/
structure Globals where
  store : Store
  srcdir : CStr
  default_exclude : Int

/-- Function `getRule`: first rule of the bucket whose pattern is `s`. -/
def getRule (st : Store) (s : CStr) : Option Rule :=
  (st.ht (calc_hash s % HT_LENGTH)).find? (fun e => decide (st.pat e = s))

/-- The call `memrchr(path, '/', n)`: index of the last slash among the first `n` characters. -/
def memrchr_slash (path : CStr) : Nat → Option Nat
  | 0 => none
  | n + 1 => if path[n]? = some '/' then some n else memrchr_slash path n

/-- The loop `for (runp = last_slash; runp != path; --runp) if (runp[-1] != '/') break;`. -/
def back_over_slashes (path : CStr) : Nat → Nat
  | 0 => 0
  | runp + 1 => if path[runp]? = some '/' then back_over_slashes path runp else runp + 1

/-- Function `dirname` of `<libgen.h>` as implemented by glibc (a library function, not part of the
repository).  It cuts the string in place after the parent directory and returns it, or returns
the constant `"."` when there is no slash.  The pair is the content of the argument after the
call and the string returned. -/
def dirname (path : CStr) : CStr × CStr :=
  let last_slash :=
    match memrchr_slash path path.length with
    | some ls =>
      if ls ≠ 0 ∧ ls + 1 = path.length then
        if back_over_slashes path ls ≠ 0 then memrchr_slash path (back_over_slashes path ls)
        else some ls
      else some ls
    | none => none
  match last_slash with
  | some ls =>
    let runp := back_over_slashes path ls
    let cut := if runp = 0 then (if ls = 1 then 2 else 1) else runp
    (path.take cut, path.take cut)
  | none => (path, ['.'])

/-- The test `parent[0] != 0 && (parent[1] != 0 || (parent[0] != '.' && parent[0] != '/'))`. -/
def parent_usable (parent : CStr) : Bool :=
  match parent with
  | [] => false
  | c :: rest => decide (rest ≠ []) || (decide (c ≠ '.') && decide (c ≠ '/'))

/-- Function `append_rule` of filterfs.c.  After storing the rule it calls itself on the parent
directory of the pattern when that is a directory on disk; the first argument bounds the depth
of these calls (`none` when it is used up).  The source ignores the value the inner call
returns, which is 0 unless `malloc` fails. -/
def append_rule_fuel (env : Env) : Nat → Store → Ptr → Int → Option Store
  | 0, _, _, _ => none
  | fuel + 1, st, pattern, exclude => do
    let st1 ← store_rule st pattern exclude
    let dir := dirname (st1.mem.str pattern)
    if parent_usable dir.2 && env.is_dir dir.2 then
      append_rule_fuel env fuel { st1 with mem := (strdup st1.mem dir.1).1 }
        (strdup st1.mem dir.1).2 exclude
    else some st1

/-- Function `append_rule` of filterfs.c: every inner call is on a shorter string, so the length
of the pattern bounds the depth. -/
def append_rule (env : Env) (st : Store) (pattern : Ptr) (exclude : Int) : Option Store :=
  append_rule_fuel env ((st.mem.str pattern).length + 1) st pattern exclude

/-- The call `append_rule(strdup(line), exclude)`: `append_rule` on a string of its own. -/
def append_rule_dup (env : Env) (st : Store) (pattern : CStr) (exclude : Int) : Option Store :=
  append_rule env { st with mem := (strdup st.mem pattern).1 } (strdup st.mem pattern).2 exclude

/-- Function `exclude_chroot_path` of filterfs.c; 0 is include, anything else exclude. -/
def exclude_chroot_path (env : Env) (g : Globals) (path : CStr) : Int :=
  if path = g.srcdir then 0
  else if tail_is path ['/', '.'] then 0
  else if tail_is path ['/', '.', '.'] then 0
  else
    match rule_or_chain env g.store (getRule g.store path) path with
    | some r => r.exclude
    | none => g.default_exclude

/-- Function `exclude_path` of filterfs.c: the return value and the content of `dst`. -/
def exclude_path (env : Env) (g : Globals) (dst_size : Nat) (src : CStr) : Int × CStr :=
  let dst := snprintf dst_size (g.srcdir ++ src.drop 1)
  (exclude_chroot_path env g dst, dst)

end Filterfs

/-! ## Closed forms and invariants used in the proofs -/

/-- The test `pattern[0] == QUOTE || pattern[pattern_length-1] == QUOTE` on a pattern string. -/
def is_quoted (s : CStr) : Bool :=
  decide (s.head? = some QUOTE) || decide (s.getLast? = some QUOTE)

/-- What the first `if` of `append_rule` leaves at `pattern`: the last character is dropped
when the pattern is taken for quoted. -/
def unquoted (s : CStr) : CStr := if is_quoted s then s.dropLast else s

/-- What both `if`s of `append_rule` leave at `pattern`: after `unquoted`, one trailing slash
is dropped. -/
def stripped (s : CStr) : CStr :=
  if (unquoted s).getLast? = some '/' then (unquoted s).dropLast else unquoted s

/-- The offset of `rule->pattern` from `pattern`. -/
def rule_off (s : CStr) : Nat := if is_quoted s then 1 else 0

/-- The pattern `append_rule` stores for the raw pattern `s`: what is read through
`rule->pattern` once the call is over (`strip_pattern_dup`, `append_rule_dup_spec`). -/
def cleaned (s : CStr) : CStr := (stripped s).drop (rule_off s)

/-- Every rule points into an allocated character array. -/
structure Store.Alloc (st : Store) : Prop where
  ht_alloc : ∀ i, ∀ r ∈ st.ht i, r.pattern.buf < st.mem.length
  chain_alloc : ∀ r ∈ st.chain, r.pattern.buf < st.mem.length

/-- Every rule points into an allocated character array, every rule of bucket `i` has a
pattern whose hash is `i` modulo the table length, and no pattern in the table has a
wildcard. -/
structure Store.Sound (st : Store) : Prop where
  alloc : st.Alloc
  bucket : ∀ i, ∀ r ∈ st.ht i, calc_hash (st.pat r) % HT_LENGTH = i
  literal : ∀ i, ∀ r ∈ st.ht i, has_wildcard (st.pat r) = false

/-- The effect of one stored rule on a store: one more character array, the strings of the older
arrays untouched, and the new rule at the tail of `chain` or, with a pattern free of wildcards,
at the tail of the bucket of its hash. -/
def Store.Grows (st st1 : Store) (rule : Rule) : Prop :=
  rule.pattern.buf = st.mem.length ∧
  st1.mem.length = st.mem.length + 1 ∧
  (∀ p : Ptr, p.buf < st.mem.length → st1.mem.str p = st.mem.str p) ∧
  ((st1.chain = st.chain ++ [rule] ∧ st1.ht = st.ht) ∨
    (st1.chain = st.chain ∧ has_wildcard (st1.pat rule) = false ∧
      st1.ht = Function.update st.ht (calc_hash (st1.pat rule) % HT_LENGTH)
        (st.ht (calc_hash (st1.pat rule) % HT_LENGTH) ++ [rule])))

/-- Some source of `done` has the entry `name` of the virtual directory `path`, existing and
included: the test the inner loop of `ffs_readdir_helper` makes on the earlier sources. -/
def Sparsefs.Owned (env : Env) (g : Sparsefs.Globals) (path : CStr) (done : List CStr)
    (name : CStr) : Prop :=
  ∃ src ∈ done,
    env.access (snprintf PATH_MAX (src ++ path.drop 1 ++ Sparsefs.name_sep path ++ name)) =
        true ∧
      Sparsefs.exclude_chroot_path env g
        (snprintf PATH_MAX (src ++ path.drop 1 ++ Sparsefs.name_sep path ++ name)) = 0

/-! ## Example data -/

namespace Example

/-- A world in which `wildmatch` accepts everything and every path exists. -/
def env_all : Env := ⟨fun _ _ => true, fun _ => true, fun _ => .ok [], fun _ => true⟩

/-- A world in which `wildmatch` accepts nothing and every path exists. -/
def env_none : Env := ⟨fun _ _ => false, fun _ => true, fun _ => .ok [], fun _ => true⟩

/-- Four `append_rule` calls: a wildcard exclude, a literal exclude falling into the bucket of
"/s/a", the literal include "/s/a", and another wildcard exclude. -/
def calls_exact : List (CStr × Int) :=
  [("/s/*".toList, 1), ("/s/cb".toList, 1), ("/s/a".toList, 0), ("/s/?".toList, 1)]

/-- The store built by `calls_exact`. -/
def store_exact : Store := (Sparsefs.ingest Store.empty calls_exact).get (by decide)

/-- A store with exact exclude rules for "/s/x/..", "/s/x/." and "/s/" (the pattern "/s//"
loses one slash) and an exclude wildcard. -/
def store_dots : Store :=
  (Sparsefs.ingest Store.empty
    [("/s/x/..".toList, 1), ("/s/x/.".toList, 1), ("/s//".toList, 1),
      ("*".toList, 1)]).get (by decide)

/-- The store `store_dots`, the source "/s" as `append_source` stores it, default exclude. -/
def globals_dots : Sparsefs.Globals := Sparsefs.append_source ⟨store_dots, [], 1⟩ "/s".toList

/-- The store after "/s/a" was ingested with exclude. -/
def store_once : Store := (Sparsefs.append_rule_dup Store.empty "/s/a".toList 1).get (by decide)

/-- The store `store_once` after "/s/a" was ingested again, with include. -/
def store_twice : Store := (Sparsefs.ingest store_once [("/s/a".toList, 0)]).get (by decide)

/-- A world in which `wildmatch` accepts nothing and no path exists. -/
def env_void : Env := ⟨fun _ _ => false, fun _ => false, fun _ => .error 2, fun _ => false⟩

/-- Two sources, an exclude rule for "/s1/f", default include. -/
def globals_two : Sparsefs.Globals :=
  ⟨(Sparsefs.ingest Store.empty [("/s1/f".toList, 1)]).get (by decide),
    ["/s1/".toList, "/s2/".toList], 0⟩

/-- Two source roots: "/s1/" lists ".", ".." and a dangling symbolic link "n" (`d_type` 10),
on which `access` fails; "/s2/" lists ".", ".." and a regular file "n" (`d_type` 8).  Nothing
else exists. -/
def env_dangling : Env :=
  ⟨fun _ _ => false,
    fun p => decide (p ∈ ["/s1/".toList, "/s1/.".toList, "/s1/..".toList, "/s2/".toList,
      "/s2/.".toList, "/s2/..".toList, "/s2/n".toList]),
    fun p =>
      if p = "/s1/".toList then .ok [⟨['.'], 1, 4⟩, ⟨['.', '.'], 2, 4⟩, ⟨['n'], 11, 10⟩]
      else if p = "/s2/".toList then .ok [⟨['.'], 3, 4⟩, ⟨['.', '.'], 2, 4⟩, ⟨['n'], 22, 8⟩]
      else .error 2,
    fun p => decide (p = "/s1/".toList) || decide (p = "/s2/".toList)⟩

/-- Two source roots that list "a", "b" and "b", "c"; nothing else exists. -/
def env_union : Env :=
  ⟨fun _ _ => false,
    fun p => decide (p ∈ ["/s1/".toList, "/s2/".toList, "/s1/a".toList, "/s1/b".toList,
      "/s2/b".toList, "/s2/c".toList]),
    fun p =>
      if p = "/s1/".toList then .ok [⟨['a'], 11, 8⟩, ⟨['b'], 12, 8⟩]
      else if p = "/s2/".toList then .ok [⟨['b'], 21, 8⟩, ⟨['c'], 22, 8⟩]
      else .error 2,
    fun p => decide (p = "/s1/".toList) || decide (p = "/s2/".toList)⟩

end Example

/-! ## The request handlers of sparsefs.c -/

/-- The value of `ENOENT` in `<errno.h>` on Linux. -/
def ENOENT : Int := 2

/-- The value of `O_RDONLY` in `<fcntl.h>` on Linux. -/
def O_RDONLY : Nat := 0

/-- The value of `O_WRONLY` in `<fcntl.h>` on Linux. -/
def O_WRONLY : Nat := 1

/-- The value of `O_CREAT` in `<fcntl.h>` on Linux. -/
def O_CREAT : Nat := 64

/-- The value of `O_EXCL` in `<fcntl.h>` on Linux. -/
def O_EXCL : Nat := 128

/-- The macro `S_ISREG(mode)` of `<sys/stat.h>`: `(mode & S_IFMT) == S_IFREG`. -/
def S_ISREG (mode : Nat) : Bool := decide (mode &&& 0o170000 = 0o100000)

/-- The macro `S_ISFIFO(mode)` of `<sys/stat.h>`: `(mode & S_IFMT) == S_IFIFO`. -/
def S_ISFIFO (mode : Nat) : Bool := decide (mode &&& 0o170000 = 0o010000)

/-- The system calls the handlers make once a path is resolved, with the arguments that select
the object acted on.  The data buffers of `lstat`, `readlink`, `pread`, `pwrite` and `statvfs`
are not part of the model; `mode` is 0 where `open` is called with two arguments. -/
inductive Syscall where
  | lstat (path : CStr)
  | access (path : CStr) (mask : Int)
  | readlink (path : CStr) (bufsiz : Nat)
  | «open» (path : CStr) (flags : Nat) (mode : Nat)
  | close (fd : Int)
  | mkfifo (path : CStr) (mode : Nat)
  | mknod (path : CStr) (mode : Nat) (rdev : Nat)
  | mkdir (path : CStr) (mode : Nat)
  | unlink (path : CStr)
  | rmdir (path : CStr)
  | symlink (target linkpath : CStr)
  | rename (oldpath newpath : CStr)
  | link (oldpath newpath : CStr)
  | chmod (path : CStr) (mode : Nat)
  | lchown (path : CStr) (owner group : Nat)
  | truncate (path : CStr) (length : Int)
  | utimes (path : CStr) (atime_sec atime_usec mtime_sec mtime_usec : Int)
  | pread (fd : Int) (count : Nat) (offset : Int)
  | pwrite (fd : Int) (count : Nat) (offset : Int)
  | statvfs (path : CStr)
deriving DecidableEq

/-- The operating system as the handlers see it: given the calls a handler has made so far, the
outcome of its next call, `.error errno` when the call returns -1 and `.ok r` when it returns
`r`. -/
abbrev Os := List Syscall → Syscall → Except Int Int

namespace Sparsefs

/-- The tail `res = call; if (res == -1) return -errno; return 0;` shared by most handlers:
return value and the system calls made. -/
def call_ret0 (os : Os) (c : Syscall) : Int × List Syscall :=
  match os [] c with
  | .error errno => (-errno, [c])
  | .ok _ => (0, [c])

/-- Function `ffs_getattr`: return value and the system calls made after `exclude_path`.  The
local `realpath` array is passed to `exclude_path` uninitialised; it is read only when
`exclude_path` returns 0, and `exclude_path` has then written it. -/
def ffs_getattr (env : Env) (os : Os) (g : Globals) (path : CStr) : Int × List Syscall :=
  let r := exclude_path env g [] PATH_MAX path
  if r.1 ≠ 0 then (-ENOENT, []) else call_ret0 os (.lstat r.2)

/-- Function `ffs_access`. -/
def ffs_access (env : Env) (os : Os) (g : Globals) (path : CStr) (mask : Int) :
    Int × List Syscall :=
  let r := exclude_path env g [] PATH_MAX path
  if r.1 ≠ 0 then (-ENOENT, []) else call_ret0 os (.access r.2 mask)

/-- Function `ffs_readlink`; `size` is a `size_t`, so `size - 1` wraps at zero. -/
def ffs_readlink (env : Env) (os : Os) (g : Globals) (path : CStr) (size : Nat) :
    Int × List Syscall :=
  let r := exclude_path env g [] PATH_MAX path
  if r.1 ≠ 0 then (-ENOENT, []) else call_ret0 os (.readlink r.2 ((size + 2 ^ 64 - 1) % 2 ^ 64))

/-- Function `ffs_mknod`. -/
def ffs_mknod (env : Env) (os : Os) (g : Globals) (path : CStr) (mode rdev : Nat) :
    Int × List Syscall :=
  let r := exclude_path env g [] PATH_MAX path
  if r.1 ≠ 0 then (-ENOENT, [])
  else if S_ISREG mode then
    let c := Syscall.open r.2 (O_CREAT ||| O_EXCL ||| O_WRONLY) mode
    match os [] c with
    | .error errno => (-errno, [c])
    | .ok fd =>
      if fd ≥ 0 then
        match os [c] (.close fd) with
        | .error errno => (-errno, [c, .close fd])
        | .ok _ => (0, [c, .close fd])
      else (0, [c])
  else if S_ISFIFO mode then call_ret0 os (.mkfifo r.2 mode)
  else call_ret0 os (.mknod r.2 mode rdev)

/-- Function `ffs_mkdir`. -/
def ffs_mkdir (env : Env) (os : Os) (g : Globals) (path : CStr) (mode : Nat) :
    Int × List Syscall :=
  let r := exclude_path env g [] PATH_MAX path
  if r.1 ≠ 0 then (-ENOENT, []) else call_ret0 os (.mkdir r.2 mode)

/-- Function `ffs_unlink`. -/
def ffs_unlink (env : Env) (os : Os) (g : Globals) (path : CStr) : Int × List Syscall :=
  let r := exclude_path env g [] PATH_MAX path
  if r.1 ≠ 0 then (-ENOENT, []) else call_ret0 os (.unlink r.2)

/-- Function `ffs_rmdir`. -/
def ffs_rmdir (env : Env) (os : Os) (g : Globals) (path : CStr) : Int × List Syscall :=
  let r := exclude_path env g [] PATH_MAX path
  if r.1 ≠ 0 then (-ENOENT, []) else call_ret0 os (.rmdir r.2)

/-- Function `ffs_symlink`: both paths are resolved, the link is made from the unresolved
`from` to the resolved `to`. -/
def ffs_symlink (env : Env) (os : Os) (g : Globals) («from» «to» : CStr) : Int × List Syscall :=
  let xfrom := exclude_path env g [] PATH_MAX «from»
  let xto := exclude_path env g [] PATH_MAX «to»
  if xfrom.1 ≠ 0 ∨ xto.1 ≠ 0 then (-ENOENT, []) else call_ret0 os (.symlink «from» xto.2)

/-- Function `ffs_rename`. -/
def ffs_rename (env : Env) (os : Os) (g : Globals) («from» «to» : CStr) : Int × List Syscall :=
  let xfrom := exclude_path env g [] PATH_MAX «from»
  let xto := exclude_path env g [] PATH_MAX «to»
  if xfrom.1 ≠ 0 ∨ xto.1 ≠ 0 then (-ENOENT, []) else call_ret0 os (.rename xfrom.2 xto.2)

/-- Function `ffs_link`. -/
def ffs_link (env : Env) (os : Os) (g : Globals) («from» «to» : CStr) : Int × List Syscall :=
  let xfrom := exclude_path env g [] PATH_MAX «from»
  let xto := exclude_path env g [] PATH_MAX «to»
  if xfrom.1 ≠ 0 ∨ xto.1 ≠ 0 then (-ENOENT, []) else call_ret0 os (.link xfrom.2 xto.2)

/-- Function `ffs_chmod`. -/
def ffs_chmod (env : Env) (os : Os) (g : Globals) (path : CStr) (mode : Nat) :
    Int × List Syscall :=
  let r := exclude_path env g [] PATH_MAX path
  if r.1 ≠ 0 then (-ENOENT, []) else call_ret0 os (.chmod r.2 mode)

/-- Function `ffs_chown`. -/
def ffs_chown (env : Env) (os : Os) (g : Globals) (path : CStr) (uid gid : Nat) :
    Int × List Syscall :=
  let r := exclude_path env g [] PATH_MAX path
  if r.1 ≠ 0 then (-ENOENT, []) else call_ret0 os (.lchown r.2 uid gid)

/-- Function `ffs_truncate`. -/
def ffs_truncate (env : Env) (os : Os) (g : Globals) (path : CStr) (size : Int) :
    Int × List Syscall :=
  let r := exclude_path env g [] PATH_MAX path
  if r.1 ≠ 0 then (-ENOENT, []) else call_ret0 os (.truncate r.2 size)

/-- Function `ffs_utimens`; the arguments are `ts[0].tv_sec`, `ts[0].tv_nsec`, `ts[1].tv_sec`
and `ts[1].tv_nsec`. -/
def ffs_utimens (env : Env) (os : Os) (g : Globals) (path : CStr)
    (atime_sec atime_nsec mtime_sec mtime_nsec : Int) : Int × List Syscall :=
  let r := exclude_path env g [] PATH_MAX path
  if r.1 ≠ 0 then (-ENOENT, [])
  else
    call_ret0 os
      (.utimes r.2 atime_sec (Int.tdiv atime_nsec 1000) mtime_sec (Int.tdiv mtime_nsec 1000))

/-- Function `ffs_open`; `flags` is `fi->flags`. -/
def ffs_open (env : Env) (os : Os) (g : Globals) (path : CStr) (flags : Nat) :
    Int × List Syscall :=
  let r := exclude_path env g [] PATH_MAX path
  if r.1 ≠ 0 then (-ENOENT, [])
  else
    let c := Syscall.open r.2 flags 0
    match os [] c with
    | .error errno => (-errno, [c])
    | .ok fd => (0, [c, .close fd])

/-- Function `ffs_read`. -/
def ffs_read (env : Env) (os : Os) (g : Globals) (path : CStr) (size : Nat) (offset : Int) :
    Int × List Syscall :=
  let r := exclude_path env g [] PATH_MAX path
  if r.1 ≠ 0 then (-ENOENT, [])
  else
    let c := Syscall.open r.2 O_RDONLY 0
    match os [] c with
    | .error errno => (-errno, [c])
    | .ok fd =>
      let res :=
        match os [c] (.pread fd size offset) with
        | .error errno => -errno
        | .ok n => n
      (res, [c, .pread fd size offset, .close fd])

/-- Function `ffs_write`. -/
def ffs_write (env : Env) (os : Os) (g : Globals) (path : CStr) (size : Nat) (offset : Int) :
    Int × List Syscall :=
  let r := exclude_path env g [] PATH_MAX path
  if r.1 ≠ 0 then (-ENOENT, [])
  else
    let c := Syscall.open r.2 O_WRONLY 0
    match os [] c with
    | .error errno => (-errno, [c])
    | .ok fd =>
      let res :=
        match os [c] (.pwrite fd size offset) with
        | .error errno => -errno
        | .ok n => n
      (res, [c, .pwrite fd size offset, .close fd])

/-- Function `ffs_statfs`. -/
def ffs_statfs (env : Env) (os : Os) (g : Globals) (path : CStr) : Int × List Syscall :=
  let r := exclude_path env g [] PATH_MAX path
  if r.1 ≠ 0 then (-ENOENT, []) else call_ret0 os (.statvfs r.2)

end Sparsefs

namespace Sparsefs

/-- A request for one of the path-taking entries of the table `ffs_oper` other than `readdir`,
with the arguments of the handler. -/
inductive Request where
  | getattr (path : CStr)
  | access (path : CStr) (mask : Int)
  | readlink (path : CStr) (size : Nat)
  | mknod (path : CStr) (mode rdev : Nat)
  | mkdir (path : CStr) (mode : Nat)
  | symlink («from» «to» : CStr)
  | unlink (path : CStr)
  | rmdir (path : CStr)
  | rename («from» «to» : CStr)
  | link («from» «to» : CStr)
  | chmod (path : CStr) (mode : Nat)
  | chown (path : CStr) (uid gid : Nat)
  | truncate (path : CStr) (size : Int)
  | utimens (path : CStr) (atime_sec atime_nsec mtime_sec mtime_nsec : Int)
  | «open» (path : CStr) (flags : Nat)
  | read (path : CStr) (size : Nat) (offset : Int)
  | write (path : CStr) (size : Nat) (offset : Int)
  | statfs (path : CStr)

/-- The table `ffs_oper`: the handler that serves a request. -/
def ffs_oper (env : Env) (os : Os) (g : Globals) : Request → Int × List Syscall
  | .getattr path => ffs_getattr env os g path
  | .access path mask => ffs_access env os g path mask
  | .readlink path size => ffs_readlink env os g path size
  | .mknod path mode rdev => ffs_mknod env os g path mode rdev
  | .mkdir path mode => ffs_mkdir env os g path mode
  | .symlink f t => ffs_symlink env os g f t
  | .unlink path => ffs_unlink env os g path
  | .rmdir path => ffs_rmdir env os g path
  | .rename f t => ffs_rename env os g f t
  | .link f t => ffs_link env os g f t
  | .chmod path mode => ffs_chmod env os g path mode
  | .chown path uid gid => ffs_chown env os g path uid gid
  | .truncate path size => ffs_truncate env os g path size
  | .utimens path asec ansec msec mnsec => ffs_utimens env os g path asec ansec msec mnsec
  | .open path flags => ffs_open env os g path flags
  | .read path size offset => ffs_read env os g path size offset
  | .write path size offset => ffs_write env os g path size offset
  | .statfs path => ffs_statfs env os g path

/-- The virtual paths of a request: one, or `from` and `to` for `symlink`, `rename`, `link`. -/
def Request.paths : Request → List CStr
  | .getattr path => [path]
  | .access path _ => [path]
  | .readlink path _ => [path]
  | .mknod path _ _ => [path]
  | .mkdir path _ => [path]
  | .symlink f t => [f, t]
  | .unlink path => [path]
  | .rmdir path => [path]
  | .rename f t => [f, t]
  | .link f t => [f, t]
  | .chmod path _ => [path]
  | .chown path _ _ => [path]
  | .truncate path _ => [path]
  | .utimens path _ _ _ _ => [path]
  | .open path _ => [path]
  | .read path _ _ => [path]
  | .write path _ _ => [path]
  | .statfs path => [path]

/-- The option keys of `ffs_opts` in sparsefs.c. -/
inductive OptKey where
  | KEY_EXCLUDE | KEY_INCLUDE | KEY_EXCLUDEFILE | KEY_INCLUDEFILE | KEY_DEFAULT_EXCLUDE
  | KEY_DEFAULT_INCLUDE | KEY_SOURCE | KEY_HELP | KEY_VERSION | KEY_KEEP_OPT
deriving DecidableEq

/-- The initializer of the global: `int default_exclude = 0;`. -/
def default_exclude_init : Int := 0

/-- What one call of `ffs_opt_proc` does to the global `default_exclude`: only the cases
`KEY_DEFAULT_EXCLUDE` and `KEY_DEFAULT_INCLUDE` assign it. -/
def opt_default_exclude (default_exclude : Int) : OptKey → Int
  | .KEY_DEFAULT_EXCLUDE => 1
  | .KEY_DEFAULT_INCLUDE => 0
  | _ => default_exclude

end Sparsefs

namespace Filterfs

/-- The separator `path[1] == 0 ? "" : "/"` of `ffs_readdir`. -/
def name_sep (path : CStr) : CStr := if path.drop 1 = [] then [] else ['/']

/-- The `while ((de = readdir(dp)) != NULL)` loop of `ffs_readdir` in filterfs.c; `buf` lists
the arguments of the filler calls made so far. -/
def readdir_loop (env : Env) (g : Globals) (xpath path : CStr)
    (filler : List FillArg → FillArg → Int) : List Dirent → List FillArg → List FillArg
  | [], buf => buf
  | de :: rest, buf =>
    let subpath := snprintf PATH_MAX (xpath ++ name_sep path ++ de.d_name)
    if exclude_chroot_path env g subpath ≠ 0 then readdir_loop env g xpath path filler rest buf
    else
      let st : FillArg := ⟨de.d_name, de.d_ino, de.d_type <<< 12⟩
      if filler buf st ≠ 0 then buf ++ [st]
      else readdir_loop env g xpath path filler rest (buf ++ [st])

/-- Function `ffs_readdir` of filterfs.c: return value and the filler calls made, in order. -/
def ffs_readdir (env : Env) (g : Globals) (path : CStr) (buf : List FillArg)
    (filler : List FillArg → FillArg → Int) : Int × List FillArg :=
  let r := exclude_path env g PATH_MAX path
  if r.1 ≠ 0 then (-ENOENT, buf)
  else
    match env.readdir r.2 with
    | .error errno => (-errno, buf)
    | .ok entries => (0, readdir_loop env g r.2 path filler entries buf)

/-- The option keys of `ffs_opts` in filterfs.c. -/
inductive OptKey where
  | FUSE_OPT_KEY_NONOPT | KEY_EXCLUDE | KEY_INCLUDE | KEY_EXCLUDEFILE | KEY_INCLUDEFILE
  | KEY_DEFAULT_EXCLUDE | KEY_DEFAULT_INCLUDE | KEY_HELP | KEY_VERSION | KEY_KEEP_OPT
deriving DecidableEq

/-- The initializer of the global: `int default_exclude = 0;`. -/
def default_exclude_init : Int := 0

/-- What one call of `ffs_opt_proc` does to the global `default_exclude`: only the cases
`KEY_DEFAULT_EXCLUDE` and `KEY_DEFAULT_INCLUDE` assign it. -/
def opt_default_exclude (default_exclude : Int) : OptKey → Int
  | .KEY_DEFAULT_EXCLUDE => 1
  | .KEY_DEFAULT_INCLUDE => 0
  | _ => default_exclude

end Filterfs

/-- The `struct stat` and name `ffs_readdir_helper` hands to the filler for a directory entry:
`st.st_ino = de->d_ino; st.st_mode = de->d_type << 12;`. -/
def fill_arg (de : Dirent) : FillArg := ⟨de.d_name, de.d_ino, de.d_type <<< 12⟩

/-- The pattern the specification expects `append_rule` to store for a raw pattern: one leading
quote removed if there is one, then one trailing quote removed if there is one, then one
trailing slash removed if there is one. -/
def spec_stored_pattern (raw : CStr) : CStr :=
  let s1 := if raw.head? = some QUOTE then raw.drop 1 else raw
  let s2 := if s1.getLast? = some QUOTE then s1.dropLast else s1
  if s2.getLast? = some '/' then s2.dropLast else s2

namespace Example

/-- Two source roots with a directory "D" each; both list ".", ".." and "n" in it, the second
also "m".  Nothing else exists. -/
def env_hidden : Env :=
  ⟨fun _ _ => false,
    fun p => decide (p ∈ ["/s1/".toList, "/s2/".toList, "/s1/D".toList, "/s2/D".toList,
      "/s1/D/.".toList, "/s1/D/..".toList, "/s1/D/n".toList, "/s2/D/.".toList,
      "/s2/D/..".toList, "/s2/D/n".toList, "/s2/D/m".toList]),
    fun p =>
      if p = "/s1/".toList then .ok [⟨['.'], 1, 4⟩, ⟨['.', '.'], 2, 4⟩, ⟨['D'], 10, 4⟩]
      else if p = "/s2/".toList then .ok [⟨['.'], 3, 4⟩, ⟨['.', '.'], 2, 4⟩, ⟨['D'], 20, 4⟩]
      else if p = "/s1/D".toList then .ok [⟨['.'], 10, 4⟩, ⟨['.', '.'], 1, 4⟩, ⟨['n'], 11, 8⟩]
      else if p = "/s2/D".toList then
        .ok [⟨['.'], 20, 4⟩, ⟨['.', '.'], 3, 4⟩, ⟨['n'], 21, 8⟩, ⟨['m'], 22, 8⟩]
      else .error 2,
    fun p => decide (p ∈ ["/s1/".toList, "/s2/".toList, "/s1/D".toList, "/s2/D".toList])⟩

/-- Two sources, the exclude rule "/s1/D", default include. -/
def globals_hidden : Sparsefs.Globals :=
  ⟨(Sparsefs.ingest Store.empty [("/s1/D".toList, 1)]).get (by decide),
    ["/s1/".toList, "/s2/".toList], 0⟩

/-- A filler with room for one entry: it returns 0 for the first call and 1 from then on. -/
def filler_one : List FillArg → FillArg → Int := fun buf _ => if buf.length < 1 then 0 else 1

/-- An operating system on which every call succeeds with result 3. -/
def os_ok : Os := fun _ _ => .ok 3

/-- A store with an exclude rule for "/s/x" and an exclude wildcard "/s/a/*". -/
def store_prior : Store :=
  (Sparsefs.ingest Store.empty [("/s/x".toList, 1), ("/s/a/*".toList, 1)]).get (by decide)

end Example


/-! ## Rule files -/

/-- The test `isspace(c)` of `<ctype.h>` in the C locale: space, `\t`, `\n`, `\v`, `\f`, `\r`. -/
def isspace (c : Char) : Bool :=
  decide (c = ' ') || (decide (9 ≤ c.toNat) && decide (c.toNat ≤ 13))

/-- The characters one call `fgets(line, size, f)` takes from what is left of the file, given
the room `size - 1`: up to and including the first newline, and no more than there is room
for. -/
def fgets_take : Nat → List Char → List Char
  | 0, _ => []
  | _ + 1, [] => []
  | n + 1, c :: rest => if c = '\n' then [c] else c :: fgets_take n rest

/-- The call `fgets(line, size, f)` on what is left of the file: `none` for the NULL it returns
at the end of the file, else the characters stored in `line` before the terminator and what is
left of the file afterwards. -/
def fgets (size : Nat) (file : List Char) : Option (List Char × List Char) :=
  if file = [] then none
  else some (fgets_take (size - 1) file, file.drop (fgets_take (size - 1) file).length)

namespace Sparsefs

/-- Function `checkString`: `*length` and `*empty` after the loop over the string. -/
def checkString (s : CStr) : Nat × Bool :=
  s.foldl (fun acc c => (acc.1 + 1, acc.2 && isspace c)) (0, true)

/-- The loop `while (fgets(line, sizeof(line), f))` of `parse_file` on what is left of the file.
Every round takes at least one character, so the length of the file is enough fuel.  The value
`append_rule` returns is ignored by the source (it is -1 only when `malloc` fails). -/
def parse_file_loop (exclude : Int) : Nat → List Char → Store → Option Store
  | 0, _, _ => none
  | fuel + 1, file, st =>
    match fgets PATH_MAX file with
    | none => some st
    | some (chunk, rest) =>
      let line := cstrAt (chunk ++ [NUL]) 0
      let (len, empty) := checkString line
      if empty then parse_file_loop exclude fuel rest st
      else if line.head? = some '#' then parse_file_loop exclude fuel rest st
      else
        let line1 := if line.get? (len - 1) = some '\n' then line.take (len - 1) else line
        (append_rule_dup st line1 exclude).bind (parse_file_loop exclude fuel rest)

/-- Function `parse_file` of sparsefs.c; `file` is the content of the file, `none` when `fopen`
fails. -/
def parse_file (file : Option (List Char)) (st : Store) (exclude : Int) : Option Store :=
  match file with
  | none => some st
  | some content => parse_file_loop exclude (content.length + 1) content st

end Sparsefs

/-- The content of a text file whose lines are `lines`, each ended by a newline. -/
def file_of_lines (lines : List CStr) : List Char :=
  (lines.map (fun l => l ++ ['\n'])).flatten

/-- The lines of a rule file that `parse_file` is to pass on: those that hold something other
than white space and do not begin with `#`. -/
def rule_line (l : CStr) : Bool := !(l.all isspace) && decide (l.head? ≠ some '#')

/-- The invariant the specification states for a stored pattern: it does not end in a slash and
neither begins nor ends with a quotation mark. -/
def clean_pattern (p : CStr) : Bool :=
  decide (p.getLast? ≠ some '/') && decide (p.head? ≠ some QUOTE) &&
    decide (p.getLast? ≠ some QUOTE)

/-- The number of rules in the store: the length of `chain` plus the lengths of the bucket
lists of `ht`. -/
def Store.size (st : Store) : Nat :=
  st.chain.length + ((List.range HT_LENGTH).map (fun i => (st.ht i).length)).sum

/-- Array `b1` is array `b` after some characters were overwritten with NUL: the same length,
still ending in NUL if `b` did, every string in it an initial part of what it was. -/
def Nulled (b b1 : Buffer) : Prop :=
  b1.length = b.length ∧ (b.getLast? = some NUL → b1.getLast? = some NUL) ∧
    ∀ off, cstrAt b1 off <+: cstrAt b off

/-! ## Building the rule store -/

/-- The loop of `append_rules`, the same text in both programs, over the `append_rule` of the
program; every round moves `str` past one more colon, so the length of the list is enough
fuel. -/
def append_rules_with (append_rule : Store → Ptr → Int → Option Store) :
    Nat → Store → Ptr → Int → Option Store
  | 0, _, _, _ => none
  | fuel + 1, st, str, exclude => do
    let st1 ← append_rule st str exclude
    let b := st1.mem.getD str.buf []
    let s := cstrAt b str.off
    if ':' ∈ s then
      let i := str.off + s.indexOf ':'
      append_rules_with append_rule fuel { st1 with mem := st1.mem.set str.buf (b.set i NUL) }
        ⟨str.buf, i + 1⟩ exclude
    else some st1

namespace Filterfs

/-- Function `append_rules` of filterfs.c. -/
def append_rules (env : Env) (st : Store) (patterns : Ptr) (exclude : Int) : Option Store :=
  append_rules_with (append_rule env) ((st.mem.str patterns).length + 1) st patterns exclude

/-- The call `append_rules(strdup(str), exclude)` of `ffs_opt_proc` in filterfs.c. -/
def append_rules_dup (env : Env) (st : Store) (patterns : CStr) (exclude : Int) :
    Option Store :=
  append_rules env { st with mem := (strdup st.mem patterns).1 } (strdup st.mem patterns).2
    exclude

end Filterfs

/-- One source of rules at start-up: the argument of an option `-X` or `-I`, handed to
`append_rules(strdup(str), exclude)`, or a line of a rule file, handed to
`append_rule(strdup(line), exclude)`. -/
inductive RuleArg where
  | list (patterns : CStr) (exclude : Int)
  | line (pattern : CStr) (exclude : Int)

namespace Sparsefs

/-- The rule store of sparsefs.c after the rules of one option or line are added. -/
def add_rules (st : Store) : RuleArg → Option Store
  | .list patterns exclude => append_rules_dup st patterns exclude
  | .line pattern exclude => append_rule_dup st pattern exclude

/-- The rule store of sparsefs.c after the options and lines are worked off in order. -/
def build : Store → List RuleArg → Option Store
  | st, [] => some st
  | st, arg :: rest => (add_rules st arg).bind (fun st1 => build st1 rest)

end Sparsefs

namespace Filterfs

/-- The rule store of filterfs.c after the rules of one option or line are added. -/
def add_rules (env : Env) (st : Store) : RuleArg → Option Store
  | .list patterns exclude => append_rules_dup env st patterns exclude
  | .line pattern exclude => append_rule_dup env st pattern exclude

/-- The rule store of filterfs.c after the options and lines are worked off in order. -/
def build (env : Env) : Store → List RuleArg → Option Store
  | st, [] => some st
  | st, arg :: rest => (add_rules env st arg).bind (fun st1 => build env st1 rest)

end Filterfs

/-- Memory `m1` is memory `m` after some characters were overwritten with NUL and some arrays
were allocated. -/
def MemGrows (m m1 : Mem) : Prop :=
  m.length ≤ m1.length ∧ ∀ k, k < m.length → Nulled (m.getD k []) (m1.getD k [])

/-- Every rule points into an allocated character array, every array ends in NUL, and no
pattern in the table has a wildcard. -/
structure Store.Literal (st : Store) : Prop where
  alloc : st.Alloc
  terminated : ∀ b ∈ st.mem, b.getLast? = some NUL
  literal : ∀ i, ∀ r ∈ st.ht i, has_wildcard (st.pat r) = false

/-- The pointer designates a string inside an allocated array, at the start of the array or
behind a NUL. -/
def Store.Valid (st : Store) (p : Ptr) : Prop :=
  p.buf < st.mem.length ∧ p.off < (st.mem.getD p.buf []).length ∧
    (p.off = 0 ∨ (st.mem.getD p.buf [])[p.off - 1]? = some NUL)

/-- What the proofs need of an `append_rule`: called on a valid pointer it keeps the invariant
of the store and only overwrites characters with NUL or allocates. -/
def CallOk (append_rule : Store → Ptr → Int → Option Store) : Prop :=
  ∀ st p a st1, st.Literal → st.Valid p → append_rule st p a = some st1 →
    st1.Literal ∧ MemGrows st.mem st1.mem

namespace Example

/-- The options `-X /s/a:/s/b*` and a line `"/s/c/"` of an include file. -/
def rule_args : List RuleArg :=
  [.list "/s/a:/s/b*".toList 1, .line (QUOTE :: ("/s/c/".toList ++ [QUOTE])) 0]

/-- The store sparsefs.c builds from `rule_args`. -/
def store_built : Store := (Sparsefs.build Store.empty rule_args).get (by decide)

end Example

/-! ## Notions used to state the claims on patterns -/

/-- The body of a raw pattern as `append_rule` takes it: the pattern without its first and its
last character when either of them is a quotation mark (the test of the first `if`), else the
whole pattern. -/
def quote_body (raw : CStr) : CStr := if is_quoted raw then (raw.drop 1).dropLast else raw

/-- A body that neither begins nor ends with a quotation mark and does not end in a slash that
follows a slash or a quotation mark. -/
def clean_body (body : CStr) : Bool :=
  decide (body.head? ≠ some QUOTE) && decide (body.getLast? ≠ some QUOTE) &&
    !decide (['/', '/'] <:+ body) && !decide ([QUOTE, '/'] <:+ body)

/-- The number of path components of a string, the runs of characters other than the slash:
counted are the characters other than the slash that the end of the string or a slash
follows. -/
def path_components : CStr → Nat
  | [] => 0
  | c :: rest =>
    (if c ≠ '/' ∧ (rest = [] ∨ rest.head? = some '/') then 1 else 0) + path_components rest

/-- The string begins with exactly two slashes. -/
def two_slash_root (s : CStr) : Bool := decide (['/', '/'] <+: s) && decide (s[2]? ≠ some '/')

namespace Filterfs

/-- Function `append_rule` of filterfs.c as in `append_rule_fuel`, with the two ways in which
no store is returned kept apart: `none` when the bound on the depth of the calls is used up,
`some none` when a call reads or writes outside its character array (where C gives the call no
meaning), `some (some st)` when the call returns with the store `st`. -/
def append_rule_run (env : Env) : Nat → Store → Ptr → Int → Option (Option Store)
  | 0, _, _, _ => none
  | fuel + 1, st, pattern, exclude =>
    match store_rule st pattern exclude with
    | none => some none
    | some st1 =>
      let dir := dirname (st1.mem.str pattern)
      if parent_usable dir.2 && env.is_dir dir.2 then
        append_rule_run env fuel { st1 with mem := (strdup st1.mem dir.1).1 }
          (strdup st1.mem dir.1).2 exclude
      else some (some st1)

end Filterfs

namespace Example

/-- A world in which `wildmatch` accepts the pattern "/s/*" for every path and any other pattern
for the path equal to it; every path exists. -/
def env_star : Env :=
  ⟨fun pattern path => decide (pattern = "/s/*".toList) || decide (pattern = path),
    fun _ => true, fun _ => .ok [], fun _ => true⟩

/-- A world in which exactly the paths that fit a buffer of `PATH_MAX` characters exist. -/
def env_short : Env :=
  ⟨fun _ _ => false, fun p => decide (p.length < PATH_MAX), fun _ => .ok [], fun _ => false⟩

/-- A world in which exactly the paths too long for a buffer of `PATH_MAX` characters exist. -/
def env_long : Env :=
  ⟨fun _ _ => false, fun p => decide (PATH_MAX ≤ p.length), fun _ => .ok [], fun _ => false⟩

/-- A world whose only directory is the root, spelled with any number of slashes. -/
def env_root : Env :=
  ⟨fun _ _ => false, fun _ => true, fun _ => .ok [],
    fun p => decide (p ≠ []) && p.all (fun c => decide (c = '/'))⟩

end Example

/-! ## Memory lemmas -/

theorem Mem.str_set_ne (m : Mem) (k : Nat) (b1 : Buffer) (p : Ptr) (h : p.buf ≠ k) :
    Mem.str (m.set k b1) p = Mem.str m p := by
  unfold Mem.str
  congr 1
  simp only [List.getD_eq_getElem?_getD]
  rw [List.getElem?_set_ne (Ne.symm h)]

theorem Mem.str_append_of_lt (m : Mem) (x : Buffer) (p : Ptr) (h : p.buf < m.length) :
    Mem.str (m ++ [x]) p = Mem.str m p := by
  unfold Mem.str
  congr 1
  simp only [List.getD_eq_getElem?_getD]
  rw [List.getElem?_append_left h]

theorem Mem.str_dup_set (m : Mem) (x b1 : Buffer) (p : Ptr) (h : p.buf < m.length) :
    Mem.str ((m ++ [x]).set m.length b1) p = Mem.str m p := by
  rw [Mem.str_set_ne _ _ _ _ (Nat.ne_of_lt h), Mem.str_append_of_lt _ _ _ h]

/-! ## One `append_rule` call on a string of its own -/

theorem route_rule_cases (st : Store) (mem1 : Mem) (pattern : Ptr) (rule : Rule) :
    ((route_rule st mem1 pattern rule).mem = mem1) ∧
    ((has_wildcard (mem1.str pattern) = true ∧
        (route_rule st mem1 pattern rule).chain = st.chain ++ [rule] ∧
        (route_rule st mem1 pattern rule).ht = st.ht) ∨
      (has_wildcard (mem1.str pattern) = false ∧
        (route_rule st mem1 pattern rule).chain = st.chain ∧
        (route_rule st mem1 pattern rule).ht =
          Function.update st.ht (calc_hash (mem1.str rule.pattern) % HT_LENGTH)
            (st.ht (calc_hash (mem1.str rule.pattern) % HT_LENGTH) ++ [rule]))) := by
  unfold route_rule
  split
  · rename_i hw
    exact ⟨rfl, Or.inl ⟨hw, rfl, rfl⟩⟩
  · rename_i hw
    exact ⟨rfl, Or.inr ⟨by simpa using hw, rfl, rfl⟩⟩

/-! ## The stripping steps on a string of its own -/

theorem cstrAt_append (s pad : List Char) (hs : NUL ∉ s)
    (hpad : pad.head? = some NUL ∨ pad = []) : cstrAt (s ++ pad) 0 = s := by
  unfold cstrAt
  rw [List.drop_zero]
  induction s with
  | nil =>
    rcases hpad with h | h
    · cases pad with
      | nil => simp at h
      | cons c pad =>
        simp only [List.head?_cons, Option.some.injEq] at h
        simp [h]
    · simp [h]
  | cons c s ih =>
    have hc : c ≠ NUL := fun h => hs (h ▸ List.mem_cons_self _ _)
    have hs2 : NUL ∉ s := fun h => hs (List.mem_cons_of_mem _ h)
    simp only [List.cons_append, List.takeWhile_cons, hc, ne_eq, not_false_eq_true,
      decide_True, if_true]
    rw [ih hs2]

theorem peek_pred (b : List Char) (i : Nat) :
    peek b 0 ((i : Int) - 1) = if i = 0 then none else b[i - 1]? := by
  unfold peek
  by_cases hi : i = 0
  · subst hi; simp
  · have h1 : (0 : Int) ≤ ((0 : Nat) : Int) + ((i : Int) - 1) := by omega
    have h2 : (((0 : Nat) : Int) + ((i : Int) - 1)).toNat = i - 1 := by omega
    rw [if_pos h1, h2, if_neg hi]

theorem poke_pred (b : List Char) (i : Nat) (c : Char) :
    poke b 0 ((i : Int) - 1) c =
      if 0 < i ∧ i ≤ b.length then some (b.set (i - 1) c) else none := by
  unfold poke
  by_cases hi : 0 < i ∧ i ≤ b.length
  · have h1 : (0 : Int) ≤ ((0 : Nat) : Int) + ((i : Int) - 1) := by omega
    have h2 : (((0 : Nat) : Int) + ((i : Int) - 1)).toNat = i - 1 := by omega
    rw [if_pos hi, h2, if_pos ⟨h1, by omega⟩]
  · rw [if_neg hi, if_neg]
    intro ⟨h1, h2⟩
    apply hi
    omega

theorem peek_end (t pad : List Char) :
    peek (t ++ pad) 0 ((t.length : Int) - 1) = t.getLast? := by
  rw [peek_pred]
  cases t using List.reverseRecOn with
  | nil => simp
  | append_singleton t c =>
    have h : (t ++ [c] ++ pad)[(t ++ [c]).length - 1]? = some c := by
      rw [List.append_assoc, List.length_append, List.length_singleton, Nat.add_sub_cancel,
        List.getElem?_append_right (le_refl _)]
      simp
    rw [h]
    simp

theorem poke_end (t pad : List Char) (c : Char) :
    poke (t ++ pad) 0 ((t.length : Int) - 1) c =
      if t = [] then none else some (t.dropLast ++ c :: pad) := by
  rw [poke_pred]
  cases t using List.reverseRecOn with
  | nil => simp
  | append_singleton t d =>
    simp

theorem peek_first (s pad : List Char) (hpad : pad.head? = some NUL) :
    peek (s ++ pad) 0 0 = if s = [] then some NUL else s.head? := by
  cases s with
  | nil =>
    cases pad with
    | nil => simp at hpad
    | cons p pad =>
      simp only [List.head?_cons, Option.some.injEq] at hpad
      simp [peek, hpad]
  | cons c s => simp [peek]

theorem strip_quotes_dup (s pad : List Char) (hs : NUL ∉ s) (hpad : pad.head? = some NUL) :
    strip_quotes (s ++ pad) 0 =
      if s = [] then none
      else if is_quoted s then some (s.dropLast ++ NUL :: pad, 1, (s.length : Int) - 1)
      else some (s ++ pad, 0, (s.length : Int)) := by
  unfold strip_quotes
  simp only [cstrAt_append s pad hs (Or.inl hpad), peek_first s pad hpad, peek_end, poke_end]
  by_cases hs0 : s = []
  · have hq : NUL ≠ QUOTE := by decide
    simp [hs0, hq]
  · obtain ⟨c0, hc0⟩ : ∃ c0, s.head? = some c0 := by
      cases s with
      | nil => exact absurd rfl hs0
      | cons c s => exact ⟨c, rfl⟩
    obtain ⟨l, hl⟩ : ∃ l, s.getLast? = some l :=
      ⟨s.getLast hs0, List.getLast?_eq_getLast _ hs0⟩
    simp only [hs0, if_false, hc0, hl, is_quoted]
    by_cases h1 : c0 = QUOTE
    · simp [h1]
    · by_cases h2 : l = QUOTE
      · simp [h1, h2]
      · simp [h1, h2]

theorem strip_slash_dup (t pad : List Char) :
    strip_slash (t ++ pad) 0 (t.length : Int) =
      if t = [] then none
      else if t.getLast? = some '/' then some (t.dropLast ++ NUL :: pad)
      else some (t ++ pad) := by
  unfold strip_slash
  rw [peek_end, poke_end]
  by_cases ht : t = []
  · simp [ht]
  · obtain ⟨l, hl⟩ : ∃ l, t.getLast? = some l :=
      ⟨t.getLast ht, List.getLast?_eq_getLast _ ht⟩
    by_cases h : l = '/'
    · simp [ht, hl, h]
    · simp [ht, hl, h]

theorem length_dropLast_cast (s : List Char) (hs : s ≠ []) :
    (s.length : Int) - 1 = (s.dropLast.length : Int) := by
  rw [List.length_dropLast]
  have : 0 < s.length := List.length_pos.mpr hs
  omega

/-- The stripping steps of `append_rule` on an array that holds just the string `s`. -/
theorem strip_pattern_dup (s pad : List Char) (hs : NUL ∉ s) (hpad : pad.head? = some NUL) :
    strip_pattern (s ++ pad) 0 =
      if unquoted s = [] then none
      else some (stripped s ++ List.replicate (s.length - (stripped s).length) NUL ++ pad,
        rule_off s) := by
  unfold strip_pattern
  rw [strip_quotes_dup s pad hs hpad]
  by_cases hs0 : s = []
  · simp [hs0, unquoted]
  · rw [if_neg hs0]
    have hlen : 0 < s.length := List.length_pos.mpr hs0
    by_cases hq : is_quoted s = true
    · simp only [hq, if_true, Option.some_bind, unquoted, stripped, rule_off]
      rw [length_dropLast_cast s hs0, strip_slash_dup]
      by_cases hu : s.dropLast = []
      · simp [hu]
      · have hlen2 : 0 < s.dropLast.length := List.length_pos.mpr hu
        rw [List.length_dropLast] at hlen2
        by_cases hsl : s.dropLast.getLast? = some '/'
        · have h2 : s.length - (s.length - 1 - 1) = 2 := by omega
          simp [hu, hsl, List.length_dropLast, h2, List.replicate]
        · have h2 : s.length - (s.length - 1) = 1 := by omega
          simp [hu, hsl, List.length_dropLast, h2, List.replicate]
    · simp only [hq, Bool.false_eq_true, if_false, Option.some_bind, unquoted, stripped, rule_off]
      rw [strip_slash_dup]
      by_cases hsl : s.getLast? = some '/'
      · have h2 : s.length - (s.length - 1) = 1 := by omega
        simp [hs0, hsl, List.length_dropLast, h2, List.replicate]
      · simp [hs0, hsl]

theorem not_nul_mem_cstrAt (b : List Char) (off : Nat) : NUL ∉ cstrAt b off := by
  unfold cstrAt
  intro h
  have := List.mem_takeWhile_imp h
  simp at this

/-- An array made by `strdup` is its C string followed by padding that starts with NUL. -/
theorem dup_split (s : List Char) :
    ∃ pad, pad.head? = some NUL ∧ s ++ [NUL] = cstrAt s 0 ++ pad := by
  refine ⟨s.dropWhile (fun c => decide (c ≠ NUL)) ++ [NUL], ?_, ?_⟩
  · cases h : s.dropWhile (fun c => decide (c ≠ NUL)) with
    | nil => rfl
    | cons c l =>
      have hc := List.head_dropWhile_not (fun c => decide (c ≠ NUL)) s
        (by rw [h]; exact List.cons_ne_nil _ _)
      simp only [h, List.head_cons] at hc
      simp only [List.cons_append, List.head?_cons, Option.some.injEq]
      simpa using hc
  · unfold cstrAt
    rw [List.drop_zero, ← List.append_assoc, List.takeWhile_append_dropWhile]

theorem not_nul_mem_dropLast (s : List Char) (h : NUL ∉ s) : NUL ∉ s.dropLast :=
  fun hm => h (List.mem_of_mem_dropLast hm)

theorem not_nul_mem_stripped (s : List Char) (h : NUL ∉ s) : NUL ∉ stripped s := by
  unfold stripped unquoted
  split <;> split <;>
    first
      | exact h
      | exact not_nul_mem_dropLast _ h
      | exact not_nul_mem_dropLast _ (not_nul_mem_dropLast _ h)

theorem cstrAt_zero_pad (t pad : List Char) (k : Nat) (ht : NUL ∉ t)
    (hpad : pad.head? = some NUL) : cstrAt (t ++ List.replicate k NUL ++ pad) 0 = t := by
  rw [List.append_assoc]
  apply cstrAt_append t _ ht
  left
  cases k with
  | zero => simpa using hpad
  | succ k => simp [List.replicate]

theorem cstrAt_one_pad (t pad : List Char) (k : Nat) (ht : NUL ∉ t)
    (hpad : pad.head? = some NUL) (hk : t = [] → 2 ≤ k) :
    cstrAt (t ++ List.replicate k NUL ++ pad) 1 = t.drop 1 := by
  cases t with
  | nil =>
    obtain ⟨k, rfl⟩ : ∃ j, k = j + 2 := ⟨k - 2, by have := hk rfl; omega⟩
    simp [cstrAt, List.replicate]
  | cons c t =>
    have ht2 : NUL ∉ t := fun h => ht (List.mem_cons_of_mem _ h)
    have h := cstrAt_zero_pad t pad k ht2 hpad
    unfold cstrAt at h ⊢
    simpa using h

theorem Mem.str_dup_set_new (m : Mem) (x b1 : Buffer) (off : Nat) :
    Mem.str ((m ++ [x]).set m.length b1) ⟨m.length, off⟩ = cstrAt b1 off := by
  unfold Mem.str
  simp [List.getD_eq_getElem?_getD]

theorem has_wildcard_drop (s : CStr) (n : Nat) (h : has_wildcard s = false) :
    has_wildcard (s.drop n) = false := by
  unfold has_wildcard at h ⊢
  rw [List.any_eq_false] at h ⊢
  intro c hc
  exact h c (List.mem_of_mem_drop hc)

/-- Storing a rule for a string of its own: the rule has the cleaned pattern and goes to the
chain or to the table according to the wildcards of the stripped pattern, which is what
`pattern` designates afterwards. -/
theorem store_rule_dup_spec (st st1 : Store) (s : CStr) (a : Int)
    (h : store_rule { st with mem := st.mem ++ [s ++ [NUL]] } ⟨st.mem.length, 0⟩ a = some st1) :
    ∃ rule : Rule, rule.exclude = a ∧ st.Grows st1 rule ∧
      st1.pat rule = cleaned (cstrAt s 0) ∧ unquoted (cstrAt s 0) ≠ [] ∧
      st1.mem.str ⟨st.mem.length, 0⟩ = stripped (cstrAt s 0) ∧
      ((has_wildcard (stripped (cstrAt s 0)) = true ∧ st1.chain = st.chain ++ [rule]) ∨
        (has_wildcard (stripped (cstrAt s 0)) = false ∧ st1.chain = st.chain ∧
          st1.ht (calc_hash (cleaned (cstrAt s 0)) % HT_LENGTH) =
            st.ht (calc_hash (cleaned (cstrAt s 0)) % HT_LENGTH) ++ [rule])) := by
  obtain ⟨pad, hpad, hsplit⟩ := dup_split s
  have hnul := not_nul_mem_cstrAt s 0
  unfold store_rule at h
  simp only [Option.bind_eq_bind, Option.bind_eq_some] at h
  obtain ⟨b, hb, ⟨b1, roff⟩, hstrip, h⟩ := h
  simp only [Option.some.injEq] at h
  have hbeq : b = cstrAt s 0 ++ pad := by
    simp only [List.getElem?_append_right (le_refl _), Nat.sub_self, List.getElem?_cons_zero,
      Option.some.injEq] at hb
    rw [← hb, hsplit]
  rw [hbeq, strip_pattern_dup _ _ hnul hpad] at hstrip
  by_cases hu : unquoted (cstrAt s 0) = []
  · rw [if_pos hu] at hstrip; exact absurd hstrip (by simp)
  rw [if_neg hu] at hstrip
  simp only [Option.some.injEq, Prod.mk.injEq] at hstrip
  obtain ⟨hb1, hroff⟩ := hstrip
  have hns := not_nul_mem_stripped _ hnul
  have hstr0 : cstrAt b1 0 = stripped (cstrAt s 0) := by
    rw [← hb1]; exact cstrAt_zero_pad _ _ _ hns hpad
  have hstr1 : cstrAt b1 roff = cleaned (cstrAt s 0) := by
    rw [← hroff]
    unfold cleaned rule_off
    by_cases hq : is_quoted (cstrAt s 0) = true
    · simp only [hq, if_true]
      rw [← hb1]
      apply cstrAt_one_pad _ _ _ hns hpad
      intro hnil
      rw [hnil, List.length_nil, Nat.sub_zero]
      have h2 : (cstrAt s 0).dropLast ≠ [] := by
        simpa [unquoted, hq] using hu
      have h3 := List.length_pos.mpr h2
      rw [List.length_dropLast] at h3
      omega
    · simp only [hq, Bool.false_eq_true, if_false, List.drop_zero]
      exact hstr0
  have hc := route_rule_cases { st with mem := st.mem ++ [s ++ [NUL]] }
    ((st.mem ++ [s ++ [NUL]]).set st.mem.length b1) ⟨st.mem.length, 0⟩
    ⟨⟨st.mem.length, roff⟩, a⟩
  rw [h] at hc
  have hpat : st1.pat ⟨⟨st.mem.length, roff⟩, a⟩ = cleaned (cstrAt s 0) := by
    simp only [Store.pat, hc.1]
    rw [Mem.str_dup_set_new]
    exact hstr1
  have htest : Mem.str ((st.mem ++ [s ++ [NUL]]).set st.mem.length b1) ⟨st.mem.length, 0⟩ =
      stripped (cstrAt s 0) := by
    rw [Mem.str_dup_set_new]; exact hstr0
  refine ⟨⟨⟨st.mem.length, roff⟩, a⟩, rfl, ⟨rfl, ?_, ?_, ?_⟩, hpat, hu, ?_, ?_⟩
  · rw [hc.1]; simp
  · intro p hp
    rw [hc.1]
    exact Mem.str_dup_set _ _ _ _ hp
  · rcases hc.2 with h2 | h2
    · exact Or.inl h2.2
    · right
      refine ⟨h2.2.1, ?_, ?_⟩
      · rw [hpat]
        unfold cleaned
        apply has_wildcard_drop
        rw [← htest]
        exact h2.1
      · rw [h2.2.2]
        simp only [Store.pat, hc.1]
  · rw [hc.1]; exact htest
  · rcases hc.2 with h2 | h2
    · left
      exact ⟨by rw [← htest]; exact h2.1, h2.2.1⟩
    · right
      refine ⟨by rw [← htest]; exact h2.1, h2.2.1, ?_⟩
      rw [h2.2.2, Mem.str_dup_set_new, hstr1]
      simp

/-- Storing a rule for a string of its own succeeds unless nothing is left of the pattern once
it is unquoted. -/
theorem store_rule_dup_some (st : Store) (s : CStr) (a : Int)
    (hu : unquoted (cstrAt s 0) ≠ []) :
    ∃ st1, store_rule { st with mem := st.mem ++ [s ++ [NUL]] } ⟨st.mem.length, 0⟩ a =
      some st1 := by
  obtain ⟨pad, hpad, hsplit⟩ := dup_split s
  have hnul := not_nul_mem_cstrAt s 0
  unfold store_rule
  simp only [List.getElem?_append_right (le_refl _), Nat.sub_self, List.getElem?_cons_zero,
    Option.bind_eq_bind, Option.some_bind]
  rw [hsplit, strip_pattern_dup _ _ hnul hpad, if_neg hu]
  exact ⟨_, rfl⟩

theorem Sparsefs.append_rule_dup_spec (st st1 : Store) (s : CStr) (a : Int)
    (h : Sparsefs.append_rule_dup st s a = some st1) :
    ∃ rule : Rule, rule.exclude = a ∧ st.Grows st1 rule ∧
      st1.pat rule = cleaned (cstrAt s 0) ∧ unquoted (cstrAt s 0) ≠ [] ∧
      st1.mem.str ⟨st.mem.length, 0⟩ = stripped (cstrAt s 0) ∧
      ((has_wildcard (stripped (cstrAt s 0)) = true ∧ st1.chain = st.chain ++ [rule]) ∨
        (has_wildcard (stripped (cstrAt s 0)) = false ∧ st1.chain = st.chain ∧
          st1.ht (calc_hash (cleaned (cstrAt s 0)) % HT_LENGTH) =
            st.ht (calc_hash (cleaned (cstrAt s 0)) % HT_LENGTH) ++ [rule])) :=
  store_rule_dup_spec st st1 s a h

theorem Sparsefs.append_rule_dup_grows (st st1 : Store) (s : CStr) (a : Int)
    (h : Sparsefs.append_rule_dup st s a = some st1) :
    ∃ rule : Rule, rule.exclude = a ∧ st.Grows st1 rule := by
  obtain ⟨rule, h1, h2, _⟩ := Sparsefs.append_rule_dup_spec st st1 s a h
  exact ⟨rule, h1, h2⟩

/-! ## Classification -/

theorem tail_is_iff (path suffix : CStr) : tail_is path suffix = true ↔ suffix <:+ path := by
  unfold tail_is
  rw [decide_eq_true_eq, List.suffix_iff_eq_drop]
  exact eq_comm

theorem Sparsefs.sources_any_iff (g : Sparsefs.Globals) (path : CStr) :
    g.sources.any (fun src => decide (path = src)) = true ↔ path ∈ g.sources := by
  simp [List.any_eq_true]

/-- Past the source-root and dot guards `exclude_chroot_path` is the rule search. -/
theorem Sparsefs.exclude_chroot_path_rules (env : Env) (g : Sparsefs.Globals) (path : CStr)
    (hroot : path ∉ g.sources) (hdot : ¬ ['/', '.'] <:+ path)
    (hdotdot : ¬ ['/', '.', '.'] <:+ path) :
    Sparsefs.exclude_chroot_path env g path =
      match rule_or_chain env g.store
        (if has_wildcard path then none else Sparsefs.getRuleByHash g.store path) path with
      | some r => r.exclude
      | none => g.default_exclude := by
  unfold Sparsefs.exclude_chroot_path
  rw [if_neg (by rw [Sparsefs.sources_any_iff]; exact hroot),
    if_neg (by rw [tail_is_iff]; exact hdot), if_neg (by rw [tail_is_iff]; exact hdotdot)]

theorem Sparsefs.getRuleByHash_none (st : Store) (s : CStr)
    (h : ∀ r ∈ st.ht (calc_hash s % HT_LENGTH), st.pat r ≠ s) :
    Sparsefs.getRuleByHash st s = none := by
  unfold Sparsefs.getRuleByHash
  rw [List.find?_eq_none]
  intro r hr
  simpa using h r hr

theorem Sparsefs.getRuleByHash_some (st : Store) (s : CStr) (r : Rule)
    (h : Sparsefs.getRuleByHash st s = some r) :
    r ∈ st.ht (calc_hash s % HT_LENGTH) ∧ st.pat r = s := by
  unfold Sparsefs.getRuleByHash at h
  refine ⟨List.mem_of_find?_eq_some h, ?_⟩
  simpa using List.find?_some h

theorem find_first_match {α : Type} (p : α → Bool) (pre post : List α) (r : α)
    (hpre : ∀ q ∈ pre, p q = false) (hr : p r = true) :
    (pre ++ r :: post).find? p = some r := by
  induction pre with
  | nil => simp [List.find?, hr]
  | cons q pre ih =>
    have hq : p q = false := hpre q (List.mem_cons_self _ _)
    simp only [List.cons_append, List.find?, hq]
    exact ih (fun x hx => hpre x (List.mem_cons_of_mem _ hx))

theorem find_congr_mem {α : Type} (p q : α → Bool) (l : List α)
    (h : ∀ x ∈ l, p x = q x) : l.find? p = l.find? q := by
  induction l with
  | nil => rfl
  | cons x l ih =>
    have hx : p x = q x := h x (List.mem_cons_self _ _)
    simp only [List.find?, hx]
    rw [ih (fun y hy => h y (List.mem_cons_of_mem _ hy))]

/-! ## Stores that grow by one rule -/

theorem Store.empty_sound : Store.empty.Sound :=
  ⟨⟨fun _ _ h => by simp [Store.empty] at h, fun _ h => by simp [Store.empty] at h⟩,
    fun _ _ h => by simp [Store.empty] at h, fun _ _ h => by simp [Store.empty] at h⟩

theorem Store.Grows.pat_old {st st1 : Store} {rule : Rule} (hg : st.Grows st1 rule) (r : Rule)
    (hr : r.pattern.buf < st.mem.length) : st1.pat r = st.pat r :=
  hg.2.2.1 r.pattern hr

theorem Store.Grows.ht_cases {st st1 : Store} {rule : Rule} (hg : st.Grows st1 rule) (i : Nat) :
    st1.ht i = st.ht i ∨
      (st1.ht i = st.ht i ++ [rule] ∧ calc_hash (st1.pat rule) % HT_LENGTH = i ∧
        has_wildcard (st1.pat rule) = false) := by
  rcases hg.2.2.2 with h | h
  · left; rw [h.2]
  · by_cases hi : i = calc_hash (st1.pat rule) % HT_LENGTH
    · right
      subst hi
      rw [h.2.2]
      simp [h.2.1]
    · left
      rw [h.2.2, Function.update_noteq hi]

theorem Store.Grows.chain_cases {st st1 : Store} {rule : Rule} (hg : st.Grows st1 rule) :
    st1.chain = st.chain ∨ st1.chain = st.chain ++ [rule] := by
  rcases hg.2.2.2 with h | h
  · exact Or.inr h.1
  · exact Or.inl h.1

theorem Store.Grows.alloc {st st1 : Store} {rule : Rule} (ha : st.Alloc)
    (hg : st.Grows st1 rule) : st1.Alloc := by
  have hlen := hg.2.1
  have hnew : rule.pattern.buf < st1.mem.length := by rw [hlen, hg.1]; exact Nat.lt_succ_self _
  constructor
  · intro i r hr
    rcases hg.ht_cases i with h | ⟨h, _⟩
    · rw [h] at hr
      exact Nat.lt_of_lt_of_le (ha.ht_alloc i r hr) (by rw [hlen]; exact Nat.le_succ _)
    · rw [h, List.mem_append, List.mem_singleton] at hr
      rcases hr with hr | hr
      · exact Nat.lt_of_lt_of_le (ha.ht_alloc i r hr) (by rw [hlen]; exact Nat.le_succ _)
      · rw [hr]; exact hnew
  · intro r hr
    rcases hg.chain_cases with h | h
    · rw [h] at hr
      exact Nat.lt_of_lt_of_le (ha.chain_alloc r hr) (by rw [hlen]; exact Nat.le_succ _)
    · rw [h, List.mem_append, List.mem_singleton] at hr
      rcases hr with hr | hr
      · exact Nat.lt_of_lt_of_le (ha.chain_alloc r hr) (by rw [hlen]; exact Nat.le_succ _)
      · rw [hr]; exact hnew

theorem Store.Grows.sound {st st1 : Store} {rule : Rule} (hs : st.Sound)
    (hg : st.Grows st1 rule) : st1.Sound := by
  refine ⟨hg.alloc hs.alloc, ?_, ?_⟩
  · intro i r hr
    rcases hg.ht_cases i with h | ⟨h, hi, _⟩
    · rw [h] at hr
      rw [hg.pat_old r (hs.alloc.ht_alloc i r hr)]
      exact hs.bucket i r hr
    · rw [h, List.mem_append, List.mem_singleton] at hr
      rcases hr with hr | hr
      · rw [hg.pat_old r (hs.alloc.ht_alloc i r hr)]
        exact hs.bucket i r hr
      · rw [hr]; exact hi
  · intro i r hr
    rcases hg.ht_cases i with h | ⟨h, _, hw⟩
    · rw [h] at hr
      rw [hg.pat_old r (hs.alloc.ht_alloc i r hr)]
      exact hs.literal i r hr
    · rw [h, List.mem_append, List.mem_singleton] at hr
      rcases hr with hr | hr
      · rw [hg.pat_old r (hs.alloc.ht_alloc i r hr)]
        exact hs.literal i r hr
      · rw [hr]; exact hw

/-- A rule found by the exact-match lookup is still the one found after the store has grown. -/
theorem Store.Grows.lookup_mono {st st1 : Store} {rule : Rule} (ha : st.Alloc)
    (hg : st.Grows st1 rule) (s : CStr) (r : Rule)
    (h : Sparsefs.getRuleByHash st s = some r) : Sparsefs.getRuleByHash st1 s = some r := by
  unfold Sparsefs.getRuleByHash at h ⊢
  have hold : (st.ht (calc_hash s % HT_LENGTH)).find? (fun e => decide (st1.pat e = s)) =
      some r := by
    rw [← h]
    apply find_congr_mem
    intro e he
    rw [hg.pat_old e (ha.ht_alloc _ e he)]
  rcases hg.ht_cases (calc_hash s % HT_LENGTH) with h1 | ⟨h1, _⟩
  · rw [h1]; exact hold
  · rw [h1, List.find?_append, hold]; rfl

/-- When the lookup of `s` found nothing before the store grew, it finds nothing or the new
rule afterwards. -/
theorem Store.Grows.lookup_new {st st1 : Store} {rule : Rule} (ha : st.Alloc)
    (hg : st.Grows st1 rule) (s : CStr) (r : Rule)
    (h0 : Sparsefs.getRuleByHash st s = none)
    (h : Sparsefs.getRuleByHash st1 s = some r) : r = rule := by
  unfold Sparsefs.getRuleByHash at h0 h
  have hold : (st.ht (calc_hash s % HT_LENGTH)).find? (fun e => decide (st1.pat e = s)) =
      none := by
    rw [← h0]
    apply find_congr_mem
    intro e he
    rw [hg.pat_old e (ha.ht_alloc _ e he)]
  rcases hg.ht_cases (calc_hash s % HT_LENGTH) with h1 | ⟨h1, _⟩
  · rw [h1, hold] at h; exact absurd h (by simp)
  · rw [h1, List.find?_append, hold] at h
    simp only [Option.none_or] at h
    exact (List.mem_singleton.mp (List.mem_of_find?_eq_some h))

/-! ## Sequences of `append_rule` calls -/

theorem Sparsefs.ingest_cons (st st2 : Store) (c : CStr × Int) (rest : List (CStr × Int))
    (h : Sparsefs.ingest st (c :: rest) = some st2) :
    ∃ st1, Sparsefs.append_rule_dup st c.1 c.2 = some st1 ∧
      Sparsefs.ingest st1 rest = some st2 := by
  obtain ⟨pattern, exclude⟩ := c
  simp only [Sparsefs.ingest, Option.bind_eq_some] at h
  exact h

theorem Sparsefs.ingest_alloc (calls : List (CStr × Int)) (st st2 : Store) (ha : st.Alloc)
    (h : Sparsefs.ingest st calls = some st2) : st2.Alloc := by
  induction calls generalizing st with
  | nil =>
    simp only [Sparsefs.ingest, Option.some.injEq] at h
    exact h ▸ ha
  | cons c rest ih =>
    obtain ⟨st1, h1, h2⟩ := Sparsefs.ingest_cons st st2 c rest h
    obtain ⟨rule, _, hg⟩ := Sparsefs.append_rule_dup_grows st st1 c.1 c.2 h1
    exact ih st1 (hg.alloc ha) h2

theorem Sparsefs.ingest_sound (calls : List (CStr × Int)) (st st2 : Store) (hs : st.Sound)
    (h : Sparsefs.ingest st calls = some st2) : st2.Sound := by
  induction calls generalizing st with
  | nil =>
    simp only [Sparsefs.ingest, Option.some.injEq] at h
    exact h ▸ hs
  | cons c rest ih =>
    obtain ⟨st1, h1, h2⟩ := Sparsefs.ingest_cons st st2 c rest h
    obtain ⟨rule, _, hg⟩ := Sparsefs.append_rule_dup_grows st st1 c.1 c.2 h1
    exact ih st1 (hg.sound hs) h2

/-- Later calls leave the strings of the older character arrays as they are. -/
theorem Sparsefs.ingest_frame (calls : List (CStr × Int)) (st st2 : Store)
    (h : Sparsefs.ingest st calls = some st2) (p : Ptr) (hp : p.buf < st.mem.length) :
    st2.mem.str p = st.mem.str p := by
  induction calls generalizing st with
  | nil =>
    simp only [Sparsefs.ingest, Option.some.injEq] at h
    rw [h]
  | cons c rest ih =>
    obtain ⟨st1, h1, h2⟩ := Sparsefs.ingest_cons st st2 c rest h
    obtain ⟨rule, _, hg⟩ := Sparsefs.append_rule_dup_grows st st1 c.1 c.2 h1
    rw [ih st1 h2 (by rw [hg.2.1]; exact Nat.lt_succ_of_lt hp)]
    exact hg.2.2.1 p hp

/-- Later calls only add rules behind the ones already in `chain`. -/
theorem Sparsefs.ingest_chain (calls : List (CStr × Int)) (st st2 : Store)
    (h : Sparsefs.ingest st calls = some st2) : ∃ l, st2.chain = st.chain ++ l := by
  induction calls generalizing st with
  | nil =>
    simp only [Sparsefs.ingest, Option.some.injEq] at h
    exact ⟨[], by rw [h]; simp⟩
  | cons c rest ih =>
    obtain ⟨st1, h1, h2⟩ := Sparsefs.ingest_cons st st2 c rest h
    obtain ⟨rule, _, hg⟩ := Sparsefs.append_rule_dup_grows st st1 c.1 c.2 h1
    obtain ⟨l, hl⟩ := ih st1 h2
    rcases hg.chain_cases with hc | hc
    · exact ⟨l, by rw [hl, hc]⟩
    · exact ⟨[rule] ++ l, by rw [hl, hc, List.append_assoc]⟩

/-- Later calls do not change which rule the exact-match lookup finds for a string. -/
theorem Sparsefs.ingest_lookup_mono (calls : List (CStr × Int)) (st st2 : Store)
    (ha : st.Alloc) (h : Sparsefs.ingest st calls = some st2) (s : CStr) (r : Rule)
    (hr : Sparsefs.getRuleByHash st s = some r) : Sparsefs.getRuleByHash st2 s = some r := by
  induction calls generalizing st with
  | nil =>
    simp only [Sparsefs.ingest, Option.some.injEq] at h
    exact h ▸ hr
  | cons c rest ih =>
    obtain ⟨st1, h1, h2⟩ := Sparsefs.ingest_cons st st2 c rest h
    obtain ⟨rule, _, hg⟩ := Sparsefs.append_rule_dup_grows st st1 c.1 c.2 h1
    exact ih st1 (hg.alloc ha) h2 (hg.lookup_mono ha s r hr)

/-! ## Claims on `exclude_chroot_path` (sparsefs.c) -/

/-- C8: `exclude_chroot_path` returns 0 (include) for a path equal to one of the source roots
and for a path ending in "/." or "/..", whatever the rule store and the default policy are,
also when an exact or a wildcard exclude rule matches the path. -/
theorem Sparsefs.exclude_chroot_path_guards (env : Env) (g : Sparsefs.Globals) (path : CStr)
    (h : path ∈ g.sources ∨ (∃ dir, path = dir ++ ['/', '.']) ∨
      (∃ dir, path = dir ++ ['/', '.', '.'])) :
    Sparsefs.exclude_chroot_path env g path = 0 := by
  unfold Sparsefs.exclude_chroot_path
  rcases h with h | ⟨dir, h⟩ | ⟨dir, h⟩
  · rw [if_pos ((Sparsefs.sources_any_iff g path).mpr h)]
  · have h1 : tail_is path ['/', '.'] = true := (tail_is_iff _ _).mpr ⟨dir, h.symm⟩
    simp only [h1, if_true, ite_self]
  · have h1 : tail_is path ['/', '.', '.'] = true := (tail_is_iff _ _).mpr ⟨dir, h.symm⟩
    simp only [h1, if_true, ite_self]

theorem Filterfs.memrchr_slash_spec (path : CStr) (n i : Nat)
    (h : Filterfs.memrchr_slash path n = some i) : i < n ∧ path[i]? = some '/' := by
  induction n with
  | zero => simp [Filterfs.memrchr_slash] at h
  | succ n ih =>
    unfold Filterfs.memrchr_slash at h
    by_cases hc : path[n]? = some '/'
    · rw [if_pos hc] at h
      simp only [Option.some.injEq] at h
      subst h
      exact ⟨Nat.lt_succ_self _, hc⟩
    · rw [if_neg hc] at h
      exact ⟨Nat.lt_succ_of_lt (ih h).1, (ih h).2⟩

theorem Filterfs.back_over_slashes_le (path : CStr) (n : Nat) :
    Filterfs.back_over_slashes path n ≤ n := by
  induction n with
  | zero => simp [Filterfs.back_over_slashes]
  | succ n ih =>
    unfold Filterfs.back_over_slashes
    split
    · exact Nat.le_succ_of_le ih
    · exact Nat.le_refl _

/-- Function `dirname` returns the constant "." and leaves its argument alone, or cuts the argument
behind some slash or earlier and returns it. -/
theorem Filterfs.dirname_cases (path : CStr) :
    Filterfs.dirname path = (path, ['.']) ∨
      ∃ ls cut, path[ls]? = some '/' ∧ cut ≤ ls + 1 ∧
        Filterfs.dirname path = (path.take cut, path.take cut) := by
  have hcut : ∀ ls, path[ls]? = some '/' →
      ∃ ls2 cut, path[ls2]? = some '/' ∧ cut ≤ ls2 + 1 ∧
        (path.take
            (if Filterfs.back_over_slashes path ls = 0 then (if ls = 1 then 2 else 1)
              else Filterfs.back_over_slashes path ls),
          path.take
            (if Filterfs.back_over_slashes path ls = 0 then (if ls = 1 then 2 else 1)
              else Filterfs.back_over_slashes path ls)) = (path.take cut, path.take cut) := by
    intro ls hls
    refine ⟨ls, _, hls, ?_, rfl⟩
    have hle := Filterfs.back_over_slashes_le path ls
    split
    · split <;> omega
    · exact Nat.le_succ_of_le hle
  unfold Filterfs.dirname
  cases h0 : Filterfs.memrchr_slash path path.length with
  | none => exact Or.inl rfl
  | some ls0 =>
    have hls0 := (Filterfs.memrchr_slash_spec path _ _ h0).2
    simp only []
    by_cases hc : ls0 ≠ 0 ∧ ls0 + 1 = path.length
    · rw [if_pos hc]
      by_cases hr : Filterfs.back_over_slashes path ls0 ≠ 0
      · rw [if_pos hr]
        cases h1 : Filterfs.memrchr_slash path (Filterfs.back_over_slashes path ls0) with
        | none => exact Or.inl rfl
        | some ls1 =>
          exact Or.inr (hcut ls1 (Filterfs.memrchr_slash_spec path _ _ h1).2)
      · rw [if_neg hr]
        exact Or.inr (hcut ls0 hls0)
    · rw [if_neg hc]
      exact Or.inr (hcut ls0 hls0)

theorem Filterfs.parent_usable_dot : Filterfs.parent_usable ['.'] = false := by decide

/-- A usable parent is the argument of `dirname`, cut in place. -/
theorem Filterfs.dirname_usable (path : CStr)
    (h : Filterfs.parent_usable (Filterfs.dirname path).2 = true) :
    ∃ cut, Filterfs.dirname path = (path.take cut, path.take cut) ∧
      (path.getLast? ≠ some '/' → cut < path.length) := by
  rcases Filterfs.dirname_cases path with h1 | ⟨ls, cut, hls, hcut, h1⟩
  · rw [h1, Filterfs.parent_usable_dot] at h
    exact absurd h (by simp)
  · refine ⟨cut, h1, ?_⟩
    intro hlast
    have hlt : ls < path.length := by
      rcases Nat.lt_or_ge ls path.length with h2 | h2
      · exact h2
      · rw [List.getElem?_eq_none h2] at hls
        exact absurd hls (by simp)
    have hne : ls + 1 ≠ path.length := by
      intro heq
      apply hlast
      rw [List.getLast?_eq_getElem?, ← heq, Nat.add_sub_cancel]
      exact hls
    omega

theorem Filterfs.dirname_fst_length_le (path : CStr) :
    (Filterfs.dirname path).1.length ≤ path.length := by
  rcases Filterfs.dirname_cases path with h1 | ⟨ls, cut, _, _, h1⟩
  · rw [h1]
  · rw [h1, List.length_take]
    exact Nat.min_le_right _ _

/-! ## Facts on the stripped pattern -/

theorem cstrAt_self (s : CStr) (h : NUL ∉ s) : cstrAt s 0 = s := by
  have := cstrAt_append s [] h (Or.inr rfl)
  simpa using this

theorem unquoted_initial (s : CStr) : unquoted s <+: s := by
  unfold unquoted
  split
  · exact List.dropLast_prefix s
  · exact List.prefix_refl s

theorem stripped_initial (s : CStr) : stripped s <+: s := by
  unfold stripped
  split
  · exact ( List.dropLast_prefix _).trans (unquoted_initial s)
  · exact unquoted_initial s

theorem stripped_cases (s : CStr) (hs : s ≠ []) :
    (stripped s).length < s.length ∨ (stripped s = s ∧ s.getLast? ≠ some '/') := by
  have hpos : 0 < s.length := List.length_pos.mpr hs
  unfold stripped unquoted
  by_cases hq : is_quoted s = true
  · left
    simp only [hq, if_true]
    split
    · simp only [List.length_dropLast]; omega
    · simp only [List.length_dropLast]; omega
  · simp only [hq, Bool.false_eq_true, if_false]
    by_cases hl : s.getLast? = some '/'
    · left
      simp only [hl, if_true, List.length_dropLast]; omega
    · right
      simp only [hl, if_false]
      exact ⟨trivial, hl⟩

theorem unquoted_ne_nil (s : CStr) (hs : s ≠ []) (hh : s.head? ≠ some QUOTE) :
    unquoted s ≠ [] := by
  unfold unquoted
  by_cases hq : is_quoted s = true
  · simp only [hq, if_true]
    cases s with
    | nil => exact absurd rfl hs
    | cons c t =>
      cases t with
      | nil =>
        exfalso
        simp only [is_quoted, List.head?_cons, List.getLast?_singleton, Bool.or_self,
          decide_eq_true_eq] at hq
        exact hh (by simpa using hq)
      | cons d t => simp
  · simp only [hq, Bool.false_eq_true, if_false]
    exact hs

theorem stripped_of_plain (s : CStr) (hq : is_quoted s = false)
    (hl : s.getLast? ≠ some '/') : stripped s = s := by
  simp [stripped, unquoted, hq, hl]

theorem cleaned_of_unquoted (s : CStr) (hq : is_quoted s = false) : cleaned s = stripped s := by
  simp [cleaned, rule_off, hq]

theorem is_quoted_false (s : CStr) (hh : s.head? ≠ some QUOTE) (hl : s.getLast? ≠ some QUOTE) :
    is_quoted s = false := by
  simp [is_quoted, hh, hl]

theorem has_wildcard_of_initial (s t : CStr) (hp : t <+: s) (h : has_wildcard s = false) :
    has_wildcard t = false := by
  unfold has_wildcard at h ⊢
  rw [List.any_eq_false] at h ⊢
  intro c hc
  exact h c (hp.subset hc)

theorem head_of_initial (s t : CStr) (hp : t <+: s) (ht : t ≠ []) : t.head? = s.head? := by
  obtain ⟨u, rfl⟩ := hp
  cases t with
  | nil => exact absurd rfl ht
  | cons c t => rfl

theorem not_nul_of_initial (s t : CStr) (hp : t <+: s) (h : NUL ∉ s) : NUL ∉ t :=
  fun hm => h (hp.subset hm)

theorem Filterfs.parent_usable_ne_nil (d : CStr) (h : Filterfs.parent_usable d = true) :
    d ≠ [] := by
  intro hd
  rw [hd] at h
  exact absurd h (by decide)

/-! ## `append_rule` of filterfs.c -/

theorem Filterfs.getRule_eq (st : Store) (s : CStr) :
    Filterfs.getRule st s = Sparsefs.getRuleByHash st s := rfl

theorem Filterfs.append_rule_fuel_succ (env : Env) (fuel : Nat) (st : Store) (pattern : Ptr)
    (exclude : Int) :
    Filterfs.append_rule_fuel env (fuel + 1) st pattern exclude =
      (store_rule st pattern exclude).bind (fun st1 =>
        if Filterfs.parent_usable (Filterfs.dirname (st1.mem.str pattern)).2 &&
            env.is_dir (Filterfs.dirname (st1.mem.str pattern)).2 then
          Filterfs.append_rule_fuel env fuel
            { st1 with mem := st1.mem ++ [(Filterfs.dirname (st1.mem.str pattern)).1 ++ [NUL]] }
            ⟨st1.mem.length, 0⟩ exclude
        else some st1) := by
  rfl

/-- The rule a call stores in the table is found by the lookup of its cleaned pattern when no
rule was found for that string before. -/
theorem store_rule_dup_lookup (st st1 : Store) (s : CStr) (a : Int) (halloc : st.Alloc)
    (h : store_rule { st with mem := st.mem ++ [s ++ [NUL]] } ⟨st.mem.length, 0⟩ a = some st1)
    (hlit : has_wildcard (stripped (cstrAt s 0)) = false)
    (hnone : Sparsefs.getRuleByHash st (cleaned (cstrAt s 0)) = none) :
    ∃ r, Sparsefs.getRuleByHash st1 (cleaned (cstrAt s 0)) = some r ∧ r.exclude = a := by
  obtain ⟨rule, ha, hg, hpat, _, _, hroute⟩ := store_rule_dup_spec st st1 s a h
  rcases hroute with ⟨hw, _⟩ | ⟨_, _, hht⟩
  · rw [hlit] at hw; exact absurd hw (by simp)
  · refine ⟨rule, ?_, ha⟩
    unfold Sparsefs.getRuleByHash at hnone ⊢
    have hold : (st.ht (calc_hash (cleaned (cstrAt s 0)) % HT_LENGTH)).find?
        (fun e => decide (st1.pat e = cleaned (cstrAt s 0))) = none := by
      rw [← hnone]
      apply find_congr_mem
      intro e he
      rw [hg.pat_old e (halloc.ht_alloc _ e he)]
    rw [hht, List.find?_append, hold]
    simp [hpat]

/-- Function `append_rule` of filterfs.c on a string of its own that is not empty and does not
begin with a quotation mark returns, with fuel above the length of the string; it keeps every
rule the lookup found before, and the lookup of an unquoted literal pattern that had no rule
finds the new one. -/
theorem Filterfs.append_rule_fuel_total (env : Env) (a : Int) :
    ∀ (fuel : Nat) (st : Store) (s : CStr), st.Alloc → NUL ∉ s → s ≠ [] →
      s.head? ≠ some QUOTE → s.length < fuel →
      ∃ st2, Filterfs.append_rule_fuel env fuel { st with mem := st.mem ++ [s ++ [NUL]] }
          ⟨st.mem.length, 0⟩ a = some st2 ∧ st2.Alloc ∧
        (∀ x r, Sparsefs.getRuleByHash st x = some r → Sparsefs.getRuleByHash st2 x = some r) ∧
        (is_quoted s = false → has_wildcard s = false →
          Sparsefs.getRuleByHash st (stripped s) = none →
          ∃ r, Sparsefs.getRuleByHash st2 (stripped s) = some r ∧ r.exclude = a) := by
  intro fuel
  induction fuel with
  | zero => intro st s _ _ _ _ h; exact absurd h (Nat.not_lt_zero _)
  | succ fuel ih =>
    intro st s halloc hnul hs hhead hlen
    have hc : cstrAt s 0 = s := cstrAt_self s hnul
    have hu : unquoted (cstrAt s 0) ≠ [] := by rw [hc]; exact unquoted_ne_nil s hs hhead
    obtain ⟨st1, h1⟩ := store_rule_dup_some st s a hu
    obtain ⟨rule, ha, hg, hpat, _, hstr, hroute⟩ := store_rule_dup_spec st st1 s a h1
    rw [hc] at hstr hpat hroute
    have halloc1 : st1.Alloc := hg.alloc halloc
    have hmono1 : ∀ x r, Sparsefs.getRuleByHash st x = some r →
        Sparsefs.getRuleByHash st1 x = some r := fun x r h => hg.lookup_mono halloc x r h
    have hins1 : is_quoted s = false → has_wildcard s = false →
        Sparsefs.getRuleByHash st (stripped s) = none →
        ∃ r, Sparsefs.getRuleByHash st1 (stripped s) = some r ∧ r.exclude = a := by
      intro hq hw hnone
      have h2 := store_rule_dup_lookup st st1 s a halloc h1
        (by rw [hc]; exact has_wildcard_of_initial s _ (stripped_initial s) hw)
        (by rw [hc, cleaned_of_unquoted s hq]; exact hnone)
      rw [hc, cleaned_of_unquoted s hq] at h2
      exact h2
    rw [Filterfs.append_rule_fuel_succ, h1, Option.some_bind, hstr]
    by_cases hcond : (Filterfs.parent_usable (Filterfs.dirname (stripped s)).2 &&
        env.is_dir (Filterfs.dirname (stripped s)).2) = true
    · rw [if_pos hcond]
      rw [Bool.and_eq_true] at hcond
      obtain ⟨cut, hdir, hcutlt⟩ := Filterfs.dirname_usable (stripped s) hcond.1
      have hdne : (Filterfs.dirname (stripped s)).1 ≠ [] := by
        have := Filterfs.parent_usable_ne_nil _ hcond.1
        rw [hdir] at this ⊢
        exact this
      have hpre : (Filterfs.dirname (stripped s)).1 <+: s := by
        rw [hdir]
        exact ( List.take_prefix _ _).trans (stripped_initial s)
      have hlen2 : (Filterfs.dirname (stripped s)).1.length < fuel := by
        have hle := Filterfs.dirname_fst_length_le (stripped s)
        rcases stripped_cases s hs with h3 | ⟨h3, h4⟩
        · omega
        · have h5 := hcutlt (by rw [h3]; exact h4)
          rw [hdir, List.length_take, h3] at hle ⊢
          rw [h3] at h5
          omega
      obtain ⟨st2, h2, halloc2, hmono2, _⟩ := ih st1 (Filterfs.dirname (stripped s)).1 halloc1
        (not_nul_of_initial s _ hpre hnul) hdne
        (by rw [head_of_initial s _ hpre hdne]; exact hhead) hlen2
      refine ⟨st2, h2, halloc2, fun x r h => hmono2 x r (hmono1 x r h), ?_⟩
      intro hq hw hnone
      obtain ⟨r, hr, hra⟩ := hins1 hq hw hnone
      exact ⟨r, hmono2 _ r hr, hra⟩
    · rw [if_neg hcond]
      exact ⟨st1, rfl, halloc1, hmono1, hins1⟩

/-! ## Directory listing -/

theorem snprintf_snprintf_append (n : Nat) (a b : CStr) :
    snprintf n (snprintf n a ++ b) = snprintf n (a ++ b) := by
  unfold snprintf
  rw [List.take_append_eq_append_take, List.take_append_eq_append_take, List.take_take,
    Nat.min_self, List.length_take]
  by_cases h : a.length ≤ n - 1
  · rw [Nat.min_eq_right h]
  · have h1 : n - 1 ≤ a.length := Nat.le_of_lt (Nat.lt_of_not_le h)
    rw [Nat.min_eq_left h1, Nat.sub_self, (Nat.sub_eq_zero_iff_le).mpr h1]

theorem Sparsefs.skip_entry_iff (env : Env) (g : Sparsefs.Globals) (i : Nat) (path name : CStr) :
    Sparsefs.skip_entry env g i path name = true ↔
      Sparsefs.Owned env g path (g.sources.take i) name := by
  unfold Sparsefs.skip_entry Sparsefs.Owned
  simp only [List.any_eq_true, Bool.and_eq_true, decide_eq_true_eq]

theorem Sparsefs.Owned.mono (env : Env) (g : Sparsefs.Globals) (path : CStr)
    (done : List CStr) (src name : CStr) (h : Sparsefs.Owned env g path done name) :
    Sparsefs.Owned env g path (done ++ [src]) name := by
  obtain ⟨s, hs, h1⟩ := h
  exact ⟨s, List.mem_append_left _ hs, h1⟩

/-- One listed directory: when the names handed over so far are distinct and each belongs to an
earlier source or is not among the entries still to come, the names stay distinct and each
belongs to a source up to the present one. -/
theorem Sparsefs.readdir_loop_nodup (env : Env) (g : Sparsefs.Globals) (i : Nat)
    (realpath path : CStr) (filler : List FillArg → FillArg → Int) (src : CStr)
    (hrp : ∀ name, snprintf PATH_MAX (realpath ++ Sparsefs.name_sep path ++ name) =
      snprintf PATH_MAX (src ++ path.drop 1 ++ Sparsefs.name_sep path ++ name)) :
    ∀ (es : List Dirent) (buf : List FillArg),
      (es.map (fun de => de.d_name)).Nodup →
      (∀ de ∈ es, env.access
        (snprintf PATH_MAX (realpath ++ Sparsefs.name_sep path ++ de.d_name)) = true) →
      (buf.map (fun e => e.name)).Nodup →
      (∀ n ∈ buf.map (fun e => e.name),
        Sparsefs.Owned env g path (g.sources.take i ++ [src]) n) →
      (∀ n ∈ buf.map (fun e => e.name),
        Sparsefs.Owned env g path (g.sources.take i) n ∨ n ∉ es.map (fun de => de.d_name)) →
      ((Sparsefs.readdir_loop env g i realpath path filler es buf).map
          (fun e => e.name)).Nodup ∧
        ∀ n ∈ (Sparsefs.readdir_loop env g i realpath path filler es buf).map
          (fun e => e.name), Sparsefs.Owned env g path (g.sources.take i ++ [src]) n := by
  intro es
  induction es with
  | nil =>
    intro buf _ _ hnd hown _
    exact ⟨hnd, hown⟩
  | cons de rest ih =>
    intro buf hes hacc hnd hown hsplit
    rw [List.map_cons, List.nodup_cons] at hes
    have hacc2 : ∀ d ∈ rest, env.access
        (snprintf PATH_MAX (realpath ++ Sparsefs.name_sep path ++ d.d_name)) = true :=
      fun d hd => hacc d (List.mem_cons_of_mem _ hd)
    have hsplit2 : ∀ n ∈ buf.map (fun e => e.name),
        Sparsefs.Owned env g path (g.sources.take i) n ∨
          n ∉ rest.map (fun de => de.d_name) := by
      intro n hn
      rcases hsplit n hn with h | h
      · exact Or.inl h
      · right
        intro hm
        exact h (by rw [List.map_cons]; exact List.mem_cons_of_mem _ hm)
    unfold Sparsefs.readdir_loop
    by_cases hskip : Sparsefs.skip_entry env g i path de.d_name = true
    · rw [if_pos hskip]
      exact ih buf hes.2 hacc2 hnd hown hsplit2
    · rw [if_neg hskip]
      by_cases hex : Sparsefs.exclude_chroot_path env g
          (snprintf PATH_MAX (realpath ++ Sparsefs.name_sep path ++ de.d_name)) ≠ 0
      · rw [if_pos hex]
        exact ih buf hes.2 hacc2 hnd hown hsplit2
      · rw [if_neg hex]
        have hex0 := not_not.mp hex
        have hnew : de.d_name ∉ buf.map (fun e => e.name) := by
          intro hm
          rcases hsplit _ hm with h | h
          · exact hskip ((Sparsefs.skip_entry_iff env g i path de.d_name).mpr h)
          · exact h (by rw [List.map_cons]; exact List.mem_cons_self _ _)
        have hnd1 : ((buf ++ [(⟨de.d_name, de.d_ino, de.d_type <<< 12⟩ : FillArg)]).map
            (fun e => e.name)).Nodup := by
          rw [List.map_append, List.map_singleton]
          exact List.Nodup.append hnd (List.nodup_singleton _)
            (by
              intro x hx hx2
              rw [List.mem_singleton] at hx2
              have hx3 : x = de.d_name := hx2
              rw [hx3] at hx
              exact hnew hx)
        have hown1 : ∀ n ∈ (buf ++ [(⟨de.d_name, de.d_ino, de.d_type <<< 12⟩ : FillArg)]).map
            (fun e => e.name), Sparsefs.Owned env g path (g.sources.take i ++ [src]) n := by
          intro n hn
          rw [List.map_append, List.map_singleton, List.mem_append, List.mem_singleton] at hn
          rcases hn with hn | hn
          · exact hown n hn
          · refine ⟨src, by simp, ?_, ?_⟩
            · rw [hn, ← hrp]
              exact hacc de (List.mem_cons_self _ _)
            · rw [hn, ← hrp]
              exact hex0
        have hsplit1 : ∀ n ∈ (buf ++ [(⟨de.d_name, de.d_ino, de.d_type <<< 12⟩ : FillArg)]).map
            (fun e => e.name), Sparsefs.Owned env g path (g.sources.take i) n ∨
              n ∉ rest.map (fun de => de.d_name) := by
          intro n hn
          rw [List.map_append, List.map_singleton, List.mem_append, List.mem_singleton] at hn
          rcases hn with hn | hn
          · exact hsplit2 n hn
          · right
            rw [hn]
            exact hes.1
        simp only []
        split
        · exact ⟨hnd1, hown1⟩
        · exact ih _ hes.2 hacc2 hnd1 hown1 hsplit1

/-- One `ffs_readdir_helper` call keeps the names handed to the filler distinct, in a file system
where a directory lists no name twice and every listed entry passes the `access` probe. -/
theorem Sparsefs.ffs_readdir_helper_nodup (env : Env) (g : Sparsefs.Globals) (i : Nat)
    (realpath path : CStr) (filler : List FillArg → FillArg → Int) (src : CStr)
    (buf : List FillArg)
    (hfs : ∀ dir es, env.readdir dir = .ok es →
      (es.map (fun de => de.d_name)).Nodup ∧
        ∀ de ∈ es, env.access
          (snprintf PATH_MAX (dir ++ Sparsefs.name_sep path ++ de.d_name)) = true)
    (hrp : ∀ name, snprintf PATH_MAX (realpath ++ Sparsefs.name_sep path ++ name) =
      snprintf PATH_MAX (src ++ path.drop 1 ++ Sparsefs.name_sep path ++ name))
    (hnd : (buf.map (fun e => e.name)).Nodup)
    (hown : ∀ n ∈ buf.map (fun e => e.name), Sparsefs.Owned env g path (g.sources.take i) n) :
    ((Sparsefs.ffs_readdir_helper env g i realpath path buf filler).2.map
        (fun e => e.name)).Nodup ∧
      ∀ n ∈ (Sparsefs.ffs_readdir_helper env g i realpath path buf filler).2.map
        (fun e => e.name), Sparsefs.Owned env g path (g.sources.take i ++ [src]) n := by
  unfold Sparsefs.ffs_readdir_helper
  cases hrd : env.readdir realpath with
  | error errno =>
    exact ⟨hnd, fun n hn => Sparsefs.Owned.mono env g path _ src n (hown n hn)⟩
  | ok es =>
    obtain ⟨h1, h2⟩ := hfs realpath es hrd
    exact Sparsefs.readdir_loop_nodup env g i realpath path filler src hrp es buf h1 h2 hnd
      (fun n hn => Sparsefs.Owned.mono env g path _ src n (hown n hn))
      (fun n hn => Or.inl (hown n hn))

theorem Sparsefs.readdir_root_nodup (env : Env) (g : Sparsefs.Globals) (path : CStr)
    (filler : List FillArg → FillArg → Int) (hpath : path.drop 1 = [])
    (hfs : ∀ dir es, env.readdir dir = .ok es →
      (es.map (fun de => de.d_name)).Nodup ∧
        ∀ de ∈ es, env.access
          (snprintf PATH_MAX (dir ++ Sparsefs.name_sep path ++ de.d_name)) = true) :
    ∀ (rest done : List CStr) (buf : List FillArg), g.sources = done ++ rest →
      (buf.map (fun e => e.name)).Nodup →
      (∀ n ∈ buf.map (fun e => e.name), Sparsefs.Owned env g path done n) →
      ((Sparsefs.readdir_root env g path filler done.length rest buf).2.map
        (fun e => e.name)).Nodup := by
  intro rest
  induction rest with
  | nil =>
    intro done buf _ hnd _
    exact hnd
  | cons src rest ih =>
    intro done buf hsrc hnd hown
    have htake : g.sources.take done.length = done := by
      rw [hsrc]; exact List.take_left' rfl
    have hstep := Sparsefs.ffs_readdir_helper_nodup env g done.length src path filler src buf
      hfs (fun name => by rw [hpath, List.append_nil])
      hnd (by rw [htake]; exact hown)
    rw [htake] at hstep
    unfold Sparsefs.readdir_root
    simp only []
    split
    · exact hstep.1
    · have := ih (done ++ [src]) _ (by rw [hsrc, List.append_assoc]; rfl) hstep.1 hstep.2
      rw [List.length_append, List.length_singleton] at this
      exact this

theorem Sparsefs.readdir_sub_nodup (env : Env) (g : Sparsefs.Globals) (path : CStr)
    (filler : List FillArg → FillArg → Int)
    (hfs : ∀ dir es, env.readdir dir = .ok es →
      (es.map (fun de => de.d_name)).Nodup ∧
        ∀ de ∈ es, env.access
          (snprintf PATH_MAX (dir ++ Sparsefs.name_sep path ++ de.d_name)) = true) :
    ∀ (rest done : List CStr) (buf : List FillArg), g.sources = done ++ rest →
      (buf.map (fun e => e.name)).Nodup →
      (∀ n ∈ buf.map (fun e => e.name), Sparsefs.Owned env g path done n) →
      ((Sparsefs.readdir_sub env g path filler done.length rest buf).2.map
        (fun e => e.name)).Nodup := by
  intro rest
  induction rest with
  | nil =>
    intro done buf _ hnd _
    exact hnd
  | cons src rest ih =>
    intro done buf hsrc hnd hown
    have htake : g.sources.take done.length = done := by
      rw [hsrc]; exact List.take_left' rfl
    have hnext : ∀ buf2 : List FillArg, (buf2.map (fun e => e.name)).Nodup →
        (∀ n ∈ buf2.map (fun e => e.name), Sparsefs.Owned env g path (done ++ [src]) n) →
        ((Sparsefs.readdir_sub env g path filler (done.length + 1) rest buf2).2.map
          (fun e => e.name)).Nodup := by
      intro buf2 h1 h2
      have := ih (done ++ [src]) buf2 (by rw [hsrc, List.append_assoc]; rfl) h1 h2
      rw [List.length_append, List.length_singleton] at this
      exact this
    have hskip := hnext buf hnd (fun n hn => Sparsefs.Owned.mono env g path _ src n (hown n hn))
    have hstep := Sparsefs.ffs_readdir_helper_nodup env g done.length
      (snprintf PATH_MAX (src ++ path.drop 1)) path filler src buf hfs
      (fun name => by
        rw [List.append_assoc, snprintf_snprintf_append, ← List.append_assoc])
      hnd (by rw [htake]; exact hown)
    rw [htake] at hstep
    unfold Sparsefs.readdir_sub
    simp only []
    split
    · split
      · split
        · exact hstep.1
        · exact hnext _ hstep.1 hstep.2
      · exact hskip
    · exact hskip

/-- No name twice, given the probe: in a file system where each directory lists distinct names
and every listed entry passes the `access` probe, the names `ffs_readdir` hands to the filler
are distinct, for every virtual directory, source list, rule store and filler. -/
theorem Sparsefs.ffs_readdir_nodup_of_probed (env : Env) (g : Sparsefs.Globals) (path : CStr)
    (filler : List FillArg → FillArg → Int)
    (hfs : ∀ dir es, env.readdir dir = .ok es →
      (es.map (fun de => de.d_name)).Nodup ∧
        ∀ de ∈ es, env.access
          (snprintf PATH_MAX (dir ++ Sparsefs.name_sep path ++ de.d_name)) = true) :
    ((Sparsefs.ffs_readdir env g path [] filler).2.map (fun e => e.name)).Nodup := by
  unfold Sparsefs.ffs_readdir
  split
  · rename_i hp
    exact Sparsefs.readdir_root_nodup env g path filler (by rw [hp]; rfl) hfs g.sources [] []
      rfl List.nodup_nil (fun n hn => by simp at hn)
  · exact Sparsefs.readdir_sub_nodup env g path filler hfs g.sources [] [] rfl List.nodup_nil
      (fun n hn => by simp at hn)

/-! ## The wildcard chain in terms of the calls -/

/-- A pattern list without a colon is ingested by `append_rules` as by a single `append_rule`
call. -/
theorem Sparsefs.append_rules_dup_single (st : Store) (s : CStr) (a : Int)
    (h : ':' ∉ cstrAt s 0) :
    Sparsefs.append_rules_dup st s a = Sparsefs.append_rule_dup st s a := by
  unfold Sparsefs.append_rules_dup Sparsefs.append_rules Sparsefs.append_rule_dup strdup
  simp only [Sparsefs.append_rules_loop]
  cases h1 : Sparsefs.append_rule { st with mem := st.mem ++ [s ++ [NUL]] }
      ⟨st.mem.length, 0⟩ a with
  | none => rfl
  | some st1 =>
    obtain ⟨rule, _, _, _, _, hstr, _⟩ := store_rule_dup_spec st st1 s a h1
    have hc : ':' ∉ cstrAt (st1.mem.getD st.mem.length []) 0 := by
      have h2 : cstrAt (st1.mem.getD st.mem.length []) 0 = stripped (cstrAt s 0) := hstr
      rw [h2]
      exact fun hm => h ((stripped_initial _).subset hm)
    simp only [Option.bind_eq_bind, Option.some_bind, hc, if_false]

/-- Exact rules in front of wildcard rules, for the rules `append_rule` files in the hash
table: in a store built by any sequence of `append_rule` calls in which exactly one rule of the
hash table has the pattern `p`, with action `a`, the path `p` (no source root, not ending in
"/." or "/..") is classified `a`, whatever `wildmatch` says about the rules of the wildcard
chain and whatever else sits in the bucket of `p`. -/
theorem Sparsefs.exclude_chroot_path_table_rule (env : Env) (sources : List CStr)
    (default_exclude : Int) (calls : List (CStr × Int)) (st : Store) (p : CStr) (a : Int)
    (r : Rule) (i : Nat)
    (hing : Sparsefs.ingest Store.empty calls = some st)
    (hr : r ∈ st.ht i) (hp : st.pat r = p) (ha : r.exclude = a)
    (huniq : ∀ j, ∀ q ∈ st.ht j, st.pat q = p → q = r)
    (hroot : p ∉ sources) (hdot : ¬ ['/', '.'] <:+ p) (hdotdot : ¬ ['/', '.', '.'] <:+ p) :
    Sparsefs.exclude_chroot_path env ⟨st, sources, default_exclude⟩ p = a := by
  have hs : st.Sound := Sparsefs.ingest_sound calls _ _ Store.empty_sound hing
  have hi : calc_hash p % HT_LENGTH = i := by rw [← hp]; exact hs.bucket i r hr
  have hw : has_wildcard p = false := by rw [← hp]; exact hs.literal i r hr
  obtain ⟨q, hq⟩ : ∃ q, Sparsefs.getRuleByHash st p = some q := by
    cases hf : Sparsefs.getRuleByHash st p with
    | some q => exact ⟨q, rfl⟩
    | none =>
      unfold Sparsefs.getRuleByHash at hf
      rw [List.find?_eq_none] at hf
      have := hf r (by rw [hi]; exact hr)
      simp [hp] at this
  have hqr : q = r := by
    obtain ⟨hmem, hpat⟩ := Sparsefs.getRuleByHash_some st p q hq
    exact huniq _ q hmem hpat
  rw [Sparsefs.exclude_chroot_path_rules env _ p hroot hdot hdotdot]
  simp only [hw, Bool.false_eq_true, if_false, hq, rule_or_chain, hqr, ha]

/-- The first rule of the chain that `wildmatch` accepts decides for a path without a rule in
the hash table, and rules ingested later come behind it. -/
theorem Sparsefs.first_chain_match (env : Env) (sources : List CStr)
    (default_exclude : Int) (st st2 : Store) (later : List (CStr × Int)) (x : CStr)
    (before behind : List Rule) (r : Rule)
    (halloc : st.Alloc) (hing : Sparsefs.ingest st later = some st2)
    (hroot : x ∉ sources) (hdot : ¬ ['/', '.'] <:+ x) (hdotdot : ¬ ['/', '.', '.'] <:+ x)
    (hlit : ∀ i, ∀ q ∈ st2.ht i, st2.pat q ≠ x)
    (hchain : st.chain = before ++ r :: behind)
    (hbefore : ∀ q ∈ before, env.wildmatch (st.pat q) x = false)
    (hr : env.wildmatch (st.pat r) x = true) :
    Sparsefs.exclude_chroot_path env ⟨st2, sources, default_exclude⟩ x = r.exclude := by
  have hnone : (if has_wildcard x then none else Sparsefs.getRuleByHash st2 x) = none := by
    split
    · rfl
    · exact Sparsefs.getRuleByHash_none _ _ (hlit _)
  obtain ⟨l, hl⟩ := Sparsefs.ingest_chain later st st2 hing
  have hpat : ∀ q ∈ st.chain, st2.pat q = st.pat q := fun q hq =>
    Sparsefs.ingest_frame later st st2 hing q.pattern (halloc.chain_alloc q hq)
  have hfind : st2.chain.find? (fun q => env.wildmatch (st2.pat q) x) = some r := by
    rw [hl, hchain, List.append_assoc, List.cons_append]
    apply find_first_match
    · intro q hq
      rw [hpat q (by rw [hchain]; exact List.mem_append_left _ hq)]
      exact hbefore q hq
    · rw [hpat r (by rw [hchain]; simp)]
      exact hr
  rw [Sparsefs.exclude_chroot_path_rules env _ x hroot hdot hdotdot]
  simp only [hnone, rule_or_chain, hfind]

theorem Example.store_exact_sound : Example.store_exact.Sound :=
  Sparsefs.ingest_sound Example.calls_exact _ _ Store.empty_sound (Option.some_get _).symm

/-- An instance: "/s/a" has one rule in the table, an include, in a bucket shared with
"/s/cb"; both wildcard excludes match it, yet it is included. -/
theorem Sparsefs.exclude_chroot_path_table_rule_instance :
    Sparsefs.exclude_chroot_path Example.env_all ⟨Example.store_exact, ["/s/".toList], 1⟩
      "/s/a".toList = 0 :=
  Sparsefs.exclude_chroot_path_table_rule Example.env_all ["/s/".toList] 1 Example.calls_exact
    Example.store_exact "/s/a".toList 0 ⟨⟨2, 0⟩, 0⟩ 23
    (Option.some_get _).symm (by decide) (by decide) rfl
    (fun j q hq hp => by
      have hj := Example.store_exact_sound.bucket j q hq
      rw [hp] at hj
      subst hj
      exact (by decide : ∀ q ∈ Example.store_exact.ht (calc_hash "/s/a".toList % HT_LENGTH),
        Example.store_exact.pat q = "/s/a".toList → q = ⟨⟨2, 0⟩, 0⟩) q hq hp)
    (by decide) (by decide) (by decide)

/-- C1 at a failing input: the calls `append_rule("/s/*", 0)` and `append_rule("*/s/a\"", 1)`,
source "/s/", default exclude.  The second raw pattern ends in a quotation mark, so the stored
pattern begins at its second character: it is "/s/a", without a wildcard, the one rule with
that cleaned pattern, and its action is 1.  But `append_rule` looks for wildcards from the first
character of the raw pattern and appends the rule to the chain, behind "/s/*".  The lookup of
"/s/a" finds nothing, the walk along the chain stops at "/s/*", and "/s/a" is classified 0. -/
theorem Sparsefs.exclude_chroot_path_exact_misfiled :
    (Sparsefs.ingest Store.empty
        [("/s/*".toList, 0), ('*' :: ("/s/a".toList ++ [QUOTE]), 1)]).map
      (fun st => st.chain.map (fun r => (st.pat r, has_wildcard (st.pat r), r.exclude))) =
      some [("/s/*".toList, true, 0), ("/s/a".toList, false, 1)] ∧
    (Sparsefs.ingest Store.empty
        [("/s/*".toList, 0), ('*' :: ("/s/a".toList ++ [QUOTE]), 1)]).map
      (fun st => (Sparsefs.getRuleByHash st "/s/a".toList).isSome) = some false ∧
    (Sparsefs.ingest Store.empty
        [("/s/*".toList, 0), ('*' :: ("/s/a".toList ++ [QUOTE]), 1)]).map
      (fun st => Sparsefs.exclude_chroot_path Example.env_star ⟨st, ["/s/".toList], 1⟩
        "/s/a".toList) = some 0 := by
  refine ⟨?_, ?_, ?_⟩ <;> decide

/-- Witness of C8: "/s/x/.." and the source root "/s/" each have an exact exclude rule and are
matched by an exclude wildcard, the default is exclude, and still both are included. -/
theorem Sparsefs.exclude_chroot_path_guards_witness :
    (Sparsefs.getRuleByHash Example.store_dots "/s/x/..".toList).map (fun r => r.exclude) =
        some 1 ∧
      (Sparsefs.getRuleByHash Example.store_dots "/s/".toList).map (fun r => r.exclude) =
        some 1 ∧
      Sparsefs.exclude_chroot_path Example.env_all Example.globals_dots "/s/x/..".toList = 0 ∧
      Sparsefs.exclude_chroot_path Example.env_all Example.globals_dots "/s/".toList = 0 :=
  ⟨by decide, by decide,
    Sparsefs.exclude_chroot_path_guards Example.env_all Example.globals_dots
      "/s/x/..".toList (Or.inr (Or.inr ⟨"/s/x".toList, by decide⟩)),
    Sparsefs.exclude_chroot_path_guards Example.env_all Example.globals_dots
      "/s/".toList (Or.inl (by decide))⟩

/-- C7, as the code has it: when a raw pattern in which `append_rule` finds no wildcard (what
is left at `pattern` after the stripping holds neither `*` nor `?`, so that the rule is filed in
the hash table), with cleaned form `p`, for which the table has no rule yet, is ingested with
action `a1`, every later sequence of `append_rule` calls (among them a second ingestion of `p`
with another action) leaves `getRuleByHash(p)` at the earlier-ingested rule, action `a1`, and
`exclude_chroot_path(p)` returns `a1`. -/
theorem Sparsefs.getRuleByHash_first_ingested (env : Env) (sources : List CStr)
    (default_exclude : Int) (st st1 st2 : Store) (raw1 : CStr) (a1 : Int)
    (later : List (CStr × Int)) (p : CStr)
    (halloc : st.Alloc) (hnone : Sparsefs.getRuleByHash st p = none)
    (h1 : Sparsefs.append_rule_dup st raw1 a1 = some st1)
    (hclean : cleaned (cstrAt raw1 0) = p)
    (hlit : has_wildcard (stripped (cstrAt raw1 0)) = false)
    (h2 : Sparsefs.ingest st1 later = some st2) :
    (∃ r, Sparsefs.getRuleByHash st2 p = some r ∧ r.exclude = a1) ∧
      (p ∉ sources → ¬ ['/', '.'] <:+ p → ¬ ['/', '.', '.'] <:+ p →
        Sparsefs.exclude_chroot_path env ⟨st2, sources, default_exclude⟩ p = a1) := by
  subst hclean
  obtain ⟨r, hr, ha⟩ := store_rule_dup_lookup st st1 raw1 a1 halloc h1 hlit hnone
  obtain ⟨rule, _, hg⟩ := Sparsefs.append_rule_dup_grows st st1 raw1 a1 h1
  have hr2 := Sparsefs.ingest_lookup_mono later st1 st2 (hg.alloc halloc) h2 _ r hr
  refine ⟨⟨r, hr2, ha⟩, ?_⟩
  intro hroot hdot hdotdot
  have hw : has_wildcard (cleaned (cstrAt raw1 0)) = false := has_wildcard_drop _ _ hlit
  rw [Sparsefs.exclude_chroot_path_rules env _ _ hroot hdot hdotdot]
  simp only [hw, Bool.false_eq_true, if_false, hr2, rule_or_chain, ha]

/-- Counterexample to C7 as stated: "/s/a" ingested with exclude and then with include; the
lookup returns the rule ingested first (exclude), not the later one, and the path is excluded. -/
theorem Sparsefs.getRuleByHash_last_ingested_counterexample :
    (Sparsefs.ingest Store.empty [("/s/a".toList, 1), ("/s/a".toList, 0)]).map
      (fun st => ((Sparsefs.getRuleByHash st "/s/a".toList).map (fun r => r.exclude),
        Sparsefs.exclude_chroot_path Example.env_none ⟨st, ["/s/".toList], 0⟩ "/s/a".toList)) =
      some (some 1, 1) := by
  decide

/-- Witness of C7 as amended: "/s/a" ingested with exclude, then with include. -/
theorem Sparsefs.getRuleByHash_first_ingested_witness :
    (∃ r, Sparsefs.getRuleByHash Example.store_twice "/s/a".toList = some r ∧ r.exclude = 1) ∧
      Sparsefs.exclude_chroot_path Example.env_none ⟨Example.store_twice, ["/s/".toList], 0⟩
        "/s/a".toList = 1 :=
  have h := Sparsefs.getRuleByHash_first_ingested Example.env_none ["/s/".toList] 0
    Store.empty Example.store_once Example.store_twice "/s/a".toList 1 [("/s/a".toList, 0)]
    "/s/a".toList Store.empty_sound.alloc (by decide) (Option.some_get _).symm (by decide)
    (by decide) (Option.some_get _).symm
  ⟨h.1, h.2 (by decide) (by decide) (by decide)⟩

/-- C6 at the failing input `--exclude=/s/a:/s/b`: `append_rules` hands the whole list to
`append_rule` before it cuts at the colon, so the rule that will read "/s/a" is filed under the
hash of "/s/a:/s/b" (bucket 80, not 23).  `getRuleByHash("/s/a")` then finds nothing and "/s/a"
falls to the default (include), whereas `append_rule("/s/a")`, `append_rule("/s/b")` make the
lookup find the exclude rule. -/
theorem Sparsefs.append_rules_unsplit_hash :
    (Sparsefs.append_rules_dup Store.empty "/s/a:/s/b".toList 1).map
        (fun st => ((st.ht 80).map st.pat, (st.ht 23).map st.pat)) =
      some ([['/', 's', '/', 'a']], []) ∧
    (Sparsefs.append_rules_dup Store.empty "/s/a:/s/b".toList 1).map
        (fun st => (Sparsefs.getRuleByHash st "/s/a".toList).map (fun r => r.exclude)) =
      some none ∧
    (Sparsefs.append_rules_dup Store.empty "/s/a:/s/b".toList 1).map
        (fun st => Sparsefs.exclude_chroot_path Example.env_none ⟨st, ["/s/".toList], 0⟩
          "/s/a".toList) = some 0 ∧
    (Sparsefs.ingest Store.empty [("/s/a".toList, 1), ("/s/b".toList, 1)]).map
        (fun st => ((st.ht 80).map st.pat, (st.ht 23).map st.pat)) =
      some ([], [['/', 's', '/', 'a']]) ∧
    (Sparsefs.ingest Store.empty [("/s/a".toList, 1), ("/s/b".toList, 1)]).map
        (fun st => (Sparsefs.getRuleByHash st "/s/a".toList).map (fun r => r.exclude)) =
      some (some 1) ∧
    (Sparsefs.ingest Store.empty [("/s/a".toList, 1), ("/s/b".toList, 1)]).map
        (fun st => Sparsefs.exclude_chroot_path Example.env_none ⟨st, ["/s/".toList], 0⟩
          "/s/a".toList) = some 1 := by
  refine ⟨?_, ?_, ?_, ?_, ?_, ?_⟩ <;> decide

/-! ## Claims on `exclude_path` (sparsefs.c) -/

/-- The loop of `exclude_path` stops at the first source whose candidate path exists and is
included, whatever the state it is entered with. -/
theorem Sparsefs.exclude_path_loop_stops (env : Env) (g : Sparsefs.Globals) (size : Nat)
    (fuse_path : CStr) (before : List CStr) (src : CStr) (behind : List CStr)
    (acc : Int × CStr)
    (hex : env.access (snprintf size (src ++ fuse_path.drop 1)) = true)
    (hinc : Sparsefs.exclude_chroot_path env g (snprintf size (src ++ fuse_path.drop 1)) = 0)
    (hbefore : ∀ s ∈ before, ¬ (env.access (snprintf size (s ++ fuse_path.drop 1)) = true ∧
      Sparsefs.exclude_chroot_path env g (snprintf size (s ++ fuse_path.drop 1)) = 0)) :
    Sparsefs.exclude_path_loop env g size fuse_path (before ++ src :: behind) acc =
      (0, snprintf size (src ++ fuse_path.drop 1)) := by
  induction before generalizing acc with
  | nil =>
    obtain ⟨e, rp⟩ := acc
    simp only [List.nil_append, Sparsefs.exclude_path_loop, hex, if_true, hinc]
  | cons s before ih =>
    obtain ⟨e, rp⟩ := acc
    have hs := hbefore s (List.mem_cons_self _ _)
    have ih2 := fun acc => ih acc (fun t ht => hbefore t (List.mem_cons_of_mem _ ht))
    simp only [List.cons_append, Sparsefs.exclude_path_loop]
    by_cases h1 : env.access (snprintf size (s ++ fuse_path.drop 1)) = true
    · have h2 : Sparsefs.exclude_chroot_path env g (snprintf size (s ++ fuse_path.drop 1)) ≠ 0 :=
        fun h => hs ⟨h1, h⟩
      rw [if_pos h1, if_neg h2]
      exact ih2 _
    · rw [if_neg h1]
      exact ih2 _

/-- The value the loop of `exclude_path` returns is the one it was entered with unless some
source has the candidate path. -/
theorem Sparsefs.exclude_path_loop_absent (env : Env) (g : Sparsefs.Globals) (size : Nat)
    (fuse_path : CStr) (rest : List CStr) (acc : Int × CStr)
    (h : ∀ s ∈ rest, env.access (snprintf size (s ++ fuse_path.drop 1)) = false) :
    (Sparsefs.exclude_path_loop env g size fuse_path rest acc).1 = acc.1 := by
  induction rest generalizing acc with
  | nil => rfl
  | cons s rest ih =>
    obtain ⟨e, rp⟩ := acc
    have hs := h s (List.mem_cons_self _ _)
    simp only [Sparsefs.exclude_path_loop, hs, Bool.false_eq_true, if_false]
    exact ih _ (fun t ht => h t (List.mem_cons_of_mem _ ht))

/-- When the loop of `exclude_path` returns 0 it was entered with 0 or some source has the
candidate path, included. -/
theorem Sparsefs.exclude_path_loop_zero (env : Env) (g : Sparsefs.Globals) (size : Nat)
    (fuse_path : CStr) (rest : List CStr) (acc : Int × CStr)
    (h : (Sparsefs.exclude_path_loop env g size fuse_path rest acc).1 = 0) :
    acc.1 = 0 ∨ ∃ s ∈ rest, env.access (snprintf size (s ++ fuse_path.drop 1)) = true ∧
      Sparsefs.exclude_chroot_path env g (snprintf size (s ++ fuse_path.drop 1)) = 0 := by
  induction rest generalizing acc with
  | nil => exact Or.inl h
  | cons s rest ih =>
    obtain ⟨e, rp⟩ := acc
    simp only [Sparsefs.exclude_path_loop] at h
    by_cases h1 : env.access (snprintf size (s ++ fuse_path.drop 1)) = true
    · rw [if_pos h1] at h
      by_cases h2 : Sparsefs.exclude_chroot_path env g (snprintf size (s ++ fuse_path.drop 1)) = 0
      · exact Or.inr ⟨s, List.mem_cons_self _ _, h1, h2⟩
      · rw [if_neg h2] at h
        rcases ih _ h with h3 | ⟨t, ht, h3⟩
        · exact absurd h3 h2
        · exact Or.inr ⟨t, List.mem_cons_of_mem _ ht, h3⟩
    · rw [if_neg h1] at h
      rcases ih _ h with h3 | ⟨t, ht, h3⟩
      · exact Or.inl h3
      · exact Or.inr ⟨t, List.mem_cons_of_mem _ ht, h3⟩

/-- Without rules and with default include every path is included. -/
theorem Sparsefs.exclude_chroot_path_no_rules (env : Env) (sources : List CStr) (x : CStr) :
    Sparsefs.exclude_chroot_path env ⟨Store.empty, sources, 0⟩ x = 0 := by
  unfold Sparsefs.exclude_chroot_path
  split_ifs <;> rfl

theorem Example.env_long_access (p : CStr) :
    Example.env_long.access p = decide (PATH_MAX ≤ p.length) := rfl

theorem Example.env_short_access (p : CStr) :
    Example.env_short.access p = decide (p.length < PATH_MAX) := rfl

/-- A text that fits the buffer is written whole by `snprintf`. -/
theorem snprintf_fits (size : Nat) (s : CStr) (h : s.length < size) : snprintf size s = s := by
  unfold snprintf
  exact List.take_of_length_le (by omega)

/-- The candidate of the source "/s/" for a virtual path of 4095 letters has 4098 characters;
`snprintf` writes its first 4095 into a buffer of `PATH_MAX` characters. -/
theorem Example.long_candidate :
    ("/s/".toList ++ ('/' :: List.replicate 4095 'a').drop 1).length = 4098 ∧
    snprintf PATH_MAX ("/s/".toList ++ ('/' :: List.replicate 4095 'a').drop 1) =
      "/s/".toList ++ List.replicate 4092 'a' ∧
    ("/s/".toList ++ List.replicate 4092 'a').length = 4095 := by
  have h0 : ('/' :: List.replicate 4095 'a').drop 1 = List.replicate 4095 'a' := rfl
  have h1 : ("/s/".toList : List Char).length = 3 := rfl
  refine ⟨?_, ?_, ?_⟩
  · rw [h0, List.length_append, List.length_replicate, h1]
  · rw [h0]
    unfold snprintf
    have h2 : PATH_MAX - 1 = ("/s/".toList : List Char).length + 4092 := rfl
    rw [h2, List.take_append, List.take_replicate]
    rfl
  · rw [List.length_append, List.length_replicate, h1]

/-- The candidates of the sources "/ss/" and "/" for a virtual path of 4093 letters have 4097
and 4094 characters; of the first `snprintf` writes 4095 into a buffer of `PATH_MAX`
characters. -/
theorem Example.long_candidate_first :
    ("/ss/".toList ++ ('/' :: List.replicate 4093 'a').drop 1).length = 4097 ∧
    snprintf PATH_MAX ("/ss/".toList ++ ('/' :: List.replicate 4093 'a').drop 1) =
      "/ss/".toList ++ List.replicate 4091 'a' ∧
    ("/ss/".toList ++ List.replicate 4091 'a').length = 4095 ∧
    ("/".toList ++ ('/' :: List.replicate 4093 'a').drop 1).length = 4094 := by
  have h0 : ('/' :: List.replicate 4093 'a').drop 1 = List.replicate 4093 'a' := rfl
  have h1 : ("/ss/".toList : List Char).length = 4 := rfl
  have h3 : ("/".toList : List Char).length = 1 := rfl
  refine ⟨?_, ?_, ?_, ?_⟩
  · rw [h0, List.length_append, List.length_replicate, h1]
  · rw [h0]
    unfold snprintf
    have h2 : PATH_MAX - 1 = ("/ss/".toList : List Char).length + 4091 := rfl
    rw [h2, List.take_append, List.take_replicate]
    rfl
  · rw [List.length_append, List.length_replicate, h1]
  · rw [h0, List.length_append, List.length_replicate, h3]

/-- C3, as the code has it: when some source has its candidate real path (the source root
followed by the virtual path without its leading slash) existing and classified include, and the
candidates of that source and of the sources before it fit the buffer (fewer than `size`
characters, `PATH_MAX` at every call), `exclude_path` returns 0 and leaves in `realpath` the
candidate of the first such source; the sources before it may have the path and classify it
exclude. -/
theorem Sparsefs.exclude_path_first_included (env : Env) (g : Sparsefs.Globals)
    (realpath : CStr) (size : Nat) (fuse_path : CStr) (before : List CStr) (src : CStr)
    (behind : List CStr)
    (hsrc : g.sources = before ++ src :: behind)
    (hfit : ∀ s ∈ before ++ [src], (s ++ fuse_path.drop 1).length < size)
    (hex : env.access (src ++ fuse_path.drop 1) = true)
    (hinc : Sparsefs.exclude_chroot_path env g (src ++ fuse_path.drop 1) = 0)
    (hbefore : ∀ s ∈ before, ¬ (env.access (s ++ fuse_path.drop 1) = true ∧
      Sparsefs.exclude_chroot_path env g (s ++ fuse_path.drop 1) = 0)) :
    Sparsefs.exclude_path env g realpath size fuse_path = (0, src ++ fuse_path.drop 1) := by
  have hs := snprintf_fits size _ (hfit src (List.mem_append_right _ (List.mem_singleton_self _)))
  have hb : ∀ s ∈ before, snprintf size (s ++ fuse_path.drop 1) = s ++ fuse_path.drop 1 :=
    fun s h => snprintf_fits size _ (hfit s (List.mem_append_left _ h))
  unfold Sparsefs.exclude_path
  rw [hsrc, ← hs]
  apply Sparsefs.exclude_path_loop_stops env g size fuse_path before src behind _
  · rw [hs]; exact hex
  · rw [hs]; exact hinc
  · intro s h
    rw [hb s h]
    exact hbefore s h

/-- C4, as the code has it: when the candidate real path of every source fits the buffer (fewer
than `size` characters, `PATH_MAX` at every call) and no source has it, `exclude_path` returns 1
(exclude) whatever the rules and the default policy are; and it returns 0 (include) only if some
source has the candidate path existing and classified include. -/
theorem Sparsefs.exclude_path_absent (env : Env) (g : Sparsefs.Globals) (realpath : CStr)
    (size : Nat) (fuse_path : CStr)
    (hfit : ∀ s ∈ g.sources, (s ++ fuse_path.drop 1).length < size) :
    ((∀ s ∈ g.sources, env.access (s ++ fuse_path.drop 1) = false) →
        (Sparsefs.exclude_path env g realpath size fuse_path).1 = 1) ∧
      ((Sparsefs.exclude_path env g realpath size fuse_path).1 = 0 →
        ∃ s ∈ g.sources, env.access (s ++ fuse_path.drop 1) = true ∧
          Sparsefs.exclude_chroot_path env g (s ++ fuse_path.drop 1) = 0) := by
  have hb : ∀ s ∈ g.sources, snprintf size (s ++ fuse_path.drop 1) = s ++ fuse_path.drop 1 :=
    fun s h => snprintf_fits size _ (hfit s h)
  unfold Sparsefs.exclude_path
  constructor
  · intro h
    exact Sparsefs.exclude_path_loop_absent env g size fuse_path g.sources (1, realpath)
      (fun s hs => by rw [hb s hs]; exact h s hs)
  · intro h
    rcases Sparsefs.exclude_path_loop_zero env g size fuse_path g.sources (1, realpath) h with
      h1 | ⟨s, hs, h1⟩
    · exact absurd h1 (by simp)
    · rw [hb s hs] at h1
      exact ⟨s, hs, h1⟩

/-- Counterexample to C3 as stated.  First: one source "/s/", no rules, default include, and a
virtual path of 4095 letters.  The candidate real path has 4098 characters; it exists and is
classified include.  `exclude_path` probes the 4095 characters that `snprintf` writes into the
buffer instead, finds nothing, and returns 1 (exclude).  Second: the sources "/ss/" and "/" and
a virtual path of 4093 letters, in a world where the paths of fewer than `PATH_MAX` characters
exist.  Only the second source has the candidate, which is classified include; `exclude_path`
stops at the first source, on the 4095 characters `snprintf` writes of its candidate, and
leaves that path in the buffer. -/
theorem Sparsefs.exclude_path_first_included_counterexample :
    (Example.env_long.access ("/s/".toList ++ ('/' :: List.replicate 4095 'a').drop 1) = true ∧
      Sparsefs.exclude_chroot_path Example.env_long ⟨Store.empty, ["/s/".toList], 0⟩
        ("/s/".toList ++ ('/' :: List.replicate 4095 'a').drop 1) = 0 ∧
      Sparsefs.exclude_path Example.env_long ⟨Store.empty, ["/s/".toList], 0⟩ [] PATH_MAX
        ('/' :: List.replicate 4095 'a') = (1, "/s/".toList ++ List.replicate 4092 'a')) ∧
    (Example.env_short.access ("/ss/".toList ++ ('/' :: List.replicate 4093 'a').drop 1) =
        false ∧
      Example.env_short.access ("/".toList ++ ('/' :: List.replicate 4093 'a').drop 1) =
        true ∧
      Sparsefs.exclude_chroot_path Example.env_short
        ⟨Store.empty, ["/ss/".toList, "/".toList], 0⟩
        ("/".toList ++ ('/' :: List.replicate 4093 'a').drop 1) = 0 ∧
      Sparsefs.exclude_path Example.env_short ⟨Store.empty, ["/ss/".toList, "/".toList], 0⟩ []
        PATH_MAX ('/' :: List.replicate 4093 'a') =
          (0, "/ss/".toList ++ List.replicate 4091 'a') ∧
      "/ss/".toList ++ List.replicate 4091 'a' ≠
        "/".toList ++ ('/' :: List.replicate 4093 'a').drop 1) := by
  constructor
  · obtain ⟨hlen, hcut, hlen2⟩ := Example.long_candidate
    refine ⟨?_, Sparsefs.exclude_chroot_path_no_rules _ _ _, ?_⟩
    · rw [Example.env_long_access, hlen]
      rfl
    · have hacc : Example.env_long.access ("/s/".toList ++ List.replicate 4092 'a') = false := by
        rw [Example.env_long_access, hlen2]
        rfl
      unfold Sparsefs.exclude_path
      simp only [Sparsefs.exclude_path_loop, hcut, hacc, Bool.false_eq_true, if_false]
  · obtain ⟨hlen, hcut, hlen2, hlen3⟩ := Example.long_candidate_first
    refine ⟨?_, ?_, Sparsefs.exclude_chroot_path_no_rules _ _ _, ?_, ?_⟩
    · rw [Example.env_short_access, hlen]
      rfl
    · rw [Example.env_short_access, hlen3]
      rfl
    · have hacc : Example.env_short.access ("/ss/".toList ++ List.replicate 4091 'a') =
          true := by
        rw [Example.env_short_access, hlen2]
        rfl
      unfold Sparsefs.exclude_path
      simp only [Sparsefs.exclude_path_loop, hcut, hacc, if_true,
        Sparsefs.exclude_chroot_path_no_rules]
    · intro h
      have h2 := congrArg List.length h
      rw [hlen2, hlen3] at h2
      exact absurd h2 (by decide)

/-- Counterexample to C4 as stated: one source "/s/", no rules, default include, and a virtual
path of 4095 letters.  The candidate real path has 4098 characters and does not exist.
`exclude_path` probes the 4095 characters that `snprintf` writes into the buffer instead, a path
that exists, and returns 0 (include) with that path in the buffer. -/
theorem Sparsefs.exclude_path_absent_counterexample :
    Example.env_short.access ("/s/".toList ++ ('/' :: List.replicate 4095 'a').drop 1) = false ∧
    Sparsefs.exclude_path Example.env_short ⟨Store.empty, ["/s/".toList], 0⟩ [] PATH_MAX
      ('/' :: List.replicate 4095 'a') = (0, "/s/".toList ++ List.replicate 4092 'a') := by
  obtain ⟨hlen, hcut, hlen2⟩ := Example.long_candidate
  refine ⟨?_, ?_⟩
  · rw [Example.env_short_access, hlen]
    rfl
  · have hacc : Example.env_short.access ("/s/".toList ++ List.replicate 4092 'a') = true := by
      rw [Example.env_short_access, hlen2]
      rfl
    unfold Sparsefs.exclude_path
    simp only [Sparsefs.exclude_path_loop, hcut, hacc, if_true,
      Sparsefs.exclude_chroot_path_no_rules]

/-- Witness of C3 as amended: "/f" exists in both sources; the first source has an exclude rule
for it, the second none, and the default is include: the second source is chosen. -/
theorem Sparsefs.exclude_path_first_included_witness :
    Sparsefs.exclude_chroot_path Example.env_none Example.globals_two "/s1/f".toList = 1 ∧
      Sparsefs.exclude_path Example.env_none Example.globals_two [] PATH_MAX "/f".toList =
        (0, "/s2/f".toList) :=
  ⟨by decide,
    Sparsefs.exclude_path_first_included Example.env_none Example.globals_two [] PATH_MAX
      "/f".toList ["/s1/".toList] "/s2/".toList [] rfl (by decide) (by decide) (by decide)
      (by decide)⟩

/-- Witness of C4 as amended: nothing exists, the default is include and no rule is there; the
path is excluded all the same. -/
theorem Sparsefs.exclude_path_absent_witness :
    (Sparsefs.exclude_path Example.env_void ⟨Store.empty, ["/s1/".toList, "/s2/".toList], 0⟩
      [] PATH_MAX "/ghost.tmp".toList).1 = 1 :=
  (Sparsefs.exclude_path_absent Example.env_void
    ⟨Store.empty, ["/s1/".toList, "/s2/".toList], 0⟩ [] PATH_MAX "/ghost.tmp".toList
    (by decide)).1 (fun _ _ => rfl)

/-! ## Claims on `ffs_readdir` (sparsefs.c) -/

/-- C5 at a failing input: the root of the first source holds a dangling symbolic link `n`
(listed by `readdir`, but `access` fails on it), the root of the second a file `n`; no rules,
default include.  The link is handed to the filler; when the second source is listed, the check
of the earlier source finds that "/s1/n" does not exist, so `n` is handed to the filler again. -/
theorem Sparsefs.ffs_readdir_dangling_duplicate :
    Sparsefs.ffs_readdir Example.env_dangling ⟨Store.empty, ["/s1/".toList, "/s2/".toList], 0⟩
        ['/'] [] (fun _ _ => 0) =
      (0, [⟨['.'], 1, 4 <<< 12⟩, ⟨['.', '.'], 2, 4 <<< 12⟩, ⟨['n'], 11, 10 <<< 12⟩,
        ⟨['n'], 22, 8 <<< 12⟩]) ∧
    ¬ ((Sparsefs.ffs_readdir Example.env_dangling
        ⟨Store.empty, ["/s1/".toList, "/s2/".toList], 0⟩ ['/'] []
        (fun _ _ => 0)).2.map (fun e => e.name)).Nodup := by
  constructor <;> decide

/-- An instance of `ffs_readdir_nodup_of_probed`: the roots list "a", "b" and "b", "c", all of
which exist; the names handed to the filler are "a", "b", "c". -/
theorem Sparsefs.ffs_readdir_union :
    (Sparsefs.ffs_readdir Example.env_union ⟨Store.empty, ["/s1/".toList, "/s2/".toList], 0⟩
        ['/'] [] (fun _ _ => 0)).2.map (fun e => e.name) = [['a'], ['b'], ['c']] ∧
      ((Sparsefs.ffs_readdir Example.env_union ⟨Store.empty, ["/s1/".toList, "/s2/".toList], 0⟩
        ['/'] [] (fun _ _ => 0)).2.map (fun e => e.name)).Nodup :=
  ⟨by decide,
    Sparsefs.ffs_readdir_nodup_of_probed Example.env_union
      ⟨Store.empty, ["/s1/".toList, "/s2/".toList], 0⟩ ['/'] (fun _ _ => 0)
      (fun dir es h => by
        by_cases h1 : dir = "/s1/".toList
        · subst h1
          have h2 : es = [⟨['a'], 11, 8⟩, ⟨['b'], 12, 8⟩] := by
            have h3 : Example.env_union.readdir "/s1/".toList =
                .ok [⟨['a'], 11, 8⟩, ⟨['b'], 12, 8⟩] := rfl
            rw [h3] at h
            exact (Except.ok.inj h).symm
          subst h2
          exact ⟨by decide, by decide⟩
        · by_cases h2 : dir = "/s2/".toList
          · subst h2
            have h4 : es = [⟨['b'], 21, 8⟩, ⟨['c'], 22, 8⟩] := by
              have h3 : Example.env_union.readdir "/s2/".toList =
                  .ok [⟨['b'], 21, 8⟩, ⟨['c'], 22, 8⟩] := rfl
              rw [h3] at h
              exact (Except.ok.inj h).symm
            subst h4
            exact ⟨by decide, by decide⟩
          · have h3 : Example.env_union.readdir dir = .error 2 := by
              simp only [Example.env_union, h1, h2, if_false]
            rw [h3] at h
            exact absurd h (by simp))⟩

/-! ## Claims on ancestor injection (filterfs.c) -/

theorem Mem.str_dup_new (m : Mem) (s : CStr) (hnul : NUL ∉ s) :
    Mem.str (m ++ [s ++ [NUL]]) ⟨m.length, 0⟩ = s := by
  unfold Mem.str
  simp only [List.getD_eq_getElem?_getD, List.getElem?_append_right (le_refl _), Nat.sub_self,
    List.getElem?_cons_zero, Option.getD_some]
  exact cstrAt_append s [NUL] hnul (Or.inl rfl)

/-- Past the source-root and dot guards `exclude_chroot_path` of filterfs.c follows the rule the
lookup finds. -/
theorem Filterfs.exclude_chroot_path_found (env : Env) (g : Filterfs.Globals) (path : CStr)
    (r : Rule) (hroot : path ≠ g.srcdir) (hdot : ¬ ['/', '.'] <:+ path)
    (hdotdot : ¬ ['/', '.', '.'] <:+ path) (hr : Filterfs.getRule g.store path = some r) :
    Filterfs.exclude_chroot_path env g path = r.exclude := by
  unfold Filterfs.exclude_chroot_path
  rw [if_neg hroot, if_neg (by rw [tail_is_iff]; exact hdot),
    if_neg (by rw [tail_is_iff]; exact hdotdot), hr]
  rfl

/-- C10, as the code has it: let `p` be a literal pattern without a quotation mark at either end
and `d` the parent `dirname` yields for the cleaned `p`, where `d` is usable (not ".", not "/"),
a directory on disk, not the source root, does not end in "/." or "/.." and ends in neither a
quotation mark nor a slash.  From a store whose lookup has no rule for `d` (the empty store, for
one) `append_rule(p, a)` returns, and afterwards `exclude_chroot_path(d)` is `a`. -/
theorem Filterfs.append_rule_injects_parent (env : Env) (srcdir : CStr) (default_exclude : Int)
    (st : Store) (p : CStr) (a : Int) (d : CStr)
    (halloc : st.Alloc) (hnone : Filterfs.getRule st d = none)
    (hnul : NUL ∉ p) (hhead : p.head? ≠ some QUOTE) (hlast : p.getLast? ≠ some QUOTE)
    (hlit : has_wildcard p = false)
    (hd : (Filterfs.dirname (cleaned p)).2 = d)
    (husable : Filterfs.parent_usable d = true) (hdir : env.is_dir d = true)
    (hdq : d.getLast? ≠ some QUOTE) (hds : d.getLast? ≠ some '/')
    (hroot : d ≠ srcdir) (hdot : ¬ ['/', '.'] <:+ d) (hdotdot : ¬ ['/', '.', '.'] <:+ d) :
    ∃ st2, Filterfs.append_rule_dup env st p a = some st2 ∧
      Filterfs.exclude_chroot_path env ⟨st2, srcdir, default_exclude⟩ d = a := by
  have hq : is_quoted p = false := is_quoted_false p hhead hlast
  rw [cleaned_of_unquoted p hq] at hd
  have hp : p ≠ [] := by
    intro h0
    rw [h0] at hd
    rw [← hd] at husable
    exact absurd husable (by decide)
  have hc : cstrAt p 0 = p := cstrAt_self p hnul
  have hu : unquoted (cstrAt p 0) ≠ [] := by rw [hc]; exact unquoted_ne_nil p hp hhead
  obtain ⟨st1, h1⟩ := store_rule_dup_some st p a hu
  obtain ⟨rule, _, hg, hpat, _, hstr, _⟩ := store_rule_dup_spec st st1 p a h1
  rw [hc] at hstr hpat
  rw [cleaned_of_unquoted p hq] at hpat
  have halloc1 : st1.Alloc := hg.alloc halloc
  have husable2 : Filterfs.parent_usable (Filterfs.dirname (stripped p)).2 = true := by
    rw [hd]; exact husable
  obtain ⟨cut, hdirname, hcutlt⟩ := Filterfs.dirname_usable (stripped p) husable2
  have hd1 : (Filterfs.dirname (stripped p)).1 = d := by rw [← hd, hdirname]
  have hdtake : d = (stripped p).take cut := by rw [← hd, hdirname]
  have hdne : d ≠ [] := Filterfs.parent_usable_ne_nil d husable
  have hpre : d <+: p := by
    rw [hdtake]
    exact ( List.take_prefix _ _).trans (stripped_initial p)
  have hdstr : d ≠ stripped p := by
    intro heq
    have hl : (stripped p).getLast? ≠ some '/' := by rw [← heq]; exact hds
    have h5 := hcutlt hl
    have h6 : d.length = (stripped p).length := by rw [heq]
    rw [hdtake, List.length_take] at h6
    omega
  have hdlen : d.length < p.length := by
    have hle : d.length ≤ (stripped p).length := by
      rw [hdtake, List.length_take]; exact Nat.min_le_right _ _
    rcases stripped_cases p hp with h3 | ⟨h3, h4⟩
    · omega
    · have h5 := hcutlt (by rw [h3]; exact h4)
      rw [hdtake, List.length_take, h3]
      rw [h3] at h5
      omega
  have hdq2 : is_quoted d = false :=
    is_quoted_false d (by rw [head_of_initial p d hpre hdne]; exact hhead) hdq
  have hnone1 : Sparsefs.getRuleByHash st1 (stripped d) = none := by
    rw [stripped_of_plain d hdq2 hds]
    cases hf : Sparsefs.getRuleByHash st1 d with
    | none => rfl
    | some r =>
      exfalso
      have hr : r = rule := hg.lookup_new halloc d r hnone hf
      have hpr := (Sparsefs.getRuleByHash_some st1 d r hf).2
      rw [hr, hpat] at hpr
      exact hdstr hpr.symm
  obtain ⟨st2, h2, _, _, hins⟩ := Filterfs.append_rule_fuel_total env a p.length st1 d halloc1
    (not_nul_of_initial p d hpre hnul) hdne
    (by rw [head_of_initial p d hpre hdne]; exact hhead) hdlen
  obtain ⟨r, hr, hra⟩ := hins hdq2 (has_wildcard_of_initial p d hpre hlit) hnone1
  rw [stripped_of_plain d hdq2 hds] at hr
  refine ⟨st2, ?_, ?_⟩
  · unfold Filterfs.append_rule_dup Filterfs.append_rule strdup
    simp only [Mem.str_dup_new st.mem p hnul]
    rw [Filterfs.append_rule_fuel_succ, h1, Option.some_bind, hstr, hd, husable, hdir, hd1]
    simpa using h2
  · rw [Filterfs.exclude_chroot_path_found env ⟨st2, srcdir, default_exclude⟩ d r hroot hdot
      hdotdot hr]
    exact hra

/-- Counterexample to C10 as stated: `append_rule("/a/../c", exclude)` from the empty store, with
"/a/.." a directory on disk.  A rule for the parent "/a/.." is stored with action exclude, but
`exclude_chroot_path("/a/..")` returns 0 (include): the guard for paths ending in "/.." comes
before the rules. -/
theorem Filterfs.append_rule_injects_parent_counterexample :
    (Filterfs.dirname "/a/../c".toList).2 = "/a/..".toList ∧
    (Filterfs.append_rule_dup Example.env_all Store.empty "/a/../c".toList 1).map
        (fun st => ((Filterfs.getRule st "/a/..".toList).map (fun r => r.exclude),
          Filterfs.exclude_chroot_path Example.env_all ⟨st, "/src/".toList, 1⟩
            "/a/..".toList)) =
      some (some 1, 0) := by
  constructor <;> decide

/-- Witness of C10 as amended: after `append_rule("/a/b/c", exclude)` from the empty store, with
"/a/b" a directory, "/a/b" is excluded though the default is include. -/
theorem Filterfs.append_rule_injects_parent_witness :
    ∃ st2, Filterfs.append_rule_dup Example.env_all Store.empty "/a/b/c".toList 1 = some st2 ∧
      Filterfs.exclude_chroot_path Example.env_all ⟨st2, "/src/".toList, 0⟩ "/a/b".toList = 1 :=
  Filterfs.append_rule_injects_parent Example.env_all "/src/".toList 0 Store.empty
    "/a/b/c".toList 1 "/a/b".toList Store.empty_sound.alloc (by decide) (by decide) (by decide)
    (by decide) (by decide) (by decide) (by decide) (by decide) (by decide) (by decide)
    (by decide) (by decide) (by decide)

/-! ## Listing a directory that resolves to exclude -/

/-- When `exclude_path` ends with a verdict other than 0, no source has the candidate path
existing and included. -/
theorem Sparsefs.exclude_path_loop_nonzero (env : Env) (g : Sparsefs.Globals) (size : Nat)
    (fuse_path : CStr) (rest : List CStr) (acc : Int × CStr)
    (h : (Sparsefs.exclude_path_loop env g size fuse_path rest acc).1 ≠ 0) :
    ∀ s ∈ rest, ¬ (env.access (snprintf size (s ++ fuse_path.drop 1)) = true ∧
      Sparsefs.exclude_chroot_path env g (snprintf size (s ++ fuse_path.drop 1)) = 0) := by
  induction rest generalizing acc with
  | nil => intro s hs; exact absurd hs (List.not_mem_nil _)
  | cons t rest ih =>
    obtain ⟨e, rp⟩ := acc
    intro s hs
    simp only [Sparsefs.exclude_path_loop] at h
    by_cases h1 : env.access (snprintf size (t ++ fuse_path.drop 1)) = true
    · rw [if_pos h1] at h
      by_cases h2 : Sparsefs.exclude_chroot_path env g (snprintf size (t ++ fuse_path.drop 1)) = 0
      · rw [if_pos h2] at h
        exact absurd h2 h
      · rw [if_neg h2] at h
        rcases List.mem_cons.mp hs with hst | hst
        · rw [hst]; exact fun hc => h2 hc.2
        · exact ih _ h s hst
    · rw [if_neg h1] at h
      rcases List.mem_cons.mp hs with hst | hst
      · rw [hst]; exact fun hc => h1 hc.1
      · exact ih _ h s hst

/-- The second loop of `ffs_readdir` of sparsefs.c passes over the sources that lack the
directory or exclude it: when all do, it returns 0 and calls the filler for nothing. -/
theorem Sparsefs.readdir_sub_none (env : Env) (g : Sparsefs.Globals) (path : CStr)
    (filler : List FillArg → FillArg → Int) (rest : List CStr) (i : Nat) (buf : List FillArg)
    (h : ∀ s ∈ rest, ¬ (env.access (snprintf PATH_MAX (s ++ path.drop 1)) = true ∧
      Sparsefs.exclude_chroot_path env g (snprintf PATH_MAX (s ++ path.drop 1)) = 0)) :
    Sparsefs.readdir_sub env g path filler i rest buf = (0, buf) := by
  induction rest generalizing i with
  | nil => rfl
  | cons s rest ih =>
    have hs := h s (List.mem_cons_self _ _)
    have ih2 := fun i => ih i (fun t ht => h t (List.mem_cons_of_mem _ ht))
    simp only [Sparsefs.readdir_sub]
    by_cases h1 : env.access (snprintf PATH_MAX (s ++ path.drop 1)) = true
    · have h2 : Sparsefs.exclude_chroot_path env g (snprintf PATH_MAX (s ++ path.drop 1)) ≠ 0 :=
        fun hc => hs ⟨h1, hc⟩
      rw [if_pos h1, if_neg h2]
      exact ih2 _
    · rw [if_neg h1]
      exact ih2 _

/-- For every directory other than the mount root whose `exclude_path` verdict is not 0,
`ffs_readdir` of sparsefs.c returns 0, not `-ENOENT`, and makes no filler call. -/
theorem Sparsefs.ffs_readdir_excluded_zero (env : Env) (g : Sparsefs.Globals) (path : CStr)
    (realpath : CStr) (buf : List FillArg) (filler : List FillArg → FillArg → Int)
    (hpath : path ≠ ['/'])
    (hex : (Sparsefs.exclude_path env g realpath PATH_MAX path).1 ≠ 0) :
    Sparsefs.ffs_readdir env g path buf filler = (0, buf) := by
  unfold Sparsefs.ffs_readdir
  rw [if_neg hpath]
  exact Sparsefs.readdir_sub_none env g path filler g.sources 0 buf
    (Sparsefs.exclude_path_loop_nonzero env g PATH_MAX path g.sources (1, realpath) hex)

/-- Function `ffs_readdir` of filterfs.c answers a directory whose `exclude_path` verdict is not
0 with `-ENOENT` and makes no filler call. -/
theorem Filterfs.ffs_readdir_excluded (env : Env) (g : Filterfs.Globals) (path : CStr)
    (buf : List FillArg) (filler : List FillArg → FillArg → Int)
    (hex : (Filterfs.exclude_path env g PATH_MAX path).1 ≠ 0) :
    Filterfs.ffs_readdir env g path buf filler = (-ENOENT, buf) := by
  unfold Filterfs.ffs_readdir
  simp only [if_pos hex]

/-- C14 at a failing input: two sources whose roots hold "a", "b" and "b", "c", no rules,
default include.  The directory "/nodir" exists in no source, `exclude_path` returns 1 for it,
and `ffs_readdir` of sparsefs.c returns 0 with no entry where `-ENOENT` is claimed.  With an
exclude rule for "/s1/D" and the single source "/s1/", where "/D" exists and is excluded, it
returns 0 as well, while `ffs_readdir` of filterfs.c returns `-ENOENT` for the same
directory. -/
theorem Sparsefs.ffs_readdir_excluded_not_enoent :
    (Sparsefs.exclude_path Example.env_union ⟨Store.empty, ["/s1/".toList, "/s2/".toList], 0⟩
        [] PATH_MAX "/nodir".toList).1 = 1 ∧
    Sparsefs.ffs_readdir Example.env_union ⟨Store.empty, ["/s1/".toList, "/s2/".toList], 0⟩
        "/nodir".toList [] (fun _ _ => 0) = (0, []) ∧
    (Sparsefs.exclude_path Example.env_hidden
        ⟨Example.globals_hidden.store, ["/s1/".toList], 0⟩ [] PATH_MAX "/D".toList).1 = 1 ∧
    Sparsefs.ffs_readdir Example.env_hidden ⟨Example.globals_hidden.store, ["/s1/".toList], 0⟩
        "/D".toList [] (fun _ _ => 0) = (0, []) ∧
    Filterfs.ffs_readdir Example.env_hidden ⟨Example.globals_hidden.store, "/s1/".toList, 0⟩
        "/D".toList [] (fun _ _ => 0) = (-ENOENT, []) := by
  refine ⟨?_, ?_, ?_, ?_, ?_⟩ <;> decide

/-! ## Entries a listing leaves out or adds -/

/-- C16 at a failing input: the sources "/s1/" and "/s2/" both hold a directory "D" with a file
"n", the second also a file "m"; the only rule excludes "/s1/D", the default is include.  In
the second source "D" exists and is included and so are its entries "/s2/D/n" and "/s2/D/m",
yet the listing of "/D" holds "m" alone: "n" (like "." and "..") is left out because "/s1/D/n"
exists and is included, although the first source was not listed at all. -/
theorem Sparsefs.ffs_readdir_entry_lost :
    (Example.env_hidden.access "/s2/D".toList = true ∧
      Sparsefs.exclude_chroot_path Example.env_hidden Example.globals_hidden "/s2/D".toList =
        0) ∧
    Example.env_hidden.readdir "/s2/D".toList =
      .ok [⟨['.'], 20, 4⟩, ⟨['.', '.'], 3, 4⟩, ⟨['n'], 21, 8⟩, ⟨['m'], 22, 8⟩] ∧
    Sparsefs.exclude_chroot_path Example.env_hidden Example.globals_hidden "/s2/D/n".toList =
      0 ∧
    Sparsefs.exclude_chroot_path Example.env_hidden Example.globals_hidden "/s1/D".toList = 1 ∧
    Sparsefs.ffs_readdir Example.env_hidden Example.globals_hidden "/D".toList []
        (fun _ _ => 0) = (0, [⟨['m'], 22, 8 <<< 12⟩]) := by
  refine ⟨⟨?_, ?_⟩, rfl, ?_, ?_, ?_⟩ <;> decide

/-- C17 at a failing input: the root of "/s1/" holds a dangling symbolic link "n" (listed by
`readdir`, `access` fails on it), the root of "/s2/" a file "n"; no rules, default include.
The listing of "/" hands "n" of the first source (inode 11) to the filler, while `exclude_path`
on "/n" selects "/s2/n"; with the first source alone "n" is listed and `exclude_path` on "/n"
returns 1 (exclude). -/
theorem Sparsefs.ffs_readdir_emits_unresolved :
    (⟨['n'], 11, 10 <<< 12⟩ : FillArg) ∈
      (Sparsefs.ffs_readdir Example.env_dangling
        ⟨Store.empty, ["/s1/".toList, "/s2/".toList], 0⟩ ['/'] [] (fun _ _ => 0)).2 ∧
    Sparsefs.exclude_path Example.env_dangling ⟨Store.empty, ["/s1/".toList, "/s2/".toList], 0⟩
        [] PATH_MAX "/n".toList = (0, "/s2/n".toList) ∧
    (⟨['n'], 11, 10 <<< 12⟩ : FillArg) ∈
      (Sparsefs.ffs_readdir Example.env_dangling ⟨Store.empty, ["/s1/".toList], 0⟩ ['/'] []
        (fun _ _ => 0)).2 ∧
    Sparsefs.exclude_path Example.env_dangling ⟨Store.empty, ["/s1/".toList], 0⟩
        [] PATH_MAX "/n".toList = (1, "/s1/n".toList) := by
  refine ⟨?_, ?_, ?_, ?_⟩ <;> decide

/-! ## The default policy -/

/-- Options other than `--default-exclude` and `--default-include` leave `default_exclude` of
sparsefs.c at the value it has. -/
theorem Sparsefs.opt_default_exclude_keeps (keys : List Sparsefs.OptKey) (v : Int)
    (h1 : Sparsefs.OptKey.KEY_DEFAULT_EXCLUDE ∉ keys)
    (h2 : Sparsefs.OptKey.KEY_DEFAULT_INCLUDE ∉ keys) :
    keys.foldl Sparsefs.opt_default_exclude v = v := by
  induction keys with
  | nil => rfl
  | cons k keys ih =>
    have hk1 : k ≠ .KEY_DEFAULT_EXCLUDE := fun h => h1 (h ▸ List.mem_cons_self _ _)
    have hk2 : k ≠ .KEY_DEFAULT_INCLUDE := fun h => h2 (h ▸ List.mem_cons_self _ _)
    have hk : Sparsefs.opt_default_exclude v k = v := by
      cases k <;> first | rfl | exact absurd rfl hk1 | exact absurd rfl hk2
    rw [List.foldl_cons, hk]
    exact ih (fun h => h1 (List.mem_cons_of_mem _ h)) (fun h => h2 (List.mem_cons_of_mem _ h))

/-- C18 at a failing input: the options `-s /s` and `-X /s/x` alone.  In both programs
`default_exclude` keeps its initial value 0, and the path "/s/f", which matches no rule, is
classified 0 (include), where the claim and the usage text ("--default-exclude ... exclude
unmatched items (default)") have exclude. -/
theorem Sparsefs.default_policy_is_include :
    [Sparsefs.OptKey.KEY_SOURCE, Sparsefs.OptKey.KEY_EXCLUDE].foldl Sparsefs.opt_default_exclude
        Sparsefs.default_exclude_init = 0 ∧
    Sparsefs.exclude_chroot_path Example.env_none
        ⟨(Sparsefs.ingest Store.empty [("/s/x".toList, 1)]).get (by decide), ["/s/".toList],
          [Sparsefs.OptKey.KEY_SOURCE, Sparsefs.OptKey.KEY_EXCLUDE].foldl
            Sparsefs.opt_default_exclude Sparsefs.default_exclude_init⟩
        "/s/f".toList = 0 ∧
    [Filterfs.OptKey.FUSE_OPT_KEY_NONOPT, Filterfs.OptKey.KEY_EXCLUDE].foldl
        Filterfs.opt_default_exclude Filterfs.default_exclude_init = 0 ∧
    Filterfs.exclude_chroot_path Example.env_none
        ⟨(Sparsefs.ingest Store.empty [("/s/x".toList, 1)]).get (by decide), "/s/".toList,
          [Filterfs.OptKey.FUSE_OPT_KEY_NONOPT, Filterfs.OptKey.KEY_EXCLUDE].foldl
            Filterfs.opt_default_exclude Filterfs.default_exclude_init⟩
        "/s/f".toList = 0 := by
  refine ⟨?_, ?_, ?_, ?_⟩ <;> decide

/-! ## A full buffer -/

/-- C19 at a failing input: the roots of "/s1/" and "/s2/" hold "a", "b" and "b", "c"; no
rules, default include; the filler has room for one entry.  The filler returns 1 for "b" of
the first source, the loop over that source ends, and `ffs_readdir` of sparsefs.c goes on to
the second source and hands "c" to the filler. -/
theorem Sparsefs.ffs_readdir_continues_when_full :
    Example.filler_one [⟨['a'], 11, 8 <<< 12⟩] ⟨['b'], 12, 8 <<< 12⟩ = 1 ∧
    Sparsefs.ffs_readdir Example.env_union ⟨Store.empty, ["/s1/".toList, "/s2/".toList], 0⟩
        ['/'] [] Example.filler_one =
      (0, [⟨['a'], 11, 8 <<< 12⟩, ⟨['b'], 12, 8 <<< 12⟩, ⟨['c'], 22, 8 <<< 12⟩]) := by
  refine ⟨?_, ?_⟩ <;> decide

/-! ## The stored pattern -/

/-- C20 at a failing input: the raw pattern `"abc`, with a quotation mark in front only.  The
claim has "abc" stored; `append_rule` of sparsefs.c stores "ab", dropping the last character
along with the quotation mark.  For `abc"` the claim has "abc" and the code stores "bc". -/
theorem Sparsefs.append_rule_unbalanced_quote :
    spec_stored_pattern [QUOTE, 'a', 'b', 'c'] = "abc".toList ∧
    (Sparsefs.append_rule_dup Store.empty [QUOTE, 'a', 'b', 'c'] 1).map
        (fun st => (st.ht (calc_hash "ab".toList % HT_LENGTH)).map st.pat) =
      some ["ab".toList] ∧
    (Sparsefs.append_rule_dup Store.empty [QUOTE, 'a', 'b', 'c'] 1).map
        (fun st => Sparsefs.getRuleByHash st "abc".toList) = some none ∧
    spec_stored_pattern ['a', 'b', 'c', QUOTE] = "abc".toList ∧
    (Sparsefs.append_rule_dup Store.empty ['a', 'b', 'c', QUOTE] 1).map
        (fun st => (st.ht (calc_hash "bc".toList % HT_LENGTH)).map st.pat) =
      some ["bc".toList] := by
  refine ⟨?_, ?_, ?_, ?_, ?_⟩ <;> decide

/-! ## The handlers behind `exclude_path` -/

/-- C13: a request for getattr, access, readlink, mknod, mkdir, unlink, rmdir, chmod, chown,
truncate, utimens, open, read, write or statfs whose virtual path `exclude_path` answers with a
verdict other than 0, and a request for symlink, rename or link one of whose two paths it
answers so, is served with `-ENOENT` and without any system call of the handler. -/
theorem Sparsefs.ffs_oper_excluded (env : Env) (os : Os) (g : Sparsefs.Globals)
    (req : Sparsefs.Request)
    (h : ∃ p ∈ req.paths, (Sparsefs.exclude_path env g [] PATH_MAX p).1 ≠ 0) :
    Sparsefs.ffs_oper env os g req = (-ENOENT, []) := by
  obtain ⟨p, hp, hex⟩ := h
  cases req with
  | getattr path =>
    rw [List.mem_singleton.mp hp] at hex
    simp only [Sparsefs.ffs_oper, Sparsefs.ffs_getattr, if_pos hex]
  | access path mask =>
    rw [List.mem_singleton.mp hp] at hex
    simp only [Sparsefs.ffs_oper, Sparsefs.ffs_access, if_pos hex]
  | readlink path size =>
    rw [List.mem_singleton.mp hp] at hex
    simp only [Sparsefs.ffs_oper, Sparsefs.ffs_readlink, if_pos hex]
  | mknod path mode rdev =>
    rw [List.mem_singleton.mp hp] at hex
    simp only [Sparsefs.ffs_oper, Sparsefs.ffs_mknod, if_pos hex]
  | mkdir path mode =>
    rw [List.mem_singleton.mp hp] at hex
    simp only [Sparsefs.ffs_oper, Sparsefs.ffs_mkdir, if_pos hex]
  | symlink f t =>
    have h2 : (Sparsefs.exclude_path env g [] PATH_MAX f).1 ≠ 0 ∨
        (Sparsefs.exclude_path env g [] PATH_MAX t).1 ≠ 0 := by
      rcases List.mem_cons.mp hp with h1 | h1
      · left; rw [← h1]; exact hex
      · right; rw [← List.mem_singleton.mp h1]; exact hex
    simp only [Sparsefs.ffs_oper, Sparsefs.ffs_symlink, if_pos h2]
  | unlink path =>
    rw [List.mem_singleton.mp hp] at hex
    simp only [Sparsefs.ffs_oper, Sparsefs.ffs_unlink, if_pos hex]
  | rmdir path =>
    rw [List.mem_singleton.mp hp] at hex
    simp only [Sparsefs.ffs_oper, Sparsefs.ffs_rmdir, if_pos hex]
  | rename f t =>
    have h2 : (Sparsefs.exclude_path env g [] PATH_MAX f).1 ≠ 0 ∨
        (Sparsefs.exclude_path env g [] PATH_MAX t).1 ≠ 0 := by
      rcases List.mem_cons.mp hp with h1 | h1
      · left; rw [← h1]; exact hex
      · right; rw [← List.mem_singleton.mp h1]; exact hex
    simp only [Sparsefs.ffs_oper, Sparsefs.ffs_rename, if_pos h2]
  | link f t =>
    have h2 : (Sparsefs.exclude_path env g [] PATH_MAX f).1 ≠ 0 ∨
        (Sparsefs.exclude_path env g [] PATH_MAX t).1 ≠ 0 := by
      rcases List.mem_cons.mp hp with h1 | h1
      · left; rw [← h1]; exact hex
      · right; rw [← List.mem_singleton.mp h1]; exact hex
    simp only [Sparsefs.ffs_oper, Sparsefs.ffs_link, if_pos h2]
  | chmod path mode =>
    rw [List.mem_singleton.mp hp] at hex
    simp only [Sparsefs.ffs_oper, Sparsefs.ffs_chmod, if_pos hex]
  | chown path uid gid =>
    rw [List.mem_singleton.mp hp] at hex
    simp only [Sparsefs.ffs_oper, Sparsefs.ffs_chown, if_pos hex]
  | truncate path size =>
    rw [List.mem_singleton.mp hp] at hex
    simp only [Sparsefs.ffs_oper, Sparsefs.ffs_truncate, if_pos hex]
  | utimens path asec ansec msec mnsec =>
    rw [List.mem_singleton.mp hp] at hex
    simp only [Sparsefs.ffs_oper, Sparsefs.ffs_utimens, if_pos hex]
  | «open» path flags =>
    rw [List.mem_singleton.mp hp] at hex
    simp only [Sparsefs.ffs_oper, Sparsefs.ffs_open, if_pos hex]
  | read path size offset =>
    rw [List.mem_singleton.mp hp] at hex
    simp only [Sparsefs.ffs_oper, Sparsefs.ffs_read, if_pos hex]
  | write path size offset =>
    rw [List.mem_singleton.mp hp] at hex
    simp only [Sparsefs.ffs_oper, Sparsefs.ffs_write, if_pos hex]
  | statfs path =>
    rw [List.mem_singleton.mp hp] at hex
    simp only [Sparsefs.ffs_oper, Sparsefs.ffs_statfs, if_pos hex]

/-- Witness of C13: the roots of two sources hold "a", "b" and "b", "c"; a rename of "/a", which
exists and is included, to "/zz", which exists in no source, is refused with `-ENOENT` before
any system call, on an operating system where every call would succeed; so is a getattr of
"/zz", while a getattr of "/a" calls `lstat` on "/s1/a". -/
theorem Sparsefs.ffs_oper_excluded_witness :
    (Sparsefs.exclude_path Example.env_union ⟨Store.empty, ["/s1/".toList, "/s2/".toList], 0⟩
        [] PATH_MAX "/a".toList).1 = 0 ∧
    Sparsefs.ffs_oper Example.env_union Example.os_ok
        ⟨Store.empty, ["/s1/".toList, "/s2/".toList], 0⟩ (.rename "/a".toList "/zz".toList) =
      (-ENOENT, []) ∧
    Sparsefs.ffs_oper Example.env_union Example.os_ok
        ⟨Store.empty, ["/s1/".toList, "/s2/".toList], 0⟩ (.getattr "/a".toList) =
      (0, [.lstat "/s1/a".toList]) :=
  ⟨by decide,
    Sparsefs.ffs_oper_excluded Example.env_union Example.os_ok
      ⟨Store.empty, ["/s1/".toList, "/s2/".toList], 0⟩ (.rename "/a".toList "/zz".toList)
      ⟨"/zz".toList, by decide, by decide⟩,
    by decide⟩

/-! ## Single-source mode against the one-element source list -/

/-- On a store whose table patterns have no wildcard, `exclude_chroot_path` of filterfs.c with
source root `srcdir` and `exclude_chroot_path` of sparsefs.c with the one source `srcdir` give
the same answer: the table lookup sparsefs.c skips for a path with a wildcard finds nothing in
filterfs.c. -/
theorem Filterfs.exclude_chroot_path_single (env : Env) (st : Store) (srcdir : CStr)
    (default_exclude : Int) (x : CStr)
    (hlit : ∀ i, ∀ r ∈ st.ht i, has_wildcard (st.pat r) = false) :
    Filterfs.exclude_chroot_path env ⟨st, srcdir, default_exclude⟩ x =
      Sparsefs.exclude_chroot_path env ⟨st, [srcdir], default_exclude⟩ x := by
  unfold Filterfs.exclude_chroot_path Sparsefs.exclude_chroot_path
  by_cases hx : x = srcdir
  · have h1 : [srcdir].any (fun src => decide (x = src)) = true := by simp [hx]
    simp only [if_pos hx, h1, if_true]
  · have h1 : ¬ ([srcdir].any (fun src => decide (x = src)) = true) := by simp [hx]
    simp only [if_neg hx, if_neg h1]
    have h2 : (if has_wildcard x = true then none else Sparsefs.getRuleByHash st x) =
        Filterfs.getRule st x := by
      by_cases hw : has_wildcard x = true
      · rw [if_pos hw, Filterfs.getRule_eq]
        cases hf : Sparsefs.getRuleByHash st x with
        | none => rfl
        | some r =>
          exfalso
          obtain ⟨hmem, hpat⟩ := Sparsefs.getRuleByHash_some st x r hf
          have h3 := hlit _ r hmem
          rw [hpat, hw] at h3
          exact absurd h3 (by decide)
      · rw [if_neg hw, Filterfs.getRule_eq]
    rw [h2]

/-- C15, as the code has it: with one source root, the same rule store (its table patterns free
of wildcards, as `append_rule` files them) and the same default policy, `exclude_path` of
filterfs.c leaves the same real path as `exclude_path` of sparsefs.c on the one-element source
list for every virtual path, and returns the same verdict whenever that real path exists; when
it does not exist sparsefs.c returns 1 (exclude) and filterfs.c what the rules and the default
say. -/
theorem Filterfs.exclude_path_single_source (env : Env) (st : Store) (srcdir : CStr)
    (default_exclude : Int) (realpath : CStr) (size : Nat) (path : CStr)
    (hlit : ∀ i, ∀ r ∈ st.ht i, has_wildcard (st.pat r) = false) :
    (Filterfs.exclude_path env ⟨st, srcdir, default_exclude⟩ size path).2 =
        (Sparsefs.exclude_path env ⟨st, [srcdir], default_exclude⟩ realpath size path).2 ∧
      (env.access (snprintf size (srcdir ++ path.drop 1)) = true →
        Filterfs.exclude_path env ⟨st, srcdir, default_exclude⟩ size path =
          Sparsefs.exclude_path env ⟨st, [srcdir], default_exclude⟩ realpath size path) ∧
      (env.access (snprintf size (srcdir ++ path.drop 1)) = false →
        (Sparsefs.exclude_path env ⟨st, [srcdir], default_exclude⟩ realpath size path).1 = 1 ∧
        (Filterfs.exclude_path env ⟨st, srcdir, default_exclude⟩ size path).1 =
          Filterfs.exclude_chroot_path env ⟨st, srcdir, default_exclude⟩
            (snprintf size (srcdir ++ path.drop 1))) := by
  have hagree := Filterfs.exclude_chroot_path_single env st srcdir default_exclude
    (snprintf size (srcdir ++ path.drop 1)) hlit
  unfold Filterfs.exclude_path Sparsefs.exclude_path
  simp only [Sparsefs.exclude_path_loop]
  by_cases hacc : env.access (snprintf size (srcdir ++ path.drop 1)) = true
  · rw [if_pos hacc]
    by_cases hz : Sparsefs.exclude_chroot_path env ⟨st, [srcdir], default_exclude⟩
        (snprintf size (srcdir ++ path.drop 1)) = 0
    · rw [if_pos hz, hagree]
      refine ⟨rfl, fun _ => rfl, fun h => ?_⟩
      rw [hacc] at h
      exact absurd h (by decide)
    · rw [if_neg hz, hagree]
      refine ⟨rfl, fun _ => rfl, fun h => ?_⟩
      rw [hacc] at h
      exact absurd h (by decide)
  · rw [if_neg hacc]
    refine ⟨rfl, fun h => absurd h hacc, fun _ => ?_⟩
    constructor <;> first | rfl | trivial

/-- Counterexample to C15 as stated: the source "/s1/" holds "a" and "b", no rules, default
include.  For the virtual path "/nodir", which does not exist, filterfs.c returns 0 (include)
and sparsefs.c on the one-element source list returns 1 (exclude). -/
theorem Filterfs.exclude_path_single_source_counterexample :
    Filterfs.exclude_path Example.env_union ⟨Store.empty, "/s1/".toList, 0⟩ PATH_MAX
        "/nodir".toList = (0, "/s1/nodir".toList) ∧
    Sparsefs.exclude_path Example.env_union ⟨Store.empty, ["/s1/".toList], 0⟩ [] PATH_MAX
        "/nodir".toList = (1, "/s1/nodir".toList) := by
  constructor <;> decide

/-- Witness of C15 as amended: on the store of `calls_exact` with source "/s/", default exclude,
in a world where every path exists, both programs resolve "/a" to "/s/a" and include it. -/
theorem Filterfs.exclude_path_single_source_witness :
    Filterfs.exclude_path Example.env_none ⟨Example.store_exact, "/s/".toList, 1⟩ PATH_MAX
        "/a".toList =
      Sparsefs.exclude_path Example.env_none ⟨Example.store_exact, ["/s/".toList], 1⟩ []
        PATH_MAX "/a".toList ∧
    Sparsefs.exclude_path Example.env_none ⟨Example.store_exact, ["/s/".toList], 1⟩ []
        PATH_MAX "/a".toList = (0, "/s/a".toList) :=
  ⟨(Filterfs.exclude_path_single_source Example.env_none Example.store_exact "/s/".toList 1 []
      PATH_MAX "/a".toList Example.store_exact_sound.literal).2.1 (by decide),
    by decide⟩

/-! ## The parent of an included pattern (filterfs.c) -/

/-- What `append_rule(p, a)` of filterfs.c does to the lookup of the parent `d` of a literal
pattern `p`: the call returns, a rule the lookup found for `d` before is still the one it finds,
and if it found none it now finds one with action `a`. -/
theorem Filterfs.append_rule_dup_parent_lookup (env : Env) (st : Store) (p : CStr) (a : Int)
    (d : CStr) (halloc : st.Alloc)
    (hnul : NUL ∉ p) (hhead : p.head? ≠ some QUOTE) (hlast : p.getLast? ≠ some QUOTE)
    (hlit : has_wildcard p = false)
    (hd : (Filterfs.dirname (cleaned p)).2 = d)
    (husable : Filterfs.parent_usable d = true) (hdir : env.is_dir d = true)
    (hdq : d.getLast? ≠ some QUOTE) (hds : d.getLast? ≠ some '/') :
    ∃ st2, Filterfs.append_rule_dup env st p a = some st2 ∧
      (∀ r, Filterfs.getRule st d = some r → Filterfs.getRule st2 d = some r) ∧
      (Filterfs.getRule st d = none → ∃ r, Filterfs.getRule st2 d = some r ∧ r.exclude = a) := by
  have hq : is_quoted p = false := is_quoted_false p hhead hlast
  rw [cleaned_of_unquoted p hq] at hd
  have hp : p ≠ [] := by
    intro h0
    rw [h0] at hd
    rw [← hd] at husable
    exact absurd husable (by decide)
  have hc : cstrAt p 0 = p := cstrAt_self p hnul
  have hu : unquoted (cstrAt p 0) ≠ [] := by rw [hc]; exact unquoted_ne_nil p hp hhead
  obtain ⟨st1, h1⟩ := store_rule_dup_some st p a hu
  obtain ⟨rule, _, hg, hpat, _, hstr, _⟩ := store_rule_dup_spec st st1 p a h1
  rw [hc] at hstr hpat
  rw [cleaned_of_unquoted p hq] at hpat
  have halloc1 : st1.Alloc := hg.alloc halloc
  have husable2 : Filterfs.parent_usable (Filterfs.dirname (stripped p)).2 = true := by
    rw [hd]; exact husable
  obtain ⟨cut, hdirname, hcutlt⟩ := Filterfs.dirname_usable (stripped p) husable2
  have hd1 : (Filterfs.dirname (stripped p)).1 = d := by rw [← hd, hdirname]
  have hdtake : d = (stripped p).take cut := by rw [← hd, hdirname]
  have hdne : d ≠ [] := Filterfs.parent_usable_ne_nil d husable
  have hpre : d <+: p := by
    rw [hdtake]
    exact ( List.take_prefix _ _).trans (stripped_initial p)
  have hdstr : d ≠ stripped p := by
    intro heq
    have hl : (stripped p).getLast? ≠ some '/' := by rw [← heq]; exact hds
    have h5 := hcutlt hl
    have h6 : d.length = (stripped p).length := by rw [heq]
    rw [hdtake, List.length_take] at h6
    omega
  have hdlen : d.length < p.length := by
    have hle : d.length ≤ (stripped p).length := by
      rw [hdtake, List.length_take]; exact Nat.min_le_right _ _
    rcases stripped_cases p hp with h3 | ⟨h3, h4⟩
    · omega
    · have h5 := hcutlt (by rw [h3]; exact h4)
      rw [hdtake, List.length_take, h3]
      rw [h3] at h5
      omega
  have hdq2 : is_quoted d = false :=
    is_quoted_false d (by rw [head_of_initial p d hpre hdne]; exact hhead) hdq
  obtain ⟨st2, h2, _, hmono2, hins⟩ := Filterfs.append_rule_fuel_total env a p.length st1 d
    halloc1 (not_nul_of_initial p d hpre hnul) hdne
    (by rw [head_of_initial p d hpre hdne]; exact hhead) hdlen
  refine ⟨st2, ?_, ?_, ?_⟩
  · unfold Filterfs.append_rule_dup Filterfs.append_rule strdup
    simp only [Mem.str_dup_new st.mem p hnul]
    rw [Filterfs.append_rule_fuel_succ, h1, Option.some_bind, hstr, hd, husable, hdir, hd1]
    simpa using h2
  · intro r hr
    rw [Filterfs.getRule_eq] at hr ⊢
    exact hmono2 d r (hg.lookup_mono halloc d r hr)
  · intro hnone
    have hnone1 : Sparsefs.getRuleByHash st1 (stripped d) = none := by
      rw [stripped_of_plain d hdq2 hds]
      cases hf : Sparsefs.getRuleByHash st1 d with
      | none => rfl
      | some r =>
        exfalso
        have hr : r = rule := hg.lookup_new halloc d r hnone hf
        have hpr := (Sparsefs.getRuleByHash_some st1 d r hf).2
        rw [hr, hpat] at hpr
        exact hdstr hpr.symm
    obtain ⟨r, hr, hra⟩ := hins hdq2 (has_wildcard_of_initial p d hpre hlit) hnone1
    rw [stripped_of_plain d hdq2 hds] at hr
    exact ⟨r, hr, hra⟩

/-- When the lookup finds an include rule for a path, `exclude_chroot_path` of filterfs.c
returns 0 for it, as it does when one of its guards applies. -/
theorem Filterfs.exclude_chroot_path_found_include (env : Env) (g : Filterfs.Globals)
    (path : CStr) (r : Rule) (hr : Filterfs.getRule g.store path = some r)
    (hinc : r.exclude = 0) : Filterfs.exclude_chroot_path env g path = 0 := by
  unfold Filterfs.exclude_chroot_path
  split_ifs
  · rfl
  · rfl
  · rfl
  · rw [hr]
    exact hinc

/-- C11, as the code has it: let `p` be a literal pattern without a quotation mark at either end
and `d` the parent `dirname` yields for the cleaned `p`, where `d` is usable (not ".", not "/"),
a directory on disk, and ends in neither a quotation mark nor a slash.  From a store in which
the lookup of `d` finds no rule or an include rule, `append_rule(p, 0)` returns, and afterwards
`exclude_chroot_path(d)` is 0 (include). -/
theorem Filterfs.append_rule_include_parent_visible (env : Env) (srcdir : CStr)
    (default_exclude : Int) (st : Store) (p : CStr) (d : CStr)
    (halloc : st.Alloc) (hprior : ∀ r, Filterfs.getRule st d = some r → r.exclude = 0)
    (hnul : NUL ∉ p) (hhead : p.head? ≠ some QUOTE) (hlast : p.getLast? ≠ some QUOTE)
    (hlit : has_wildcard p = false)
    (hd : (Filterfs.dirname (cleaned p)).2 = d)
    (husable : Filterfs.parent_usable d = true) (hdir : env.is_dir d = true)
    (hdq : d.getLast? ≠ some QUOTE) (hds : d.getLast? ≠ some '/') :
    ∃ st2, Filterfs.append_rule_dup env st p 0 = some st2 ∧
      Filterfs.exclude_chroot_path env ⟨st2, srcdir, default_exclude⟩ d = 0 := by
  obtain ⟨st2, h2, hold, hnew⟩ := Filterfs.append_rule_dup_parent_lookup env st p 0 d halloc
    hnul hhead hlast hlit hd husable hdir hdq hds
  refine ⟨st2, h2, ?_⟩
  cases hf : Filterfs.getRule st d with
  | none =>
    obtain ⟨r, hr, hra⟩ := hnew hf
    exact Filterfs.exclude_chroot_path_found_include env ⟨st2, srcdir, default_exclude⟩ d r hr hra
  | some r =>
    exact Filterfs.exclude_chroot_path_found_include env ⟨st2, srcdir, default_exclude⟩ d r
      (hold r hf) (hprior r hf)

/-- Counterexample to C11 as stated: the prior store is the one `append_rule("/s/a/b", 1)`
leaves, with an exclude rule for "/s/a/b".  After `append_rule("/s/a/b/c", 0)`, with "/s/a/b" a
directory on disk, the lookup of "/s/a/b" still finds the exclude rule filed first, and
`exclude_chroot_path("/s/a/b")` returns 1 (exclude). -/
theorem Filterfs.append_rule_include_parent_visible_counterexample :
    (Filterfs.dirname "/s/a/b/c".toList).2 = "/s/a/b".toList ∧
    ((Filterfs.append_rule_dup Example.env_all Store.empty "/s/a/b".toList 1).bind
        (fun st => Filterfs.append_rule_dup Example.env_all st "/s/a/b/c".toList 0)).map
        (fun st => Filterfs.exclude_chroot_path Example.env_all ⟨st, "/s/".toList, 0⟩
          "/s/a/b".toList) = some 1 := by
  constructor <;> decide

theorem Example.store_prior_sound : Example.store_prior.Sound :=
  Sparsefs.ingest_sound _ _ _ Store.empty_sound (Option.some_get _).symm

/-- Witness of C11 as amended: the prior store has an exclude rule for "/s/x" and the exclude
wildcard "/s/a/*", which matches "/s/a/b", and the default is exclude; after
`append_rule("/s/a/b/c", 0)`, with "/s/a/b" a directory, "/s/a/b" is included. -/
theorem Filterfs.append_rule_include_parent_visible_witness :
    Filterfs.exclude_chroot_path Example.env_all ⟨Example.store_prior, "/s/".toList, 1⟩
        "/s/a/b".toList = 1 ∧
    ∃ st2, Filterfs.append_rule_dup Example.env_all Example.store_prior "/s/a/b/c".toList 0 =
        some st2 ∧
      Filterfs.exclude_chroot_path Example.env_all ⟨st2, "/s/".toList, 1⟩ "/s/a/b".toList = 0 :=
  ⟨by decide,
    Filterfs.append_rule_include_parent_visible Example.env_all "/s/".toList 1
      Example.store_prior "/s/a/b/c".toList "/s/a/b".toList Example.store_prior_sound.alloc
      (fun r h => by
        have h0 : Filterfs.getRule Example.store_prior "/s/a/b".toList = none := by decide
        rw [h0] at h
        exact absurd h (by simp))
      (by decide) (by decide) (by decide) (by decide) (by decide) (by decide) (by decide)
      (by decide) (by decide)⟩

/-! ## The listing of the mount root without rules -/

/-- When every path is included and the filler never reports a full buffer, the loop of
`ffs_readdir_helper` hands over, in order, the entries that no earlier source has. -/
theorem Sparsefs.readdir_loop_all (env : Env) (g : Sparsefs.Globals) (i : Nat)
    (realpath path : CStr) (filler : List FillArg → FillArg → Int)
    (hcl : ∀ x, Sparsefs.exclude_chroot_path env g x = 0) (hfill : ∀ b a, filler b a = 0)
    (es : List Dirent) (buf : List FillArg) :
    Sparsefs.readdir_loop env g i realpath path filler es buf =
      buf ++ (es.filter (fun de => !Sparsefs.skip_entry env g i path de.d_name)).map fill_arg := by
  induction es generalizing buf with
  | nil => simp [Sparsefs.readdir_loop]
  | cons de rest ih =>
    unfold Sparsefs.readdir_loop
    by_cases hs : Sparsefs.skip_entry env g i path de.d_name = true
    · rw [if_pos hs, ih]
      have hf : (de :: rest).filter (fun de => !Sparsefs.skip_entry env g i path de.d_name) =
          rest.filter (fun de => !Sparsefs.skip_entry env g i path de.d_name) :=
        List.filter_cons_of_neg (by simp [hs])
      rw [hf]
    · rw [if_neg hs]
      have hf : (de :: rest).filter (fun de => !Sparsefs.skip_entry env g i path de.d_name) =
          de :: rest.filter (fun de => !Sparsefs.skip_entry env g i path de.d_name) :=
        List.filter_cons_of_pos (by simpa using hs)
      simp only [hcl, ne_eq, not_true_eq_false, if_false, hfill]
      rw [ih, hf, List.map_cons, List.append_assoc]
      rfl

/-- The test on the earlier sources when the mount root is listed from the second of two
sources, without rules: does the root of the first source have the name? -/
theorem Sparsefs.skip_entry_second_root (env : Env) (s1 s2 : CStr) (name : CStr) :
    Sparsefs.skip_entry env ⟨Store.empty, [s1, s2], 0⟩ 1 ['/'] name =
      env.access (snprintf PATH_MAX (s1 ++ name)) := by
  unfold Sparsefs.skip_entry
  simp [Sparsefs.name_sep, Sparsefs.exclude_chroot_path_no_rules]

/-- The listing of the mount root over two sources without rules, default include, when the
filler never reports a full buffer and `access` finds in the first root just the names that
root lists: the entries of the first root, then those of the second whose name the first does
not have. -/
theorem Sparsefs.ffs_readdir_root_two (env : Env) (s1 s2 : CStr) (es1 es2 : List Dirent)
    (filler : List FillArg → FillArg → Int) (hfill : ∀ b a, filler b a = 0)
    (h1 : env.readdir s1 = .ok es1) (h2 : env.readdir s2 = .ok es2)
    (hprobe : ∀ de ∈ es2, (env.access (snprintf PATH_MAX (s1 ++ de.d_name)) = true ↔
      de.d_name ∈ es1.map (fun e => e.d_name))) :
    Sparsefs.ffs_readdir env ⟨Store.empty, [s1, s2], 0⟩ ['/'] [] filler =
      (0, es1.map fill_arg ++
        (es2.filter (fun de => decide (de.d_name ∉ es1.map (fun e => e.d_name)))).map
          fill_arg) := by
  have hcl := Sparsefs.exclude_chroot_path_no_rules env [s1, s2]
  have hskip0 : ∀ de : Dirent,
      (!Sparsefs.skip_entry env ⟨Store.empty, [s1, s2], 0⟩ 0 ['/'] de.d_name) = true := by
    intro de
    simp [Sparsefs.skip_entry]
  have hf1 : es1.filter
      (fun de => !Sparsefs.skip_entry env ⟨Store.empty, [s1, s2], 0⟩ 0 ['/'] de.d_name) =
      es1 := List.filter_eq_self.mpr (fun de _ => hskip0 de)
  have hf2 : es2.filter
      (fun de => !Sparsefs.skip_entry env ⟨Store.empty, [s1, s2], 0⟩ 1 ['/'] de.d_name) =
      es2.filter (fun de => decide (de.d_name ∉ es1.map (fun e => e.d_name))) := by
    apply List.filter_congr
    intro de hde
    rw [Sparsefs.skip_entry_second_root]
    have hp := hprobe de hde
    by_cases hm : de.d_name ∈ es1.map (fun e => e.d_name)
    · rw [hp.mpr hm]
      simp [hm]
    · have hacc : env.access (snprintf PATH_MAX (s1 ++ de.d_name)) = false := by
        cases hv : env.access (snprintf PATH_MAX (s1 ++ de.d_name)) with
        | false => rfl
        | true => exact absurd (hp.mp hv) hm
      rw [hacc]
      simp [hm]
  unfold Sparsefs.ffs_readdir
  simp only [if_true, Sparsefs.readdir_root, Sparsefs.ffs_readdir_helper, h1, h2, ne_eq,
    not_true_eq_false, if_false, zero_add]
  rw [Sparsefs.readdir_loop_all env _ 0 s1 ['/'] filler hcl hfill,
    Sparsefs.readdir_loop_all env _ 1 s2 ['/'] filler hcl hfill, hf1, hf2, List.nil_append]

/-- Two sources, no rules, default include, a filler that never reports a full buffer, and
a file system in which `access` finds in the first root just the names that root lists.  The
listing of the mount root "/" returns 0 and hands to the filler the entries of the first root
followed by those entries of the second whose name the first does not have: the names handed
over are those of the one root or the other, none twice when neither root lists a name twice,
and an entry whose name the first root has is the entry of the first root, with its inode. -/
theorem Sparsefs.ffs_readdir_root_union (env : Env) (s1 s2 : CStr) (es1 es2 : List Dirent)
    (filler : List FillArg → FillArg → Int) (hfill : ∀ b a, filler b a = 0)
    (h1 : env.readdir s1 = .ok es1) (h2 : env.readdir s2 = .ok es2)
    (hprobe : ∀ de ∈ es2, (env.access (snprintf PATH_MAX (s1 ++ de.d_name)) = true ↔
      de.d_name ∈ es1.map (fun e => e.d_name))) :
    Sparsefs.ffs_readdir env ⟨Store.empty, [s1, s2], 0⟩ ['/'] [] filler =
        (0, es1.map fill_arg ++
          (es2.filter (fun de => decide (de.d_name ∉ es1.map (fun e => e.d_name)))).map
            fill_arg) ∧
      (∀ n, n ∈ (Sparsefs.ffs_readdir env ⟨Store.empty, [s1, s2], 0⟩ ['/'] [] filler).2.map
          (fun e => e.name) ↔
        n ∈ es1.map (fun e => e.d_name) ∨ n ∈ es2.map (fun e => e.d_name)) ∧
      ((es1.map (fun e => e.d_name)).Nodup → (es2.map (fun e => e.d_name)).Nodup →
        ((Sparsefs.ffs_readdir env ⟨Store.empty, [s1, s2], 0⟩ ['/'] [] filler).2.map
          (fun e => e.name)).Nodup) ∧
      (∀ e ∈ (Sparsefs.ffs_readdir env ⟨Store.empty, [s1, s2], 0⟩ ['/'] [] filler).2,
        e.name ∈ es1.map (fun e => e.d_name) → e ∈ es1.map fill_arg) := by
  have heq := Sparsefs.ffs_readdir_root_two env s1 s2 es1 es2 filler hfill h1 h2 hprobe
  have hname : ∀ l : List Dirent, (l.map fill_arg).map (fun e => e.name) =
      l.map (fun e => e.d_name) := by
    intro l
    rw [List.map_map]
    rfl
  rw [heq]
  refine ⟨rfl, ?_, ?_, ?_⟩
  · intro n
    simp only [List.map_append, hname, List.mem_append]
    constructor
    · rintro (h | h)
      · exact Or.inl h
      · obtain ⟨de, hde, hn⟩ := List.mem_map.mp h
        exact Or.inr (List.mem_map.mpr ⟨de, (List.mem_filter.mp hde).1, hn⟩)
    · rintro (h | h)
      · exact Or.inl h
      · by_cases hm : n ∈ es1.map (fun e => e.d_name)
        · exact Or.inl hm
        · obtain ⟨de, hde, hn⟩ := List.mem_map.mp h
          refine Or.inr (List.mem_map.mpr ⟨de, List.mem_filter.mpr ⟨hde, ?_⟩, hn⟩)
          have hn2 : de.d_name = n := hn
          rw [hn2]
          exact decide_eq_true hm
  · intro hn1 hn2
    simp only [List.map_append, hname]
    refine List.Nodup.append hn1 ?_ ?_
    · exact hn2.sublist (( List.filter_sublist _).map _)
    · intro n hin1 hin2
      obtain ⟨de, hde, hn⟩ := List.mem_map.mp hin2
      have hnot := of_decide_eq_true (List.mem_filter.mp hde).2
      have hn3 : de.d_name = n := hn
      rw [hn3] at hnot
      exact hnot hin1
  · intro e he hin
    rcases List.mem_append.mp he with h | h
    · exact h
    · exfalso
      obtain ⟨de, hde, hn⟩ := List.mem_map.mp h
      have hnot := of_decide_eq_true (List.mem_filter.mp hde).2
      rw [← hn] at hin
      exact hnot hin

/-- An instance of `ffs_readdir_root_union`: the roots of "/s1/" and "/s2/" list "a", "b" and "b", "c"; the listing of
"/" hands over "a" and "b" with the inodes of the first source and "c" of the second. -/
theorem Sparsefs.ffs_readdir_root_union_instance :
    Sparsefs.ffs_readdir Example.env_union ⟨Store.empty, ["/s1/".toList, "/s2/".toList], 0⟩
        ['/'] [] (fun _ _ => 0) =
      (0, [⟨['a'], 11, 8 <<< 12⟩, ⟨['b'], 12, 8 <<< 12⟩, ⟨['c'], 22, 8 <<< 12⟩]) :=
  (Sparsefs.ffs_readdir_root_union Example.env_union "/s1/".toList "/s2/".toList
    [⟨['a'], 11, 8⟩, ⟨['b'], 12, 8⟩] [⟨['b'], 21, 8⟩, ⟨['c'], 22, 8⟩] (fun _ _ => 0)
    (fun _ _ => rfl) rfl rfl (by decide)).1

/-- C12 at a failing input: the root of "/s1/" holds a dangling symbolic link "n" (listed by
`readdir`, `access` fails on it), the root of "/s2/" a file "n"; no rules, default include, a
filler that never reports a full buffer.  Both roots list "n", yet the listing of "/" hands "n"
to the filler twice, the second time as the entry of the lower-priority source (inode 22). -/
theorem Sparsefs.ffs_readdir_root_union_dangling :
    (Example.env_dangling.readdir "/s1/".toList).map
        (fun es => es.map (fun e => e.d_name)) = .ok [['.'], ['.', '.'], ['n']] ∧
    (Example.env_dangling.readdir "/s2/".toList).map
        (fun es => es.map (fun e => e.d_name)) = .ok [['.'], ['.', '.'], ['n']] ∧
    (Sparsefs.ffs_readdir Example.env_dangling
        ⟨Store.empty, ["/s1/".toList, "/s2/".toList], 0⟩ ['/'] []
        (fun _ _ => 0)).2.map (fun e => e.name) = [['.'], ['.', '.'], ['n'], ['n']] ∧
    (⟨['n'], 22, 8 <<< 12⟩ : FillArg) ∈
      (Sparsefs.ffs_readdir Example.env_dangling
        ⟨Store.empty, ["/s1/".toList, "/s2/".toList], 0⟩ ['/'] [] (fun _ _ => 0)).2 := by
  refine ⟨rfl, rfl, ?_, ?_⟩ <;> decide

/-! ## The stored pattern when the quotation marks are balanced -/

/-- For a raw pattern with a quotation mark at both ends or at neither, and more than the one
quotation mark, the pattern `append_rule` stores is the one the specification expects. -/
theorem cleaned_balanced (raw : CStr)
    (hbal : raw.head? = some QUOTE ↔ raw.getLast? = some QUOTE) (hone : raw ≠ [QUOTE]) :
    cleaned raw = spec_stored_pattern raw := by
  by_cases hq : raw.head? = some QUOTE
  · have hl := hbal.mp hq
    cases raw with
    | nil => simp at hq
    | cons c t =>
      have hc : c = QUOTE := by simpa using hq
      subst hc
      have ht : t ≠ [] := fun h => hone (by rw [h])
      have hlt : t.getLast? = some QUOTE := by
        obtain ⟨m, ms, hms⟩ := List.exists_cons_of_ne_nil ht
        rw [hms, List.getLast?_cons_cons] at hl
        rw [hms]
        exact hl
      obtain ⟨mid, hmid⟩ : ∃ mid, t = mid ++ [QUOTE] := by
        refine ⟨t.dropLast, ?_⟩
        have h1 := List.dropLast_append_getLast ht
        rw [List.getLast?_eq_getLast t ht] at hlt
        rw [Option.some.inj hlt] at h1
        exact h1.symm
      subst hmid
      have hisq : is_quoted (QUOTE :: (mid ++ [QUOTE])) = true := by simp [is_quoted]
      have hunq : unquoted (QUOTE :: (mid ++ [QUOTE])) = QUOTE :: mid := by
        unfold unquoted
        rw [if_pos hisq]
        have h2 : QUOTE :: (mid ++ [QUOTE]) = (QUOTE :: mid) ++ [QUOTE] := rfl
        rw [h2, List.dropLast_concat]
      have hspec : spec_stored_pattern (QUOTE :: (mid ++ [QUOTE])) =
          if mid.getLast? = some '/' then mid.dropLast else mid := by
        simp [spec_stored_pattern]
      rw [hspec]
      unfold cleaned stripped rule_off
      rw [hunq, if_pos hisq]
      cases mid with
      | nil =>
        have h3 : ([QUOTE] : CStr).getLast? ≠ some '/' := by decide
        rw [if_neg h3]
        rfl
      | cons m ms =>
        have h4 : (QUOTE :: m :: ms).getLast? = (m :: ms).getLast? := List.getLast?_cons_cons
        rw [h4]
        by_cases h5 : (m :: ms).getLast? = some '/'
        · rw [if_pos h5, if_pos h5]
          rfl
        · rw [if_neg h5, if_neg h5]
          rfl
  · have hl : raw.getLast? ≠ some QUOTE := fun h => hq (hbal.mpr h)
    have hisq := is_quoted_false raw hq hl
    rw [cleaned_of_unquoted raw hisq]
    simp [stripped, unquoted, hisq, spec_stored_pattern, hq, hl]

/-! ## A full buffer in filterfs.c -/

/-- The loop of `ffs_readdir` in filterfs.c makes no filler call after one that returned
non-zero: every call but the last it makes returned 0. -/
theorem Filterfs.readdir_loop_stops (env : Env) (g : Filterfs.Globals) (xpath path : CStr)
    (filler : List FillArg → FillArg → Int) (es : List Dirent) (buf : List FillArg) :
    ∃ new, Filterfs.readdir_loop env g xpath path filler es buf = buf ++ new ∧
      ∀ pre a post, new = pre ++ a :: post → post ≠ [] → filler (buf ++ pre) a = 0 := by
  induction es generalizing buf with
  | nil =>
    refine ⟨[], by simp [Filterfs.readdir_loop], ?_⟩
    intro pre a post h
    exact absurd h (by simp)
  | cons de rest ih =>
    unfold Filterfs.readdir_loop
    by_cases hex : Filterfs.exclude_chroot_path env g
        (snprintf PATH_MAX (xpath ++ Filterfs.name_sep path ++ de.d_name)) ≠ 0
    · simp only [if_pos hex]
      exact ih buf
    · simp only [if_neg hex]
      by_cases hf : filler buf ⟨de.d_name, de.d_ino, de.d_type <<< 12⟩ ≠ 0
      · rw [if_pos hf]
        refine ⟨[⟨de.d_name, de.d_ino, de.d_type <<< 12⟩], rfl, ?_⟩
        intro pre a post h hpost
        exfalso
        have hlen := congrArg List.length h
        rw [List.length_singleton, List.length_append, List.length_cons] at hlen
        have hp : post.length ≠ 0 := fun h0 => hpost (List.length_eq_zero.mp h0)
        omega
      · rw [if_neg hf]
        obtain ⟨new, hnew, hall⟩ := ih (buf ++ [⟨de.d_name, de.d_ino, de.d_type <<< 12⟩])
        refine ⟨⟨de.d_name, de.d_ino, de.d_type <<< 12⟩ :: new, ?_, ?_⟩
        · rw [hnew, List.append_assoc]
          rfl
        · intro pre a post h hpost
          cases pre with
          | nil =>
            simp only [List.nil_append, List.cons.injEq] at h
            rw [List.append_nil, ← h.1]
            exact not_not.mp hf
          | cons p pre2 =>
            simp only [List.cons_append, List.cons.injEq] at h
            have h3 := hall pre2 a post h.2 hpost
            rw [List.append_assoc] at h3
            rw [← h.1]
            exact h3

/-! ## What a listed entry resolves to -/

/-- Every entry the loop of `ffs_readdir_helper` hands to the filler is an entry of the listed
directory that no earlier source has, existing and included, and that is included in the listed
source. -/
theorem Sparsefs.readdir_loop_emitted (env : Env) (g : Sparsefs.Globals) (i : Nat)
    (realpath path : CStr) (filler : List FillArg → FillArg → Int) (es : List Dirent)
    (buf : List FillArg) :
    ∃ new, Sparsefs.readdir_loop env g i realpath path filler es buf = buf ++ new ∧
      ∀ e ∈ new, ∃ de ∈ es, e = fill_arg de ∧
        Sparsefs.skip_entry env g i path de.d_name = false ∧
        Sparsefs.exclude_chroot_path env g
          (snprintf PATH_MAX (realpath ++ Sparsefs.name_sep path ++ de.d_name)) = 0 := by
  induction es generalizing buf with
  | nil => exact ⟨[], by simp [Sparsefs.readdir_loop], fun e he => absurd he (List.not_mem_nil _)⟩
  | cons de rest ih =>
    have hlift : ∀ new : List FillArg,
        (∀ e ∈ new, ∃ d ∈ rest, e = fill_arg d ∧
          Sparsefs.skip_entry env g i path d.d_name = false ∧
          Sparsefs.exclude_chroot_path env g
            (snprintf PATH_MAX (realpath ++ Sparsefs.name_sep path ++ d.d_name)) = 0) →
        ∀ e ∈ new, ∃ d ∈ de :: rest, e = fill_arg d ∧
          Sparsefs.skip_entry env g i path d.d_name = false ∧
          Sparsefs.exclude_chroot_path env g
            (snprintf PATH_MAX (realpath ++ Sparsefs.name_sep path ++ d.d_name)) = 0 := by
      intro new h e he
      obtain ⟨d, hd, h3⟩ := h e he
      exact ⟨d, List.mem_cons_of_mem _ hd, h3⟩
    unfold Sparsefs.readdir_loop
    by_cases hs : Sparsefs.skip_entry env g i path de.d_name = true
    · rw [if_pos hs]
      obtain ⟨new, hnew, hall⟩ := ih buf
      exact ⟨new, hnew, hlift new hall⟩
    · rw [if_neg hs]
      have hs2 : Sparsefs.skip_entry env g i path de.d_name = false := by
        cases hv : Sparsefs.skip_entry env g i path de.d_name with
        | false => rfl
        | true => exact absurd hv hs
      by_cases hex : Sparsefs.exclude_chroot_path env g
          (snprintf PATH_MAX (realpath ++ Sparsefs.name_sep path ++ de.d_name)) ≠ 0
      · simp only [if_pos hex]
        obtain ⟨new, hnew, hall⟩ := ih buf
        exact ⟨new, hnew, hlift new hall⟩
      · simp only [if_neg hex]
        have hme : ∃ d ∈ de :: rest, (⟨de.d_name, de.d_ino, de.d_type <<< 12⟩ : FillArg) =
            fill_arg d ∧ Sparsefs.skip_entry env g i path d.d_name = false ∧
            Sparsefs.exclude_chroot_path env g
              (snprintf PATH_MAX (realpath ++ Sparsefs.name_sep path ++ d.d_name)) = 0 :=
          ⟨de, List.mem_cons_self _ _, rfl, hs2, not_not.mp hex⟩
        by_cases hf : filler buf ⟨de.d_name, de.d_ino, de.d_type <<< 12⟩ ≠ 0
        · rw [if_pos hf]
          refine ⟨[⟨de.d_name, de.d_ino, de.d_type <<< 12⟩], rfl, ?_⟩
          intro e he
          rw [List.mem_singleton.mp he]
          exact hme
        · rw [if_neg hf]
          obtain ⟨new, hnew, hall⟩ := ih (buf ++ [⟨de.d_name, de.d_ino, de.d_type <<< 12⟩])
          refine ⟨⟨de.d_name, de.d_ino, de.d_type <<< 12⟩ :: new, ?_, ?_⟩
          · rw [hnew, List.append_assoc]
            rfl
          · intro e he
            rcases List.mem_cons.mp he with h1 | h1
            · rw [h1]
              exact hme
            · exact hlift new hall e h1

/-- An entry `name` of the virtual directory `path` that the listing takes from the source
`src`, when its real path also passes the `access` probe: `exclude_path` on the virtual path of
the entry returns 0 and selects the same source. -/
theorem Sparsefs.exclude_path_of_emitted (env : Env) (g : Sparsefs.Globals) (realpath : CStr)
    (path name : CStr) (before : List CStr) (src : CStr) (behind : List CStr)
    (hsrc : g.sources = before ++ src :: behind) (hpath : path ≠ [])
    (hskip : Sparsefs.skip_entry env g before.length path name = false)
    (hinc : Sparsefs.exclude_chroot_path env g
      (snprintf PATH_MAX (src ++ path.drop 1 ++ Sparsefs.name_sep path ++ name)) = 0)
    (hprobe : env.access
      (snprintf PATH_MAX (src ++ path.drop 1 ++ Sparsefs.name_sep path ++ name)) = true) :
    Sparsefs.exclude_path env g realpath PATH_MAX (path ++ Sparsefs.name_sep path ++ name) =
      (0, snprintf PATH_MAX (src ++ path.drop 1 ++ Sparsefs.name_sep path ++ name)) := by
  have hdrop : (path ++ Sparsefs.name_sep path ++ name).drop 1 =
      path.drop 1 ++ Sparsefs.name_sep path ++ name := by
    cases path with
    | nil => exact absurd rfl hpath
    | cons c t => simp
  have hcand : ∀ s : CStr, s ++ (path ++ Sparsefs.name_sep path ++ name).drop 1 =
      s ++ path.drop 1 ++ Sparsefs.name_sep path ++ name := by
    intro s
    rw [hdrop, List.append_assoc, List.append_assoc, List.append_assoc]
  have hnot : ¬ Sparsefs.Owned env g path (g.sources.take before.length) name := by
    intro h
    have h2 := (Sparsefs.skip_entry_iff env g before.length path name).mpr h
    rw [hskip] at h2
    exact absurd h2 (by decide)
  have htake : g.sources.take before.length = before := by
    rw [hsrc, List.take_left]
  rw [htake] at hnot
  unfold Sparsefs.exclude_path
  rw [hsrc]
  have h := Sparsefs.exclude_path_loop_stops env g PATH_MAX
    (path ++ Sparsefs.name_sep path ++ name) before src behind (1, realpath)
    (by rw [hcand]; exact hprobe) (by rw [hcand]; exact hinc)
    (by
      intro s hs hc
      rw [hcand] at hc
      exact hnot ⟨s, hs, hc.1, hc.2⟩)
  rw [h, hcand]

/-! ## Rule files -/

theorem Sparsefs.checkString_fold (s : CStr) (acc : Nat × Bool) :
    s.foldl (fun acc c => (acc.1 + 1, acc.2 && isspace c)) acc =
      (acc.1 + s.length, acc.2 && s.all isspace) := by
  induction s generalizing acc with
  | nil => simp
  | cons c s ih =>
    rw [List.foldl_cons, ih]
    simp only [List.length_cons, List.all_cons, Bool.and_assoc]
    congr 1
    omega

/-- Function `checkString` yields the length of the string and whether all of it is white
space. -/
theorem Sparsefs.checkString_eq (s : CStr) :
    Sparsefs.checkString s = (s.length, s.all isspace) := by
  unfold Sparsefs.checkString
  rw [Sparsefs.checkString_fold]
  simp

/-- A line that fits into the buffer is read whole, newline included. -/
theorem fgets_take_line (l rest : List Char) (hnl : '\n' ∉ l) :
    ∀ n, l.length < n → fgets_take n (l ++ '\n' :: rest) = l ++ ['\n'] := by
  induction l with
  | nil =>
    intro n hn
    obtain ⟨m, rfl⟩ : ∃ m, n = m + 1 := ⟨n - 1, by simp at hn; omega⟩
    simp [fgets_take]
  | cons c l ih =>
    intro n hn
    obtain ⟨m, rfl⟩ : ∃ m, n = m + 1 := ⟨n - 1, by simp at hn; omega⟩
    have hc : c ≠ '\n' := fun h => hnl (h ▸ List.mem_cons_self _ _)
    have hl : '\n' ∉ l := fun h => hnl (List.mem_cons_of_mem _ h)
    have h := ih hl m (by simp at hn; omega)
    simp only [List.cons_append, fgets_take, hc, if_false]
    exact congrArg (fun t => c :: t) h

/-- Without a newline `fgets` reads as many characters as there is room for. -/
theorem fgets_take_full (l rest : List Char) (hnl : '\n' ∉ l) :
    ∀ n, l.length = n → fgets_take n (l ++ rest) = l := by
  induction l with
  | nil =>
    intro n hn
    simp only [List.length_nil] at hn
    subst hn
    simp [fgets_take]
  | cons c l ih =>
    intro n hn
    obtain ⟨m, rfl⟩ : ∃ m, n = m + 1 := ⟨n - 1, by simp at hn; omega⟩
    have hc : c ≠ '\n' := fun h => hnl (h ▸ List.mem_cons_self _ _)
    have hl : '\n' ∉ l := fun h => hnl (List.mem_cons_of_mem _ h)
    have h := ih hl m (by simp at hn; omega)
    simp only [List.cons_append, fgets_take, hc, if_false]
    exact congrArg (fun t => c :: t) h

/-- A last line without a newline is read whole when it fits into the buffer. -/
theorem fgets_take_last (l : List Char) (hnl : '\n' ∉ l) :
    ∀ n, l.length ≤ n → fgets_take n l = l := by
  induction l with
  | nil =>
    intro n _
    cases n <;> simp [fgets_take]
  | cons c l ih =>
    intro n hn
    obtain ⟨m, rfl⟩ : ∃ m, n = m + 1 := ⟨n - 1, by simp at hn; omega⟩
    have hc : c ≠ '\n' := fun h => hnl (h ▸ List.mem_cons_self _ _)
    have hl : '\n' ∉ l := fun h => hnl (List.mem_cons_of_mem _ h)
    have h := ih hl m (by simp at hn; omega)
    simp only [fgets_take, hc, if_false]
    exact congrArg (fun t => c :: t) h

theorem fgets_line (l rest : List Char) (hnl : '\n' ∉ l) (hlen : l.length < PATH_MAX - 1) :
    fgets PATH_MAX (l ++ '\n' :: rest) = some (l ++ ['\n'], rest) := by
  unfold fgets
  have hne : l ++ '\n' :: rest ≠ [] := by simp
  rw [if_neg hne, fgets_take_line l rest hnl _ hlen]
  have h : l ++ '\n' :: rest = (l ++ ['\n']) ++ rest := by simp
  rw [h, List.drop_left]

theorem Sparsefs.parse_file_loop_succ (a : Int) (fuel : Nat) (file : List Char) (st : Store) :
    Sparsefs.parse_file_loop a (fuel + 1) file st =
      match fgets PATH_MAX file with
      | none => some st
      | some (chunk, rest) =>
        if ((cstrAt (chunk ++ [NUL]) 0).all isspace) = true then
          Sparsefs.parse_file_loop a fuel rest st
        else if (cstrAt (chunk ++ [NUL]) 0).head? = some '#' then
          Sparsefs.parse_file_loop a fuel rest st
        else
          (Sparsefs.append_rule_dup st
            (if (cstrAt (chunk ++ [NUL]) 0).get? ((cstrAt (chunk ++ [NUL]) 0).length - 1) =
                some '\n' then
              (cstrAt (chunk ++ [NUL]) 0).take ((cstrAt (chunk ++ [NUL]) 0).length - 1)
            else cstrAt (chunk ++ [NUL]) 0) a).bind (Sparsefs.parse_file_loop a fuel rest) := by
  rw [Sparsefs.parse_file_loop]
  cases hf : fgets PATH_MAX file with
  | none => rfl
  | some p =>
    obtain ⟨chunk, rest⟩ := p
    simp only [Sparsefs.checkString_eq]

/-- One round of the loop of `parse_file` on a line that fits into the buffer: a line that is
white space or begins with `#` is passed over, any other is handed to `append_rule` without its
newline. -/
theorem Sparsefs.parse_file_loop_line (a : Int) (fuel : Nat) (l rest : List Char) (st : Store)
    (hnul : NUL ∉ l) (hnl : '\n' ∉ l) (hlen : l.length < PATH_MAX - 1) :
    Sparsefs.parse_file_loop a (fuel + 1) (l ++ '\n' :: rest) st =
      if rule_line l then
        (Sparsefs.append_rule_dup st l a).bind (Sparsefs.parse_file_loop a fuel rest)
      else Sparsefs.parse_file_loop a fuel rest st := by
  have hnul2 : NUL ∉ l ++ ['\n'] := by
    intro h
    rcases List.mem_append.mp h with h1 | h1
    · exact hnul h1
    · exact absurd (List.mem_singleton.mp h1) (by decide)
  have hline : cstrAt ((l ++ ['\n']) ++ [NUL]) 0 = l ++ ['\n'] :=
    cstrAt_append _ _ hnul2 (Or.inl rfl)
  have hsp : isspace '\n' = true := by decide
  have hget : (l ++ ['\n']).get? ((l ++ ['\n']).length - 1) = some '\n' := by simp
  have htake : (l ++ ['\n']).take ((l ++ ['\n']).length - 1) = l := by simp
  have hall : (l ++ ['\n']).all isspace = l.all isspace := by
    rw [List.all_append]
    simp [hsp]
  rw [Sparsefs.parse_file_loop_succ, fgets_line l rest hnl hlen]
  simp only [hline, hget, htake, hall, if_true]
  unfold rule_line
  by_cases hsp2 : l.all isspace = true
  · simp [hsp2]
  · have hall2 : l.all isspace = false := by simpa using hsp2
    cases l with
    | nil => simp at hall2
    | cons c t =>
      by_cases hc : c = '#'
      · simp [hall2, hc]
      · simp [hall2, hc]

/-- A line of exactly as many characters as the buffer has room for is read without its
newline. -/
theorem fgets_line_full (l rest : List Char) (hnl : '\n' ∉ l) (hlen : l.length = PATH_MAX - 1) :
    fgets PATH_MAX (l ++ '\n' :: rest) = some (l, '\n' :: rest) := by
  unfold fgets
  have hne : l ++ '\n' :: rest ≠ [] := by simp
  rw [if_neg hne, fgets_take_full l _ hnl _ hlen, List.drop_left]

/-- Two rounds of the loop of `parse_file` on a line that fills the buffer: the first round
gets the line without its newline, the second the newline alone, which is passed over as white
space. -/
theorem Sparsefs.parse_file_loop_line_full (a : Int) (fuel : Nat) (l rest : List Char)
    (st : Store) (hnul : NUL ∉ l) (hnl : '\n' ∉ l) (hlen : l.length = PATH_MAX - 1) :
    Sparsefs.parse_file_loop a (fuel + 1 + 1) (l ++ '\n' :: rest) st =
      if rule_line l then
        (Sparsefs.append_rule_dup st l a).bind (Sparsefs.parse_file_loop a fuel rest)
      else Sparsefs.parse_file_loop a fuel rest st := by
  have hline : cstrAt (l ++ [NUL]) 0 = l := cstrAt_append _ _ hnul (Or.inl rfl)
  have hget : l.get? (l.length - 1) ≠ some '\n' := fun h => hnl (List.get?_mem h)
  have hnext : ∀ s : Store, Sparsefs.parse_file_loop a (fuel + 1) ('\n' :: rest) s =
      Sparsefs.parse_file_loop a fuel rest s := by
    intro s
    have h := Sparsefs.parse_file_loop_line a fuel [] rest s (by simp) (by simp) (by decide)
    have hr : rule_line [] = false := by decide
    rw [hr] at h
    simpa using h
  have hbind : ∀ o : Option Store,
      o.bind (Sparsefs.parse_file_loop a (fuel + 1) ('\n' :: rest)) =
        o.bind (Sparsefs.parse_file_loop a fuel rest) := by
    intro o
    cases o with
    | none => rfl
    | some s => exact hnext s
  rw [Sparsefs.parse_file_loop_succ, fgets_line_full l rest hnl hlen]
  simp only [hline, if_neg hget, hnext, hbind]
  unfold rule_line
  by_cases hsp : l.all isspace = true
  · simp [hsp]
  · have hall : l.all isspace = false := by simpa using hsp
    by_cases hh : l.head? = some '#'
    · simp [hall, hh]
    · simp [hall, hh]

theorem Sparsefs.parse_file_loop_eof (a : Int) (fuel : Nat) (st : Store) :
    Sparsefs.parse_file_loop a (fuel + 1) [] st = some st := by
  rw [Sparsefs.parse_file_loop_succ]
  rfl

/-- The last round of the loop of `parse_file`, on what follows the last newline of the
file. -/
theorem Sparsefs.parse_file_loop_last (a : Int) (fuel : Nat) (l : List Char) (st : Store)
    (hnul : NUL ∉ l) (hnl : '\n' ∉ l) (hlen : l.length ≤ PATH_MAX - 1)
    (hfuel : l.length < fuel) :
    Sparsefs.parse_file_loop a fuel l st =
      Sparsefs.ingest st (([l].filter rule_line).map (fun p => (p, a))) := by
  by_cases hl : l = []
  · subst hl
    obtain ⟨f, rfl⟩ : ∃ f, fuel = f + 1 := ⟨fuel - 1, by simp at hfuel; omega⟩
    rw [Sparsefs.parse_file_loop_eof]
    rfl
  · have hpos : 0 < l.length := List.length_pos.mpr hl
    obtain ⟨f, rfl⟩ : ∃ f, fuel = f + 1 + 1 := ⟨fuel - 2, by omega⟩
    have hfg : fgets PATH_MAX l = some (l, []) := by
      unfold fgets
      rw [if_neg hl, fgets_take_last l hnl _ hlen]
      simp
    have hline : cstrAt (l ++ [NUL]) 0 = l := cstrAt_append _ _ hnul (Or.inl rfl)
    have hget : l.get? (l.length - 1) ≠ some '\n' := by
      intro h
      exact hnl (List.get?_mem h)
    have hbind : ∀ o : Option Store, o.bind (Sparsefs.parse_file_loop a (f + 1) []) = o := by
      intro o
      cases o with
      | none => rfl
      | some s => exact Sparsefs.parse_file_loop_eof a f s
    rw [Sparsefs.parse_file_loop_succ, hfg]
    simp only [hline, if_neg hget, Sparsefs.parse_file_loop_eof, hbind]
    by_cases hr : rule_line l = true
    · have hsp : ¬ (l.all isspace = true) := by
        intro h
        simp [rule_line, h] at hr
      have hh : ¬ (l.head? = some '#') := by
        intro h
        simp [rule_line, h] at hr
      have hf : [l].filter rule_line = [l] := by simp [hr]
      rw [if_neg hsp, if_neg hh, hf]
      simp only [List.map_cons, List.map_nil, Sparsefs.ingest]
    · have hf : [l].filter rule_line = [] := by simp [hr]
      rw [hf]
      simp only [List.map_nil, Sparsefs.ingest]
      by_cases hsp : l.all isspace = true
      · rw [if_pos hsp]
      · rw [if_neg hsp]
        have hh : l.head? = some '#' := by
          have hsp2 : l.all isspace = false := by simpa using hsp
          simp only [rule_line, hsp2, Bool.not_false, Bool.true_and, decide_eq_true_eq,
            not_not] at hr
          exact hr
        rw [if_pos hh]

/-- The loop of `parse_file` on a file of lines that fit into the buffer, with enough fuel:
the rule lines are handed to `append_rule` in file order. -/
theorem Sparsefs.parse_file_loop_lines (a : Int) (tail : CStr)
    (htail : NUL ∉ tail ∧ '\n' ∉ tail ∧ tail.length ≤ PATH_MAX - 1) :
    ∀ (lines : List CStr) (st : Store) (fuel : Nat),
      (∀ l ∈ lines, NUL ∉ l ∧ '\n' ∉ l ∧ l.length ≤ PATH_MAX - 1) →
      (file_of_lines lines ++ tail).length < fuel →
      Sparsefs.parse_file_loop a fuel (file_of_lines lines ++ tail) st =
        Sparsefs.ingest st (((lines ++ [tail]).filter rule_line).map (fun p => (p, a))) := by
  intro lines
  induction lines with
  | nil =>
    intro st fuel _ hfuel
    simp only [file_of_lines, List.map_nil, List.flatten_nil, List.nil_append] at hfuel ⊢
    exact Sparsefs.parse_file_loop_last a fuel tail st htail.1 htail.2.1 htail.2.2 hfuel
  | cons l lines ih =>
    intro st fuel hgood hfuel
    have hl := hgood l (List.mem_cons_self _ _)
    have hrest : ∀ t ∈ lines, NUL ∉ t ∧ '\n' ∉ t ∧ t.length ≤ PATH_MAX - 1 :=
      fun t ht => hgood t (List.mem_cons_of_mem _ ht)
    have hfile : file_of_lines (l :: lines) ++ tail =
        l ++ '\n' :: (file_of_lines lines ++ tail) := by
      simp [file_of_lines]
    rw [hfile] at hfuel ⊢
    have hstep : ∃ f, (file_of_lines lines ++ tail).length < f ∧
        Sparsefs.parse_file_loop a fuel (l ++ '\n' :: (file_of_lines lines ++ tail)) st =
          if rule_line l then
            (Sparsefs.append_rule_dup st l a).bind
              (Sparsefs.parse_file_loop a f (file_of_lines lines ++ tail))
          else Sparsefs.parse_file_loop a f (file_of_lines lines ++ tail) st := by
      rcases Nat.lt_or_eq_of_le hl.2.2 with hlt | heq
      · obtain ⟨f, rfl⟩ : ∃ f, fuel = f + 1 := ⟨fuel - 1, by simp at hfuel; omega⟩
        refine ⟨f, ?_, Sparsefs.parse_file_loop_line a f l _ st hl.1 hl.2.1 hlt⟩
        simp only [List.length_append, List.length_cons] at hfuel ⊢
        omega
      · have hpos : 0 < l.length := by rw [heq]; decide
        obtain ⟨f, rfl⟩ : ∃ f, fuel = f + 1 + 1 := ⟨fuel - 2, by
          simp only [List.length_append, List.length_cons] at hfuel
          omega⟩
        refine ⟨f, ?_, Sparsefs.parse_file_loop_line_full a f l _ st hl.1 hl.2.1 heq⟩
        simp only [List.length_append, List.length_cons] at hfuel ⊢
        omega
    obtain ⟨f, hf2, hround⟩ := hstep
    rw [hround]
    by_cases hr : rule_line l = true
    · have hfil : ((l :: lines) ++ [tail]).filter rule_line =
          l :: (lines ++ [tail]).filter rule_line := by
        rw [List.cons_append]
        exact List.filter_cons_of_pos hr
      rw [if_pos hr, hfil, List.map_cons, Sparsefs.ingest]
      congr 1
      funext st1
      exact ih st1 f hrest hf2
    · have hfil : ((l :: lines) ++ [tail]).filter rule_line =
          (lines ++ [tail]).filter rule_line := by
        rw [List.cons_append]
        exact List.filter_cons_of_neg hr
      rw [if_neg hr, hfil]
      exact ih st f hrest hf2

/-- C23, as the code has it: for a rule file whose lines are `lines`, each ended by a newline,
followed by `tail` (what comes after the last newline, possibly nothing), all free of NUL and
of at most `PATH_MAX - 1` characters, `parse_file` hands to `append_rule`, in file order and
with the given action, exactly the lines that hold something other than white space and do not
begin with `#`, each without its newline; and when the file cannot be opened the rule store is
left as it was. -/
theorem Sparsefs.parse_file_lines (lines : List CStr) (tail : CStr) (st : Store) (a : Int)
    (hgood : ∀ l ∈ lines ++ [tail], NUL ∉ l ∧ '\n' ∉ l ∧ l.length ≤ PATH_MAX - 1) :
    Sparsefs.parse_file (some (file_of_lines lines ++ tail)) st a =
        Sparsefs.ingest st (((lines ++ [tail]).filter rule_line).map (fun p => (p, a))) ∧
      Sparsefs.parse_file none st a = some st := by
  refine ⟨?_, rfl⟩
  unfold Sparsefs.parse_file
  exact Sparsefs.parse_file_loop_lines a tail
    (hgood tail (List.mem_append_right _ (List.mem_singleton_self _))) lines st _
    (fun l hl => hgood l (List.mem_append_left _ hl)) (Nat.lt_succ_self _)

/-- Witness of C23 as amended: a file with a comment, an empty line, a line of blanks, two
patterns and a last pattern without a newline. -/
theorem Sparsefs.parse_file_lines_witness :
    Sparsefs.parse_file (some "# rules\n\n  \n/s/a/\n*.tmp\n/s/b".toList) Store.empty 1 =
      Sparsefs.ingest Store.empty
        [("/s/a/".toList, 1), ("*.tmp".toList, 1), ("/s/b".toList, 1)] :=
  (Sparsefs.parse_file_lines
    ["# rules".toList, [], "  ".toList, "/s/a/".toList, "*.tmp".toList] "/s/b".toList
    Store.empty 1 (by decide)).1

/-- Counterexample to C23 as stated: a file of one line, 4095 blanks followed by "abc", which
holds more than white space and does not begin with `#`.  The line does not fit into the buffer
of `PATH_MAX` characters: `fgets` delivers the 4095 blanks, which are passed over as white space,
and then "abc", so the pattern handed to `append_rule` is "abc" and not the line. -/
theorem Sparsefs.parse_file_lines_counterexample :
    rule_line (List.replicate 4095 ' ' ++ "abc".toList) = true ∧
    Sparsefs.parse_file (some (List.replicate 4095 ' ' ++ "abc".toList ++ ['\n'])) Store.empty
        1 = Sparsefs.ingest Store.empty [("abc".toList, 1)] := by
  have hsp : isspace ' ' = true := by decide
  have hall : (List.replicate 4095 ' ').all isspace = true := by
    rw [List.all_eq_true]
    intro c hc
    rw [List.eq_of_mem_replicate hc]
    exact hsp
  constructor
  · have h1 : (List.replicate 4095 ' ' ++ "abc".toList).all isspace = false := by
      rw [List.all_append, hall]
      decide
    have h2 : (List.replicate 4095 ' ' ++ "abc".toList).head? = some ' ' := by
      have h3 : List.replicate 4095 ' ' = ' ' :: List.replicate 4094 ' ' := rfl
      rw [h3]
      rfl
    unfold rule_line
    rw [h1, h2]
    decide
  · have hnl : '\n' ∉ List.replicate 4095 ' ' := by
      intro h
      exact absurd (List.eq_of_mem_replicate h) (by decide)
    have hnul : NUL ∉ List.replicate 4095 ' ' := by
      intro h
      exact absurd (List.eq_of_mem_replicate h) (by decide)
    have hlen : (List.replicate 4095 ' ').length = PATH_MAX - 1 := by
      rw [List.length_replicate]
      rfl
    have hfg : fgets PATH_MAX (List.replicate 4095 ' ' ++ ("abc".toList ++ ['\n'])) =
        some (List.replicate 4095 ' ', "abc".toList ++ ['\n']) := by
      unfold fgets
      have hne : List.replicate 4095 ' ' ++ ("abc".toList ++ ['\n']) ≠ [] := by
        intro h
        have h4 := congrArg List.length h
        rw [List.length_append, List.length_replicate] at h4
        simp at h4
      rw [if_neg hne, fgets_take_full _ _ hnl _ hlen, List.drop_left]
    have hline : cstrAt (List.replicate 4095 ' ' ++ [NUL]) 0 = List.replicate 4095 ' ' :=
      cstrAt_append _ _ hnul (Or.inl rfl)
    have hfuel : (List.replicate 4095 ' ' ++ ("abc".toList ++ ['\n'])).length + 1 =
        4099 + 1 := by
      rw [List.length_append, List.length_replicate]
      rfl
    unfold Sparsefs.parse_file
    rw [List.append_assoc]
    simp only [hfuel]
    rw [Sparsefs.parse_file_loop_succ, hfg]
    simp only [hline, hall, if_true]
    exact Sparsefs.parse_file_loop_lines 1 [] (by decide) ["abc".toList] Store.empty 4099
      (by decide) (by decide)

/-! ## Where `append_rule` files a rule -/

/-- Unless the pattern has a quotation mark at its end only, the stored pattern has a wildcard
just when the string `append_rule` tests has one. -/
theorem has_wildcard_cleaned (raw : CStr)
    (h : is_quoted raw = false ∨ raw.head? = some QUOTE) :
    has_wildcard (cleaned raw) = has_wildcard (stripped raw) := by
  rcases h with h | h
  · rw [cleaned_of_unquoted raw h]
  · have hq : is_quoted raw = true := by simp [is_quoted, h]
    unfold cleaned rule_off
    rw [if_pos hq]
    by_cases hs : stripped raw = []
    · rw [hs]
      rfl
    · have hh : (stripped raw).head? = some QUOTE := by
        rw [head_of_initial raw (stripped raw) (stripped_initial raw) hs]
        exact h
      cases hst : stripped raw with
      | nil => exact absurd hst hs
      | cons c t =>
        rw [hst] at hh
        have hc : c = QUOTE := by simpa using hh
        subst hc
        simp only [List.drop_succ_cons, List.drop_zero, has_wildcard, List.any_cons]
        have hq1 : (decide (QUOTE = '*') || decide (QUOTE = '?')) = false := by decide
        rw [hq1, Bool.false_or]

/-- C22 at a failing input: the raw pattern `*a"`, with a quotation mark at its end only.
`append_rule` looks for wildcards in the string from its first character, `*a`, and appends the
rule to the wildcard chain, but the pattern it stores begins one character later: the chain holds
a rule with the stored pattern "a", which has neither `*` nor `?`, and the exact-match index
holds no rule for "a". -/
theorem Sparsefs.append_rule_literal_in_chain :
    (Sparsefs.append_rule_dup Store.empty ['*', 'a', QUOTE] 1).map
        (fun st => st.chain.map (fun r => (st.pat r, has_wildcard (st.pat r)))) =
      some [("a".toList, false)] ∧
    (Sparsefs.append_rule_dup Store.empty ['*', 'a', QUOTE] 1).map
        (fun st => Sparsefs.getRuleByHash st "a".toList) = some none := by
  constructor <;> decide

/-! ## The patterns of the stored rules -/

/-- After a sequence of `append_rule` calls, each on a string of its own, a property that the
patterns of the rules had before and that the cleaned pattern of every call has is a property of
every stored pattern. -/
theorem Sparsefs.ingest_patterns (P : CStr → Prop) (calls : List (CStr × Int)) :
    ∀ (st st2 : Store), st.Alloc → Sparsefs.ingest st calls = some st2 →
      (∀ i, ∀ r ∈ st.ht i, P (st.pat r)) → (∀ r ∈ st.chain, P (st.pat r)) →
      (∀ c ∈ calls, P (cleaned (cstrAt c.1 0))) →
      (∀ i, ∀ r ∈ st2.ht i, P (st2.pat r)) ∧ (∀ r ∈ st2.chain, P (st2.pat r)) := by
  induction calls with
  | nil =>
    intro st st2 _ h hht hchain _
    simp only [Sparsefs.ingest, Option.some.injEq] at h
    subst h
    exact ⟨hht, hchain⟩
  | cons c rest ih =>
    intro st st2 ha h hht hchain hnew
    obtain ⟨st1, h1, h2⟩ := Sparsefs.ingest_cons st st2 c rest h
    obtain ⟨rule, _, hg, hpat, _⟩ := Sparsefs.append_rule_dup_spec st st1 c.1 c.2 h1
    have hrule : P (st1.pat rule) := by
      rw [hpat]
      exact hnew c (List.mem_cons_self _ _)
    refine ih st1 st2 (hg.alloc ha) h2 ?_ ?_ (fun d hd => hnew d (List.mem_cons_of_mem _ hd))
    · intro i r hr
      rcases hg.ht_cases i with h3 | ⟨h3, _⟩
      · rw [h3] at hr
        rw [hg.pat_old r (ha.ht_alloc i r hr)]
        exact hht i r hr
      · rw [h3] at hr
        rcases List.mem_append.mp hr with h4 | h4
        · rw [hg.pat_old r (ha.ht_alloc i r h4)]
          exact hht i r h4
        · rw [List.mem_singleton.mp h4]
          exact hrule
    · intro r hr
      rcases hg.chain_cases with h3 | h3
      · rw [h3] at hr
        rw [hg.pat_old r (ha.chain_alloc r hr)]
        exact hchain r hr
      · rw [h3] at hr
        rcases List.mem_append.mp hr with h4 | h4
        · rw [hg.pat_old r (ha.chain_alloc r h4)]
          exact hchain r h4
        · rw [List.mem_singleton.mp h4]
          exact hrule

/-- A sequence of `append_rule` calls returns when no call is on the empty string or on the
string that is one quotation mark. -/
theorem Sparsefs.ingest_some (calls : List (CStr × Int)) :
    ∀ st : Store, (∀ c ∈ calls, unquoted (cstrAt c.1 0) ≠ []) →
      ∃ st2, Sparsefs.ingest st calls = some st2 := by
  induction calls with
  | nil => intro st _; exact ⟨st, rfl⟩
  | cons c rest ih =>
    intro st h
    obtain ⟨st1, h1⟩ := store_rule_dup_some st c.1 c.2 (h c (List.mem_cons_self _ _))
    obtain ⟨st2, h2⟩ := ih st1 (fun d hd => h d (List.mem_cons_of_mem _ hd))
    refine ⟨st2, ?_⟩
    obtain ⟨p, e⟩ := c
    have h3 : Sparsefs.append_rule_dup st p e = some st1 := h1
    simp only [Sparsefs.ingest, h3, Option.some_bind]
    exact h2

/-- Something is left of a pattern once it is unquoted unless it is empty or one quotation
mark. -/
theorem unquoted_ne_nil_of_ne (s : CStr) (hs : s ≠ []) (hq : s ≠ [QUOTE]) :
    unquoted s ≠ [] := by
  unfold unquoted
  by_cases hisq : is_quoted s = true
  · rw [if_pos hisq]
    cases s with
    | nil => exact absurd rfl hs
    | cons c t =>
      cases t with
      | nil =>
        exfalso
        apply hq
        simp only [is_quoted, List.head?_cons, List.getLast?_singleton, Option.some.injEq,
          Bool.or_self, decide_eq_true_eq] at hisq
        rw [hisq]
      | cons d t => simp
  · rw [if_neg hisq]
    exact hs

theorem getLast?_cons_ne_nil (c : Char) (m : CStr) (hm : m ≠ []) :
    (c :: m).getLast? = m.getLast? := by
  obtain ⟨d, t, rfl⟩ := List.exists_cons_of_ne_nil hm
  exact List.getLast?_cons_cons

/-- The stored pattern is the body of the raw pattern without one trailing slash. -/
theorem cleaned_quote_body (raw : CStr) (hq : raw ≠ [QUOTE]) :
    cleaned raw =
      if (quote_body raw).getLast? = some '/' then (quote_body raw).dropLast
      else quote_body raw := by
  by_cases hisq : is_quoted raw = true
  · cases raw with
    | nil => simp [is_quoted] at hisq
    | cons c0 t =>
      by_cases ht : t = []
      · subst ht
        exfalso
        apply hq
        simp only [is_quoted, List.head?_cons, List.getLast?_singleton, Option.some.injEq,
          Bool.or_self, decide_eq_true_eq] at hisq
        rw [hisq]
      · obtain ⟨m, cl, rfl⟩ : ∃ m cl, t = m ++ [cl] :=
          ⟨t.dropLast, t.getLast ht, (List.dropLast_append_getLast ht).symm⟩
        have hu : unquoted (c0 :: (m ++ [cl])) = c0 :: m := by
          unfold unquoted
          rw [if_pos hisq]
          have h2 : c0 :: (m ++ [cl]) = (c0 :: m) ++ [cl] := rfl
          rw [h2, List.dropLast_concat]
        have hb : quote_body (c0 :: (m ++ [cl])) = m := by
          unfold quote_body
          rw [if_pos hisq]
          simp
        unfold cleaned stripped rule_off
        rw [if_pos hisq, hu, hb]
        by_cases hm : m = []
        · subst hm
          by_cases hc : c0 = '/'
          · subst hc
            simp
          · simp [hc]
        · rw [getLast?_cons_ne_nil c0 m hm]
          obtain ⟨d, t2, rfl⟩ := List.exists_cons_of_ne_nil hm
          by_cases hl : (d :: t2).getLast? = some '/'
          · rw [if_pos hl, if_pos hl]
            simp [List.dropLast]
          · rw [if_neg hl, if_neg hl]
            simp
  · have hisq2 : is_quoted raw = false := by simpa using hisq
    rw [cleaned_of_unquoted raw hisq2]
    unfold stripped unquoted quote_body
    simp only [hisq2, Bool.false_eq_true, if_false]

/-- What is left of a body once one trailing slash is taken off is clean just when the body
neither begins nor ends with a quotation mark nor ends in a slash that follows a slash or a
quotation mark. -/
theorem clean_pattern_body (b : CStr) :
    clean_pattern (if b.getLast? = some '/' then b.dropLast else b) = clean_body b := by
  by_cases hl : b.getLast? = some '/'
  · rw [if_pos hl]
    obtain ⟨y, rfl⟩ := List.getLast?_eq_some_iff.mp hl
    rw [List.dropLast_concat]
    have h1 : (['/', '/'] <:+ y ++ ['/']) ↔ y.getLast? = some '/' := by
      constructor
      · rintro ⟨z, hz⟩
        have h2 : (z ++ ['/']) ++ ['/'] = y ++ ['/'] := by simpa using hz
        have h3 := List.append_inj_left' h2 rfl
        rw [← h3]
        simp
      · intro h
        obtain ⟨z, rfl⟩ := List.getLast?_eq_some_iff.mp h
        exact ⟨z, by simp⟩
    have h2 : ([QUOTE, '/'] <:+ y ++ ['/']) ↔ y.getLast? = some QUOTE := by
      constructor
      · rintro ⟨z, hz⟩
        have h2 : (z ++ [QUOTE]) ++ ['/'] = y ++ ['/'] := by simpa using hz
        have h3 := List.append_inj_left' h2 rfl
        rw [← h3]
        simp
      · intro h
        obtain ⟨z, rfl⟩ := List.getLast?_eq_some_iff.mp h
        exact ⟨z, by simp⟩
    have h3 : (y ++ ['/']).head? ≠ some QUOTE ↔ y.head? ≠ some QUOTE := by
      cases y with
      | nil => simp; decide
      | cons c t => simp
    have h4 : (y ++ ['/']).getLast? ≠ some QUOTE := by
      rw [hl]
      decide
    unfold clean_pattern clean_body
    simp only [h1, h2, h3, h4, ne_eq, not_false_eq_true, decide_True, Bool.and_true,
      decide_not, Bool.and_assoc]
    cases decide (y.getLast? = some '/') <;> cases decide (y.head? = some QUOTE) <;>
      cases decide (y.getLast? = some QUOTE) <;> rfl
  · rw [if_neg hl]
    have h1 : ¬ (['/', '/'] <:+ b) := by
      rintro ⟨z, hz⟩
      apply hl
      rw [← hz]
      simp
    have h2 : ¬ ([QUOTE, '/'] <:+ b) := by
      rintro ⟨z, hz⟩
      apply hl
      rw [← hz]
      simp
    unfold clean_pattern clean_body
    simp only [hl, h1, h2, ne_eq, not_false_eq_true, decide_True, Bool.true_and, decide_False,
      Bool.not_false, Bool.and_true]

/-- Later calls leave the rules of the table and of the chain where they are. -/
theorem Sparsefs.ingest_keeps (calls : List (CStr × Int)) :
    ∀ (st st2 : Store), Sparsefs.ingest st calls = some st2 →
      (∀ i, ∀ r ∈ st.ht i, r ∈ st2.ht i) ∧ (∀ r ∈ st.chain, r ∈ st2.chain) := by
  induction calls with
  | nil =>
    intro st st2 h
    simp only [Sparsefs.ingest, Option.some.injEq] at h
    subst h
    exact ⟨fun _ _ h => h, fun _ h => h⟩
  | cons c rest ih =>
    intro st st2 h
    obtain ⟨st1, h1, h2⟩ := Sparsefs.ingest_cons st st2 c rest h
    obtain ⟨rule, _, hg⟩ := Sparsefs.append_rule_dup_grows st st1 c.1 c.2 h1
    obtain ⟨iht, ihc⟩ := ih st1 st2 h2
    constructor
    · intro i r hr
      apply iht i r
      rcases hg.ht_cases i with h3 | ⟨h3, _⟩
      · rw [h3]; exact hr
      · rw [h3]; exact List.mem_append_left _ hr
    · intro r hr
      apply ihc r
      rcases hg.chain_cases with h3 | h3
      · rw [h3]; exact hr
      · rw [h3]; exact List.mem_append_left _ hr

/-- After a sequence of `append_rule` calls, each on a string of its own, the cleaned pattern of
every call is the pattern of a rule in the table or in the chain. -/
theorem Sparsefs.ingest_stored (calls : List (CStr × Int)) :
    ∀ (st st2 : Store), st.Alloc → Sparsefs.ingest st calls = some st2 →
      ∀ c ∈ calls, ∃ r, ((∃ i, r ∈ st2.ht i) ∨ r ∈ st2.chain) ∧
        st2.pat r = cleaned (cstrAt c.1 0) := by
  induction calls with
  | nil => intro st st2 _ _ c hc; exact absurd hc (List.not_mem_nil _)
  | cons d rest ih =>
    intro st st2 ha h c hc
    obtain ⟨st1, h1, h2⟩ := Sparsefs.ingest_cons st st2 d rest h
    obtain ⟨rule, _, hg, hpat, _, _, hroute⟩ := Sparsefs.append_rule_dup_spec st st1 d.1 d.2 h1
    rcases List.mem_cons.mp hc with hcd | hcr
    · subst hcd
      obtain ⟨kt, kc⟩ := Sparsefs.ingest_keeps rest st1 st2 h2
      have ha1 := hg.alloc ha
      have hin : (∃ i, rule ∈ st1.ht i) ∨ rule ∈ st1.chain := by
        rcases hroute with ⟨_, hch⟩ | ⟨_, _, hht⟩
        · right; rw [hch]; simp
        · left; exact ⟨_, by rw [hht]; simp⟩
      have hbuf : rule.pattern.buf < st1.mem.length := by
        rcases hin with ⟨i, hi⟩ | hi
        · exact ha1.ht_alloc i rule hi
        · exact ha1.chain_alloc rule hi
      refine ⟨rule, ?_, ?_⟩
      · rcases hin with ⟨i, hi⟩ | hi
        · exact Or.inl ⟨i, kt i rule hi⟩
        · exact Or.inr (kc rule hi)
      · have hf := Sparsefs.ingest_frame rest st1 st2 h2 rule.pattern hbuf
        unfold Store.pat at hpat ⊢
        rw [hf, hpat]
    · exact ih st1 st2 (hg.alloc ha) h2 c hcr

/-- C21, as the code has it: after any sequence of `append_rule` calls from the empty store,
each on a raw pattern that is not empty and not the single quotation mark, every call returns;
and no rule stored in the exact-match index or the wildcard chain has a pattern that ends in a
slash or that begins or ends with a quotation mark if and only if the body of every raw pattern
(the pattern without its first and last character when either of them is a quotation mark, else
the whole pattern) neither begins nor ends with a quotation mark nor ends in a slash that
follows a slash or a quotation mark. -/
theorem Sparsefs.ingest_patterns_clean (calls : List (CStr × Int))
    (hraw : ∀ c ∈ calls, NUL ∉ c.1 ∧ c.1 ≠ [] ∧ c.1 ≠ [QUOTE]) :
    ∃ st2, Sparsefs.ingest Store.empty calls = some st2 ∧
      (((∀ i, ∀ r ∈ st2.ht i, clean_pattern (st2.pat r) = true) ∧
          (∀ r ∈ st2.chain, clean_pattern (st2.pat r) = true)) ↔
        ∀ c ∈ calls, clean_body (quote_body c.1) = true) := by
  have hself : ∀ c ∈ calls, cstrAt c.1 0 = c.1 := fun c hc => cstrAt_self c.1 (hraw c hc).1
  have hcl : ∀ c ∈ calls, clean_pattern (cleaned (cstrAt c.1 0)) = clean_body (quote_body c.1) := by
    intro c hc
    rw [hself c hc, cleaned_quote_body c.1 (hraw c hc).2.2, clean_pattern_body]
  obtain ⟨st2, h2⟩ := Sparsefs.ingest_some calls Store.empty
    (fun c hc => by
      rw [hself c hc]
      exact unquoted_ne_nil_of_ne c.1 (hraw c hc).2.1 (hraw c hc).2.2)
  refine ⟨st2, h2, ?_, ?_⟩
  · rintro ⟨hht, hchain⟩ c hc
    obtain ⟨r, hin, hpat⟩ := Sparsefs.ingest_stored calls Store.empty st2
      Store.empty_sound.alloc h2 c hc
    rw [← hcl c hc, ← hpat]
    rcases hin with ⟨i, hi⟩ | hi
    · exact hht i r hi
    · exact hchain r hi
  · intro hshape
    exact Sparsefs.ingest_patterns (fun p => clean_pattern p = true) calls Store.empty st2
      Store.empty_sound.alloc h2 (fun _ _ h => by simp [Store.empty] at h)
      (fun _ h => by simp [Store.empty] at h)
      (fun c hc => by
        show clean_pattern (cleaned (cstrAt c.1 0)) = true
        rw [hcl c hc]
        exact hshape c hc)

/-- Counterexample to C21 as stated: `append_rule` takes one slash off the raw pattern
"/s/dir//" and stores "/s/dir/", which ends in a slash; it takes one quotation mark off each
end of `""a""` and stores `"a"`, which begins and ends with a quotation mark; and it takes the
slash off `a"/` and stores `a"`, which ends with a quotation mark. -/
theorem Sparsefs.ingest_patterns_clean_counterexample :
    (Sparsefs.ingest Store.empty [("/s/dir//".toList, 1)]).map
        (fun st => (st.ht (calc_hash "/s/dir/".toList % HT_LENGTH)).map st.pat) =
      some ["/s/dir/".toList] ∧
    clean_pattern "/s/dir/".toList = false ∧
    (Sparsefs.ingest Store.empty [([QUOTE, QUOTE, 'a', QUOTE, QUOTE], 1)]).map
        (fun st => (st.ht (calc_hash [QUOTE, 'a', QUOTE] % HT_LENGTH)).map st.pat) =
      some [[QUOTE, 'a', QUOTE]] ∧
    clean_pattern [QUOTE, 'a', QUOTE] = false ∧
    (Sparsefs.ingest Store.empty [(['a', QUOTE, '/'], 1)]).map
        (fun st => (st.ht (calc_hash ['a', QUOTE] % HT_LENGTH)).map st.pat) =
      some [['a', QUOTE]] ∧
    clean_pattern ['a', QUOTE] = false := by
  refine ⟨?_, ?_, ?_, ?_, ?_, ?_⟩ <;> decide

/-- Witness of C21 as amended: the raw patterns `"/s/a/"`, `/s/b*`, `/s/c/`, `a"b` and `"abc`;
the stored patterns are "/s/a", "/s/c", `a"b` and "ab" in the index and "/s/b*" in the chain. -/
theorem Sparsefs.ingest_patterns_clean_witness :
    (Sparsefs.ingest Store.empty
        [(QUOTE :: ("/s/a/".toList ++ [QUOTE]), 1), ("/s/b*".toList, 0),
          ("/s/c/".toList, 1), (['a', QUOTE, 'b'], 0), ([QUOTE, 'a', 'b', 'c'], 1)]).map
        (fun st => (st.chain.map st.pat,
          ["/s/a".toList, "/s/c".toList, ['a', QUOTE, 'b'], "ab".toList].map
            (fun p => (st.ht (calc_hash p % HT_LENGTH)).map st.pat))) =
      some (["/s/b*".toList],
        [["/s/a".toList], ["/s/c".toList], [['a', QUOTE, 'b']], ["ab".toList]]) ∧
    ∃ st2, Sparsefs.ingest Store.empty
        [(QUOTE :: ("/s/a/".toList ++ [QUOTE]), 1), ("/s/b*".toList, 0),
          ("/s/c/".toList, 1), (['a', QUOTE, 'b'], 0), ([QUOTE, 'a', 'b', 'c'], 1)] =
        some st2 ∧
      (∀ i, ∀ r ∈ st2.ht i, clean_pattern (st2.pat r) = true) ∧
      (∀ r ∈ st2.chain, clean_pattern (st2.pat r) = true) := by
  refine ⟨by decide, ?_⟩
  obtain ⟨st2, h, hiff⟩ := Sparsefs.ingest_patterns_clean
    [(QUOTE :: ("/s/a/".toList ++ [QUOTE]), 1), ("/s/b*".toList, 0),
      ("/s/c/".toList, 1), (['a', QUOTE, 'b'], 0), ([QUOTE, 'a', 'b', 'c'], 1)] (by decide)
  exact ⟨st2, h, hiff.mpr (by decide)⟩

/-! ## The number of rules -/

theorem sum_update_range (f : Nat → List Rule) (j : Nat) (r : Rule) (n : Nat) :
    ((List.range n).map
        (fun i => (Function.update f j (f j ++ [r]) i).length)).sum =
      ((List.range n).map (fun i => (f i).length)).sum + (if j < n then 1 else 0) := by
  induction n with
  | zero => simp
  | succ n ih =>
    rw [List.range_succ, List.map_append, List.map_append, List.sum_append, List.sum_append, ih]
    simp only [List.map_cons, List.map_nil, List.sum_cons, List.sum_nil, Nat.add_zero]
    by_cases hj : j = n
    · subst hj
      simp
      omega
    · rw [Function.update_noteq (Ne.symm hj)]
      by_cases hlt : j < n
      · have h2 : j < n + 1 := Nat.lt_succ_of_lt hlt
        simp only [hlt, h2, if_true]
        omega
      · have h2 : ¬ j < n + 1 := by omega
        simp only [hlt, h2, if_false]
        omega

/-- One stored rule makes the store one rule larger. -/
theorem Store.Grows.size {st st1 : Store} {rule : Rule} (hg : st.Grows st1 rule) :
    st1.size = st.size + 1 := by
  obtain ⟨_, _, _, h | h⟩ := hg
  · unfold Store.size
    rw [h.1, h.2, List.length_append, List.length_singleton]
    omega
  · unfold Store.size
    rw [h.1, h.2.2, sum_update_range]
    have hlt : calc_hash (st1.pat rule) % HT_LENGTH < HT_LENGTH :=
      Nat.mod_lt _ (by decide)
    rw [if_pos hlt]
    omega

/-! ## The parent that `dirname` yields -/

theorem Filterfs.back_over_slashes_zero (path : CStr) (n : Nat)
    (h : Filterfs.back_over_slashes path n = 0) : ∀ j, j < n → path[j]? = some '/' := by
  induction n with
  | zero => intro j hj; exact absurd hj (Nat.not_lt_zero _)
  | succ n ih =>
    unfold Filterfs.back_over_slashes at h
    by_cases hc : path[n]? = some '/'
    · rw [if_pos hc] at h
      intro j hj
      rcases Nat.lt_succ_iff_lt_or_eq.mp hj with h1 | h1
      · exact ih h j h1
      · rw [h1]; exact hc
    · rw [if_neg hc] at h
      exact absurd h (Nat.succ_ne_zero _)

/-! ## Path components -/

theorem path_components_cons_slash (b : CStr) :
    path_components ('/' :: b) = path_components b := by
  simp [path_components]

theorem path_components_pos_of_head (u : CStr) :
    ∀ c : Char, c ≠ '/' → 1 ≤ path_components (c :: u) := by
  induction u with
  | nil => intro c hc; simp [path_components, hc]
  | cons d u ih =>
    intro c hc
    by_cases hd : d = '/'
    · subst hd
      simp [path_components, hc]
    · have h := ih d hd
      have h2 : path_components (c :: d :: u) =
          (if c ≠ '/' ∧ (d :: u = [] ∨ (d :: u).head? = some '/') then 1 else 0) +
            path_components (d :: u) := rfl
      rw [h2]
      omega

theorem path_components_cons_le (c : Char) (t : CStr) :
    path_components t ≤ path_components (c :: t) := by
  have h2 : path_components (c :: t) =
      (if c ≠ '/' ∧ (t = [] ∨ t.head? = some '/') then 1 else 0) + path_components t := rfl
  rw [h2]
  omega

/-- A string with a character other than the slash has a path component. -/
theorem path_components_pos (l : CStr) (h : ∃ c ∈ l, c ≠ '/') : 1 ≤ path_components l := by
  induction l with
  | nil =>
    obtain ⟨c, hc, _⟩ := h
    exact absurd hc (List.not_mem_nil _)
  | cons d t ih =>
    by_cases hd : d = '/'
    · obtain ⟨c, hc, hne⟩ := h
      rcases List.mem_cons.mp hc with h1 | h1
      · exact absurd (h1.trans hd) hne
      · exact Nat.le_trans (ih ⟨c, h1, hne⟩) (path_components_cons_le d t)
    · exact path_components_pos_of_head t d hd

/-- The components of a string cut at a slash are those in front of the slash and those behind
it. -/
theorem path_components_append_slash (a b : CStr) :
    path_components (a ++ '/' :: b) = path_components a + path_components b := by
  induction a with
  | nil => simp [path_components]
  | cons c a ih =>
    have h1 : path_components (c :: a ++ '/' :: b) =
        (if c ≠ '/' ∧ (a ++ '/' :: b = [] ∨ (a ++ '/' :: b).head? = some '/') then 1 else 0) +
          path_components (a ++ '/' :: b) := rfl
    have h2 : path_components (c :: a) =
        (if c ≠ '/' ∧ (a = [] ∨ a.head? = some '/') then 1 else 0) + path_components a := rfl
    rw [h1, h2, ih]
    have h3 : (c ≠ '/' ∧ (a ++ '/' :: b = [] ∨ (a ++ '/' :: b).head? = some '/')) ↔
        (c ≠ '/' ∧ (a = [] ∨ a.head? = some '/')) := by
      cases a with
      | nil => simp
      | cons d a => simp
    simp only [h3]
    omega

/-- An initial part of a string has no more components than the string. -/
theorem path_components_initial (t u : CStr) :
    path_components t ≤ path_components (t ++ u) := by
  induction t with
  | nil => simp [path_components]
  | cons c t ih =>
    by_cases ht : t = []
    · subst ht
      by_cases hc : c = '/'
      · subst hc
        simp [path_components]
      · have h1 : path_components [c] = 1 := by simp [path_components, hc]
        rw [h1]
        exact path_components_pos_of_head u c hc
    · have h1 : path_components (c :: t ++ u) =
          (if c ≠ '/' ∧ (t ++ u = [] ∨ (t ++ u).head? = some '/') then 1 else 0) +
            path_components (t ++ u) := rfl
      have h2 : path_components (c :: t) =
          (if c ≠ '/' ∧ (t = [] ∨ t.head? = some '/') then 1 else 0) + path_components t := rfl
      have h3 : (c ≠ '/' ∧ (t ++ u = [] ∨ (t ++ u).head? = some '/')) ↔
          (c ≠ '/' ∧ (t = [] ∨ t.head? = some '/')) := by
        obtain ⟨d, t2, rfl⟩ := List.exists_cons_of_ne_nil ht
        simp
      rw [h1, h2]
      simp only [h3]
      omega

theorem path_components_le_of_initial (s t : CStr) (h : t <+: s) :
    path_components t ≤ path_components s := by
  obtain ⟨u, rfl⟩ := h
  exact path_components_initial t u

/-- Cutting a string at a slash that has a character other than the slash behind it takes at
least one component off. -/
theorem path_components_take (path : CStr) (r : Nat) (hr : path[r]? = some '/')
    (hj : ∃ j c, r < j ∧ path[j]? = some c ∧ c ≠ '/') :
    path_components (path.take r) + 1 ≤ path_components path := by
  have hlt : r < path.length := by
    rcases Nat.lt_or_ge r path.length with h | h
    · exact h
    · rw [List.getElem?_eq_none h] at hr
      exact absurd hr (by simp)
  have hsplit : path = path.take r ++ '/' :: path.drop (r + 1) := by
    have h1 : path.drop r = '/' :: path.drop (r + 1) := by
      rw [List.drop_eq_getElem_cons hlt]
      congr 1
      rw [List.getElem?_eq_getElem hlt] at hr
      exact Option.some.inj hr
    rw [← h1, List.take_append_drop]
  obtain ⟨j, c, hrj, hjc, hc⟩ := hj
  have hmem : c ∈ path.drop (r + 1) := by
    have h2 : (path.drop (r + 1))[j - (r + 1)]? = some c := by
      rw [List.getElem?_drop]
      have h3 : r + 1 + (j - (r + 1)) = j := by omega
      rw [h3]
      exact hjc
    exact List.getElem?_mem h2
  have hpos := path_components_pos (path.drop (r + 1)) ⟨c, hmem, hc⟩
  have hsum := path_components_append_slash (path.take r) (path.drop (r + 1))
  rw [← hsplit] at hsum
  omega

/-! ## The slash at which `dirname` cuts -/

theorem Filterfs.memrchr_slash_last (path : CStr) (n i : Nat)
    (h : Filterfs.memrchr_slash path n = some i) :
    ∀ j, i < j → j < n → path[j]? ≠ some '/' := by
  induction n with
  | zero => simp [Filterfs.memrchr_slash] at h
  | succ n ih =>
    unfold Filterfs.memrchr_slash at h
    by_cases hc : path[n]? = some '/'
    · rw [if_pos hc] at h
      simp only [Option.some.injEq] at h
      subst h
      intro j h1 h2
      omega
    · rw [if_neg hc] at h
      intro j h1 h2
      rcases Nat.lt_succ_iff_lt_or_eq.mp h2 with h3 | h3
      · exact ih h j h1 h3
      · rw [h3]; exact hc

theorem Filterfs.back_over_slashes_run (path : CStr) (n : Nat) :
    ∀ j, Filterfs.back_over_slashes path n ≤ j → j < n → path[j]? = some '/' := by
  induction n with
  | zero => intro j _ h; exact absurd h (Nat.not_lt_zero _)
  | succ n ih =>
    unfold Filterfs.back_over_slashes
    by_cases hc : path[n]? = some '/'
    · rw [if_pos hc]
      intro j h1 h2
      rcases Nat.lt_succ_iff_lt_or_eq.mp h2 with h3 | h3
      · exact ih j h1 h3
      · rw [h3]; exact hc
    · rw [if_neg hc]
      intro j h1 h2
      omega

theorem Filterfs.back_over_slashes_stop (path : CStr) (n : Nat)
    (h : Filterfs.back_over_slashes path n ≠ 0) :
    path[Filterfs.back_over_slashes path n - 1]? ≠ some '/' := by
  induction n with
  | zero => exact absurd rfl h
  | succ n ih =>
    unfold Filterfs.back_over_slashes at h ⊢
    by_cases hc : path[n]? = some '/'
    · rw [if_pos hc] at h ⊢
      exact ih h
    · rw [if_neg hc]
      exact hc

/-- When `dirname` cuts its argument, the cut is governed by a slash `ls` that no slash follows
directly and that has a character other than the slash somewhere behind it, unless the run of
slashes ending at `ls` begins the string. -/
theorem Filterfs.dirname_shape_last (path : CStr) :
    Filterfs.dirname path = (path, ['.']) ∨
      ∃ ls, path[ls]? = some '/' ∧ path[ls + 1]? ≠ some '/' ∧
        (Filterfs.back_over_slashes path ls = 0 ∨
          ∃ j c, ls < j ∧ path[j]? = some c ∧ c ≠ '/') ∧
        Filterfs.dirname path =
          (path.take
            (if Filterfs.back_over_slashes path ls = 0 then (if ls = 1 then 2 else 1)
              else Filterfs.back_over_slashes path ls),
          path.take
            (if Filterfs.back_over_slashes path ls = 0 then (if ls = 1 then 2 else 1)
              else Filterfs.back_over_slashes path ls)) := by
  unfold Filterfs.dirname
  cases h0 : Filterfs.memrchr_slash path path.length with
  | none => exact Or.inl rfl
  | some ls0 =>
    obtain ⟨hlt0, hls0⟩ := Filterfs.memrchr_slash_spec path _ _ h0
    have hlast0 := Filterfs.memrchr_slash_last path _ _ h0
    have hnext0 : path[ls0 + 1]? ≠ some '/' := by
      rcases Nat.lt_or_ge (ls0 + 1) path.length with h | h
      · exact hlast0 (ls0 + 1) (Nat.lt_succ_self _) h
      · rw [List.getElem?_eq_none h]
        simp
    simp only []
    by_cases hc : ls0 ≠ 0 ∧ ls0 + 1 = path.length
    · rw [if_pos hc]
      by_cases hr : Filterfs.back_over_slashes path ls0 ≠ 0
      · rw [if_pos hr]
        cases h1 : Filterfs.memrchr_slash path (Filterfs.back_over_slashes path ls0) with
        | none => exact Or.inl rfl
        | some ls1 =>
          obtain ⟨hlt1, hls1⟩ := Filterfs.memrchr_slash_spec path _ _ h1
          have hlast1 := Filterfs.memrchr_slash_last path _ _ h1
          have hstop := Filterfs.back_over_slashes_stop path ls0 hr
          have hle := Filterfs.back_over_slashes_le path ls0
          have hne : ls1 ≠ Filterfs.back_over_slashes path ls0 - 1 := by
            intro heq
            rw [← heq] at hstop
            exact hstop hls1
          have hex : ∃ c, path[Filterfs.back_over_slashes path ls0 - 1]? = some c := by
            have h2 : Filterfs.back_over_slashes path ls0 - 1 < path.length := by omega
            exact ⟨_, List.getElem?_eq_getElem h2⟩
          obtain ⟨c, hc2⟩ := hex
          refine Or.inr ⟨ls1, hls1, hlast1 (ls1 + 1) (Nat.lt_succ_self _) (by omega),
            Or.inr ⟨Filterfs.back_over_slashes path ls0 - 1, c, ?_, hc2, ?_⟩, rfl⟩
          · omega
          · intro hcs
            rw [hcs] at hc2
            exact hstop hc2
      · rw [if_neg hr]
        have hz : Filterfs.back_over_slashes path ls0 = 0 := by
          by_contra h
          exact hr h
        exact Or.inr ⟨ls0, hls0, hnext0, Or.inl hz, rfl⟩
    · rw [if_neg hc]
      by_cases hend : ls0 + 1 = path.length
      · have hz0 : ls0 = 0 := by
          by_contra h
          exact hc ⟨h, hend⟩
        refine Or.inr ⟨ls0, hls0, hnext0, Or.inl ?_, rfl⟩
        rw [hz0]
        rfl
      · have h2 : ls0 + 1 < path.length := by omega
        refine Or.inr ⟨ls0, hls0, hnext0, Or.inr ⟨ls0 + 1, path[ls0 + 1], Nat.lt_succ_self _,
          List.getElem?_eq_getElem h2, ?_⟩, rfl⟩
        intro hcs
        apply hlast0 (ls0 + 1) (Nat.lt_succ_self _) h2
        rw [List.getElem?_eq_getElem h2, hcs]

/-- A usable parent other than "//" is the path cut at a slash, in front of a run of slashes
that a path component follows, and ends in a character other than the slash. -/
theorem Filterfs.dirname_parent (path : CStr)
    (h : Filterfs.parent_usable (Filterfs.dirname path).2 = true)
    (hne : (Filterfs.dirname path).1 ≠ ['/', '/']) :
    ∃ r, 0 < r ∧ Filterfs.dirname path = (path.take r, path.take r) ∧
      path[r]? = some '/' ∧ path[r - 1]? ≠ some '/' ∧
      ∃ j c, r < j ∧ path[j]? = some c ∧ c ≠ '/' := by
  rcases Filterfs.dirname_shape_last path with h1 | ⟨ls, hls, _, hcomp, h1⟩
  · rw [h1, Filterfs.parent_usable_dot] at h
    exact absurd h (by simp)
  · by_cases hr : Filterfs.back_over_slashes path ls = 0
    · exfalso
      rw [h1] at h hne
      simp only [] at h hne
      rw [if_pos hr] at h hne
      have hall := Filterfs.back_over_slashes_zero path ls hr
      by_cases hl1 : ls = 1
      · rw [if_pos hl1] at hne
        subst hl1
        have h0 := hall 0 (by decide)
        apply hne
        cases path with
        | nil => simp at hls
        | cons c0 t =>
          cases t with
          | nil => simp at hls
          | cons c1 t =>
            simp only [List.getElem?_cons_zero, Option.some.injEq] at h0
            simp only [List.getElem?_cons_succ, List.getElem?_cons_zero,
              Option.some.injEq] at hls
            rw [h0, hls]
            rfl
      · rw [if_neg hl1] at h
        have h0 : path[0]? = some '/' := by
          by_cases hz : ls = 0
          · rw [hz] at hls; exact hls
          · exact hall 0 (Nat.pos_of_ne_zero hz)
        cases path with
        | nil => simp at hls
        | cons c0 t =>
          simp only [List.getElem?_cons_zero, Option.some.injEq] at h0
          rw [h0] at h
          simp [Filterfs.parent_usable] at h
    · have hle := Filterfs.back_over_slashes_le path ls
      rcases hcomp with hz | ⟨j, c, hj, hjc, hc⟩
      · exact absurd hz hr
      · refine ⟨Filterfs.back_over_slashes path ls, Nat.pos_of_ne_zero hr, ?_, ?_,
          Filterfs.back_over_slashes_stop path ls hr, ⟨j, c, by omega, hjc, hc⟩⟩
        · rw [h1, if_neg hr]
        · rcases Nat.lt_or_eq_of_le hle with h2 | h2
          · exact Filterfs.back_over_slashes_run path ls _ (Nat.le_refl _) h2
          · rw [h2]; exact hls

/-- The parent "//" is yielded only for a path that begins with exactly two slashes. -/
theorem Filterfs.dirname_two_slashes (path : CStr)
    (h : (Filterfs.dirname path).1 = ['/', '/']) : two_slash_root path = true := by
  rcases Filterfs.dirname_shape_last path with h1 | ⟨ls, hls, hnext, _, h1⟩
  · rw [h1] at h
    simp only [] at h
    rw [h]
    decide
  · rw [h1] at h
    simp only [] at h
    have hpre : ['/', '/'] <+: path := by
      rw [← h]
      exact List.take_prefix _ _
    by_cases hr : Filterfs.back_over_slashes path ls = 0
    · rw [if_pos hr] at h
      by_cases hl1 : ls = 1
      · subst hl1
        unfold two_slash_root
        simp only [hpre, decide_True, Bool.true_and, decide_eq_true_eq]
        exact hnext
      · rw [if_neg hl1] at h
        have h2 := congrArg List.length h
        rw [List.length_take] at h2
        simp only [List.length_cons, List.length_nil] at h2
        have h3 := Nat.min_le_left 1 path.length
        omega
    · rw [if_neg hr] at h
      exfalso
      have hstop := Filterfs.back_over_slashes_stop path ls hr
      have h2 := congrArg List.length h
      rw [List.length_take] at h2
      simp only [List.length_cons, List.length_nil] at h2
      have hle := Filterfs.back_over_slashes_le path ls
      have hlt : ls < path.length := by
        rcases Nat.lt_or_ge ls path.length with h3 | h3
        · exact h3
        · rw [List.getElem?_eq_none h3] at hls
          exact absurd hls (by simp)
      have hr2 : Filterfs.back_over_slashes path ls = 2 := by omega
      rw [hr2] at hstop
      obtain ⟨u, hu⟩ := hpre
      rw [← hu] at hstop
      simp at hstop

/-- The patterns that `append_rule` strips down to "//". -/
theorem stripped_two_slashes (d : CStr) (h : stripped d = ['/', '/']) :
    d = ['/', '/', '/'] ∨ d = ['/', '/', '/', QUOTE] := by
  have hslash : ∀ x : CStr, (if x.getLast? = some '/' then x.dropLast else x) = ['/', '/'] →
      x = ['/', '/', '/'] := by
    intro x hx
    by_cases hl : x.getLast? = some '/'
    · rw [if_pos hl] at hx
      obtain ⟨y, rfl⟩ := List.getLast?_eq_some_iff.mp hl
      rw [List.dropLast_concat] at hx
      rw [hx]
      rfl
    · rw [if_neg hl] at hx
      rw [hx] at hl
      exact absurd rfl hl
  unfold stripped at h
  have hu := hslash _ h
  unfold unquoted at hu
  by_cases hq : is_quoted d = true
  · rw [if_pos hq] at hu
    right
    have hne : d ≠ [] := by
      intro hd
      rw [hd] at hu
      simp at hu
    have hd := (List.dropLast_append_getLast hne).symm
    rw [hu] at hd
    have hlast : d.getLast? = some (d.getLast hne) := List.getLast?_eq_getLast _ hne
    have hhead : d.head? = some '/' := by
      rw [hd]
      rfl
    simp only [is_quoted, hhead, hlast, Option.some.injEq, Bool.or_eq_true,
      decide_eq_true_eq] at hq
    rcases hq with hq | hq
    · exact absurd hq (by decide)
    · rw [hd, hq]
      rfl
  · rw [if_neg hq] at hu
    exact Or.inl hu

/-! ## Termination of the ancestor injection (filterfs.c) -/

/-- The call of `append_rule` on "//" stores one rule and looks no further: the pattern becomes
"/", whose parent "/" is not usable. -/
theorem Filterfs.append_rule_fuel_two_slashes (env : Env) (a : Int) (fuel : Nat) (st : Store) :
    ∃ st2, Filterfs.append_rule_fuel env (fuel + 1)
        { st with mem := st.mem ++ [['/', '/'] ++ [NUL]] } ⟨st.mem.length, 0⟩ a = some st2 ∧
      st2.size = st.size + 1 := by
  have hnul : NUL ∉ (['/', '/'] : CStr) := by decide
  have hc : cstrAt (['/', '/'] : CStr) 0 = ['/', '/'] := cstrAt_self _ hnul
  have hu : unquoted (cstrAt (['/', '/'] : CStr) 0) ≠ [] := by rw [hc]; decide
  obtain ⟨st1, h1⟩ := store_rule_dup_some st ['/', '/'] a hu
  obtain ⟨rule, _, hg, _, _, hstr, _⟩ := store_rule_dup_spec st st1 ['/', '/'] a h1
  rw [hc] at hstr
  have hs : stripped (['/', '/'] : CStr) = ['/'] := by decide
  have hd : Filterfs.parent_usable (Filterfs.dirname (['/'] : CStr)).2 = false := by decide
  refine ⟨st1, ?_, hg.size⟩
  rw [Filterfs.append_rule_fuel_succ, h1, Option.some_bind, hstr, hs, hd]
  rfl

theorem Filterfs.append_rule_run_succ (env : Env) (fuel : Nat) (st : Store) (pattern : Ptr)
    (exclude : Int) :
    Filterfs.append_rule_run env (fuel + 1) st pattern exclude =
      match store_rule st pattern exclude with
      | none => some none
      | some st1 =>
        if Filterfs.parent_usable (Filterfs.dirname (st1.mem.str pattern)).2 &&
            env.is_dir (Filterfs.dirname (st1.mem.str pattern)).2 then
          Filterfs.append_rule_run env fuel
            { st1 with mem := st1.mem ++ [(Filterfs.dirname (st1.mem.str pattern)).1 ++ [NUL]] }
            ⟨st1.mem.length, 0⟩ exclude
        else some (some st1) := by
  rfl

/-- What `append_rule` returns is what the run yields, with both failures taken together. -/
theorem Filterfs.append_rule_fuel_run (env : Env) (a : Int) :
    ∀ (fuel : Nat) (st : Store) (pattern : Ptr),
      Filterfs.append_rule_fuel env fuel st pattern a =
        (Filterfs.append_rule_run env fuel st pattern a).join := by
  intro fuel
  induction fuel with
  | zero => intro st pattern; rfl
  | succ fuel ih =>
    intro st pattern
    rw [Filterfs.append_rule_fuel_succ, Filterfs.append_rule_run_succ]
    cases h1 : store_rule st pattern a with
    | none => rfl
    | some st1 =>
      simp only [Option.some_bind]
      split
      · exact ih _ _
      · rfl

/-- The parent a call of `append_rule` goes on to is an initial part of the pattern, shorter
than it, not empty and free of NUL. -/
theorem Filterfs.parent_shorter (s : CStr) (hnul : NUL ∉ s) (hs : s ≠ [])
    (h : Filterfs.parent_usable (Filterfs.dirname (stripped s)).2 = true) :
    (Filterfs.dirname (stripped s)).1 <+: s ∧ (Filterfs.dirname (stripped s)).1 ≠ [] ∧
      NUL ∉ (Filterfs.dirname (stripped s)).1 ∧
      (Filterfs.dirname (stripped s)).1.length < s.length ∧
      (Filterfs.dirname (stripped s)).2 = (Filterfs.dirname (stripped s)).1 := by
  obtain ⟨cut, hdir, hcutlt⟩ := Filterfs.dirname_usable (stripped s) h
  have h12 : (Filterfs.dirname (stripped s)).2 = (Filterfs.dirname (stripped s)).1 := by
    rw [hdir]
  have hdne : (Filterfs.dirname (stripped s)).1 ≠ [] := by
    have := Filterfs.parent_usable_ne_nil _ h
    rw [hdir] at this ⊢
    exact this
  have hpre : (Filterfs.dirname (stripped s)).1 <+: s := by
    rw [hdir]
    exact ( List.take_prefix _ _).trans (stripped_initial s)
  refine ⟨hpre, hdne, not_nul_of_initial s _ hpre hnul, ?_, h12⟩
  have hle := Filterfs.dirname_fst_length_le (stripped s)
  rcases stripped_cases s hs with h3 | ⟨h3, h4⟩
  · omega
  · have h5 := hcutlt (by rw [h3]; exact h4)
    rw [hdir, List.length_take, h3] at hle ⊢
    rw [h3] at h5
    omega

/-- The run of `append_rule` of filterfs.c on a string of its own ends, with the depth bound above
the length of the string: it returns or it comes to an access outside a character array. -/
theorem Filterfs.append_rule_run_ends (env : Env) (a : Int) :
    ∀ (fuel : Nat) (st : Store) (s : CStr), NUL ∉ s → s ≠ [] → s.length < fuel →
      ∃ out, Filterfs.append_rule_run env fuel { st with mem := st.mem ++ [s ++ [NUL]] }
        ⟨st.mem.length, 0⟩ a = some out := by
  intro fuel
  induction fuel with
  | zero => intro st s _ _ h; exact absurd h (Nat.not_lt_zero _)
  | succ fuel ih =>
    intro st s hnul hs hlen
    have hc : cstrAt s 0 = s := cstrAt_self s hnul
    rw [Filterfs.append_rule_run_succ]
    cases h1 : store_rule { st with mem := st.mem ++ [s ++ [NUL]] } ⟨st.mem.length, 0⟩ a with
    | none => exact ⟨none, rfl⟩
    | some st1 =>
      obtain ⟨rule, _, hg, _, _, hstr, _⟩ := store_rule_dup_spec st st1 s a h1
      rw [hc] at hstr
      simp only [hstr]
      by_cases hcond : (Filterfs.parent_usable (Filterfs.dirname (stripped s)).2 &&
          env.is_dir (Filterfs.dirname (stripped s)).2) = true
      · rw [if_pos hcond]
        rw [Bool.and_eq_true] at hcond
        obtain ⟨_, hdne, hdnul, hdlen, _⟩ := Filterfs.parent_shorter s hnul hs hcond.1
        exact ih st1 _ hdnul hdne (by omega)
      · rw [if_neg hcond]
        exact ⟨some st1, rfl⟩

/-- The run does not come to an access outside a character array unless the pattern is one
quotation mark, or begins with a quotation mark and a slash while a directory named by one
quotation mark exists. -/
theorem Filterfs.append_rule_run_returns (env : Env) (a : Int) :
    ∀ (fuel : Nat) (st : Store) (s : CStr), NUL ∉ s → s ≠ [] → s ≠ [QUOTE] →
      (¬ [QUOTE, '/'] <+: s ∨ env.is_dir [QUOTE] = false) →
      Filterfs.append_rule_run env fuel { st with mem := st.mem ++ [s ++ [NUL]] }
        ⟨st.mem.length, 0⟩ a ≠ some none := by
  intro fuel
  induction fuel with
  | zero => intro st s _ _ _ _ h; exact absurd h (by simp [Filterfs.append_rule_run])
  | succ fuel ih =>
    intro st s hnul hs hq hub
    have hc : cstrAt s 0 = s := cstrAt_self s hnul
    have hu : unquoted (cstrAt s 0) ≠ [] := by rw [hc]; exact unquoted_ne_nil_of_ne s hs hq
    obtain ⟨st1, h1⟩ := store_rule_dup_some st s a hu
    obtain ⟨rule, _, hg, _, _, hstr, _⟩ := store_rule_dup_spec st st1 s a h1
    rw [hc] at hstr
    rw [Filterfs.append_rule_run_succ, h1]
    simp only [hstr]
    by_cases hcond : (Filterfs.parent_usable (Filterfs.dirname (stripped s)).2 &&
        env.is_dir (Filterfs.dirname (stripped s)).2) = true
    · rw [if_pos hcond]
      rw [Bool.and_eq_true] at hcond
      obtain ⟨hpre, hdne, hdnul, _, h12⟩ := Filterfs.parent_shorter s hnul hs hcond.1
      have hdq : (Filterfs.dirname (stripped s)).1 ≠ [QUOTE] := by
        intro heq
        have hne2 : (Filterfs.dirname (stripped s)).1 ≠ ['/', '/'] := by
          rw [heq]; decide
        obtain ⟨r, hr0, hdir, hslash, _, _⟩ :=
          Filterfs.dirname_parent (stripped s) hcond.1 hne2
        have hrlt : r < (stripped s).length := by
          rcases Nat.lt_or_ge r (stripped s).length with h | h
          · exact h
          · rw [List.getElem?_eq_none h] at hslash
            exact absurd hslash (by simp)
        have htake : (stripped s).take r = [QUOTE] := by
          rw [hdir] at heq
          exact heq
        have hr1 : r = 1 := by
          have h2 := congrArg List.length htake
          rw [List.length_take, List.length_singleton] at h2
          omega
        subst hr1
        have hpre2 : [QUOTE, '/'] <+: stripped s := by
          have h3 : (stripped s).take 2 = [QUOTE, '/'] := by
            cases hst : stripped s with
            | nil => rw [hst] at hrlt; exact absurd hrlt (by simp)
            | cons c0 t =>
              cases t with
              | nil => rw [hst] at hrlt; exact absurd hrlt (by simp)
              | cons c1 t =>
                rw [hst] at htake hslash
                simp only [List.take_succ_cons, List.take_zero, List.cons.injEq,
                  and_true] at htake
                simp only [List.getElem?_cons_succ, List.getElem?_cons_zero,
                  Option.some.injEq] at hslash
                rw [htake, hslash]
                rfl
          rw [← h3]
          exact List.take_prefix _ _
        rcases hub with h6 | h6
        · exact h6 (hpre2.trans (stripped_initial s))
        · have h7 := hcond.2
          rw [h12, heq, h6] at h7
          exact absurd h7 (by decide)
      exact ih st1 _ hdnul hdne hdq
        (by
          rcases hub with h6 | h6
          · exact Or.inl (fun h => h6 (h.trans hpre))
          · exact Or.inr h6)
    · rw [if_neg hcond]
      simp

theorem getElem?_of_initial (t u : CStr) (h : t <+: u) (i : Nat) (hi : i < t.length) :
    u[i]? = t[i]? := by
  obtain ⟨v, rfl⟩ := h
  exact List.getElem?_append_left hi

/-- The extra rule a parent can bring is one the pattern of the call can bring: when the parent,
as `append_rule` strips it, begins with exactly two slashes, so does the pattern as stripped, or
the parent is `///"` and the pattern begins with `///"/`. -/
theorem Filterfs.parent_two_slash_root (s : CStr) (r : Nat)
    (hslash : (stripped s)[r]? = some '/') (hstop : (stripped s)[r - 1]? ≠ some '/')
    (hd : two_slash_root (stripped ((stripped s).take r)) = true ∨
      ['/', '/', '/', QUOTE, '/'] <+: (stripped s).take r) :
    two_slash_root (stripped s) = true ∨ ['/', '/', '/', QUOTE, '/'] <+: s := by
  have hrlt : r < (stripped s).length := by
    rcases Nat.lt_or_ge r (stripped s).length with h | h
    · exact h
    · rw [List.getElem?_eq_none h] at hslash
      exact absurd hslash (by simp)
  have hlen : ((stripped s).take r).length = r := by
    rw [List.length_take]
    omega
  rcases hd with hd | hd
  · by_cases ht : stripped ((stripped s).take r) = ['/', '/']
    · right
      rcases stripped_two_slashes _ ht with h3 | h4
      · exfalso
        have hr3 : r = 3 := by rw [← hlen, h3]; rfl
        subst hr3
        apply hstop
        have h5 := getElem?_of_initial _ _ ( List.take_prefix 3 (stripped s)) 2
          (by rw [hlen]; decide)
        rw [h5, h3]
        rfl
      · have hr4 : r = 4 := by rw [← hlen, h4]; rfl
        subst hr4
        have h5 : (stripped s).take 5 = ['/', '/', '/', QUOTE, '/'] := by
          rw [List.take_succ, h4, hslash]
          rfl
        have h6 : ['/', '/', '/', QUOTE, '/'] <+: stripped s := by
          rw [← h5]
          exact List.take_prefix _ _
        exact h6.trans (stripped_initial s)
    · left
      unfold two_slash_root at hd ⊢
      rw [Bool.and_eq_true, decide_eq_true_eq, decide_eq_true_eq] at hd ⊢
      obtain ⟨hpre, h2⟩ := hd
      have hinit : stripped ((stripped s).take r) <+: stripped s :=
        (stripped_initial _).trans ( List.take_prefix _ _)
      have hlen3 : 2 < (stripped ((stripped s).take r)).length := by
        obtain ⟨u, hu⟩ := hpre
        cases u with
        | nil =>
          exfalso
          apply ht
          rw [← hu]
          rfl
        | cons c u =>
          rw [← hu]
          simp
      refine ⟨hpre.trans hinit, ?_⟩
      rw [getElem?_of_initial _ _ hinit 2 hlen3]
      exact h2
  · exact Or.inr ((hd.trans ( List.take_prefix _ _)).trans (stripped_initial s))

/-- A call of `append_rule` of filterfs.c that returns has added at least one rule and at most
one rule for each path component of the pattern, one for a pattern without a component, and one
more for a pattern that begins with exactly two slashes once it is stripped (or that begins with
`///"/`). -/
theorem Filterfs.append_rule_fuel_components (env : Env) (a : Int) :
    ∀ (fuel : Nat) (st : Store) (s : CStr) (st2 : Store), NUL ∉ s → s ≠ [] →
      Filterfs.append_rule_fuel env fuel { st with mem := st.mem ++ [s ++ [NUL]] }
        ⟨st.mem.length, 0⟩ a = some st2 →
      st.size < st2.size ∧
        st2.size ≤ st.size + max 1 (path_components s) +
          (if two_slash_root (stripped s) = true ∨ ['/', '/', '/', QUOTE, '/'] <+: s then 1
            else 0) := by
  intro fuel
  induction fuel with
  | zero => intro st s st2 _ _ h; exact absurd h (by simp [Filterfs.append_rule_fuel])
  | succ fuel ih =>
    intro st s st2 hnul hs hret
    have hc : cstrAt s 0 = s := cstrAt_self s hnul
    rw [Filterfs.append_rule_fuel_succ] at hret
    cases h1 : store_rule { st with mem := st.mem ++ [s ++ [NUL]] } ⟨st.mem.length, 0⟩ a with
    | none => rw [h1] at hret; exact absurd hret (by simp)
    | some st1 =>
      obtain ⟨rule, _, hg, _, _, hstr, _⟩ := store_rule_dup_spec st st1 s a h1
      rw [hc] at hstr
      have hsize1 := hg.size
      rw [h1, Option.some_bind, hstr] at hret
      by_cases hcond : (Filterfs.parent_usable (Filterfs.dirname (stripped s)).2 &&
          env.is_dir (Filterfs.dirname (stripped s)).2) = true
      · rw [if_pos hcond] at hret
        rw [Bool.and_eq_true] at hcond
        obtain ⟨hpre, hdne, hdnul, _, _⟩ := Filterfs.parent_shorter s hnul hs hcond.1
        by_cases htwo : (Filterfs.dirname (stripped s)).1 = ['/', '/']
        · have hroot := Filterfs.dirname_two_slashes (stripped s) htwo
          rw [htwo] at hret
          obtain ⟨f, hf⟩ : ∃ f, fuel = f + 1 := by
            cases fuel with
            | zero => exact absurd hret (by simp [Filterfs.append_rule_fuel])
            | succ f => exact ⟨f, rfl⟩
          subst hf
          obtain ⟨st3, h3, hsz⟩ := Filterfs.append_rule_fuel_two_slashes env a f st1
          rw [h3] at hret
          simp only [Option.some.injEq] at hret
          subst hret
          rw [if_pos (Or.inl hroot)]
          omega
        · obtain ⟨r, hr0, hdir, hslash, hstop, hj⟩ :=
            Filterfs.dirname_parent (stripped s) hcond.1 htwo
          have hrlt : r < (stripped s).length := by
            rcases Nat.lt_or_ge r (stripped s).length with h | h
            · exact h
            · rw [List.getElem?_eq_none h] at hslash
              exact absurd hslash (by simp)
          have hd : (Filterfs.dirname (stripped s)).1 = (stripped s).take r := by rw [hdir]
          have hcomp1 := path_components_take (stripped s) r hslash hj
          have hcomp2 := path_components_le_of_initial s _ (stripped_initial s)
          have hcomp3 : 1 ≤ path_components ((stripped s).take r) := by
            have hlt1 : r - 1 < (stripped s).length := by omega
            apply path_components_pos
            refine ⟨(stripped s)[r - 1], ?_, ?_⟩
            · apply List.getElem?_mem (n := r - 1)
              rw [List.getElem?_take]
              rw [if_pos (by omega), List.getElem?_eq_getElem hlt1]
            · intro hcs
              apply hstop
              rw [List.getElem?_eq_getElem hlt1, hcs]
          obtain ⟨hlow, hup⟩ := ih st1 _ st2 hdnul hdne hret
          rw [hd] at hup
          refine ⟨by omega, ?_⟩
          by_cases hp2 : two_slash_root (stripped ((stripped s).take r)) = true ∨
              ['/', '/', '/', QUOTE, '/'] <+: (stripped s).take r
          · rw [if_pos hp2] at hup
            rw [if_pos (Filterfs.parent_two_slash_root s r hslash hstop hp2)]
            omega
          · rw [if_neg hp2] at hup
            split <;> omega
      · rw [if_neg hcond] at hret
        simp only [Option.some.injEq] at hret
        subst hret
        refine ⟨by omega, ?_⟩
        split <;> omega

/-- C25, as the code has it: for every file system, every store and every pattern `p` that is
not empty, the run of `append_rule(strdup(p), a)` of filterfs.c ends with a depth bound of one
more than the length of `p` (every inner call is on the parent `dirname` yields, a shorter
string): it returns, or it comes to an access outside a character array, and `append_rule`
returns what the run yields.  A call that returns has added at least one rule and at most one
rule for each path component of `p`, one for a pattern without a path component, and one more
when `p`, as `append_rule` strips it, begins with exactly two slashes (or when `p` begins with
`///"/`, whose parent `///"` is stripped down to "//").  The run returns unless `p` is one
quotation mark, or begins with a quotation mark and a slash while a directory named by one
quotation mark exists. -/
theorem Filterfs.append_rule_dup_terminates (env : Env) (st : Store) (p : CStr) (a : Int)
    (hnul : NUL ∉ p) (hp : p ≠ []) :
    ∃ out, Filterfs.append_rule_run env (p.length + 1)
        { st with mem := (strdup st.mem p).1 } (strdup st.mem p).2 a = some out ∧
      Filterfs.append_rule_dup env st p a = out ∧
      (∀ st2, out = some st2 → st.size < st2.size ∧
        st2.size ≤ st.size + max 1 (path_components p) +
          (if two_slash_root (stripped p) = true ∨ ['/', '/', '/', QUOTE, '/'] <+: p then 1
            else 0)) ∧
      (p ≠ [QUOTE] → (¬ [QUOTE, '/'] <+: p ∨ env.is_dir [QUOTE] = false) →
        out.isSome = true) := by
  obtain ⟨out, hout⟩ := Filterfs.append_rule_run_ends env a (p.length + 1) st p hnul hp
    (Nat.lt_succ_self _)
  have hdup : Filterfs.append_rule_dup env st p a = out := by
    unfold Filterfs.append_rule_dup Filterfs.append_rule strdup
    simp only [Mem.str_dup_new st.mem p hnul]
    rw [Filterfs.append_rule_fuel_run, hout]
    rfl
  refine ⟨out, hout, hdup, ?_, ?_⟩
  · intro st2 h2
    apply Filterfs.append_rule_fuel_components env a (p.length + 1) st p st2 hnul hp
    rw [Filterfs.append_rule_fuel_run, hout, h2]
    rfl
  · intro hq hub
    have hne := Filterfs.append_rule_run_returns env a (p.length + 1) st p hnul hp hq hub
    cases out with
    | none => exact absurd hout hne
    | some st2 => rfl

/-- Witness of C25 as amended: `append_rule("/a/b/c", 1)` in a world where every path is a
directory stores the three rules "/a/b/c", "/a/b" and "/a", one for each path component. -/
theorem Filterfs.append_rule_dup_terminates_witness :
    (Filterfs.append_rule_dup Example.env_all Store.empty "/a/b/c".toList 1).map
        (fun st => (st.size, (Filterfs.getRule st "/a/b/c".toList).isSome,
          (Filterfs.getRule st "/a/b".toList).isSome,
          (Filterfs.getRule st "/a".toList).isSome)) = some (3, true, true, true) ∧
    max 1 (path_components "/a/b/c".toList) +
      (if two_slash_root (stripped "/a/b/c".toList) = true ∨
          ['/', '/', '/', QUOTE, '/'] <+: "/a/b/c".toList then 1 else 0) = 3 ∧
    ∃ out, Filterfs.append_rule_run Example.env_all ("/a/b/c".toList.length + 1)
        { Store.empty with mem := (strdup Store.empty.mem "/a/b/c".toList).1 }
        (strdup Store.empty.mem "/a/b/c".toList).2 1 = some out ∧
      Filterfs.append_rule_dup Example.env_all Store.empty "/a/b/c".toList 1 = out ∧
      (∀ st2, out = some st2 → Store.empty.size < st2.size ∧
        st2.size ≤ Store.empty.size + max 1 (path_components "/a/b/c".toList) +
          (if two_slash_root (stripped "/a/b/c".toList) = true ∨
              ['/', '/', '/', QUOTE, '/'] <+: "/a/b/c".toList then 1 else 0)) ∧
      ("/a/b/c".toList ≠ [QUOTE] →
        (¬ [QUOTE, '/'] <+: "/a/b/c".toList ∨ Example.env_all.is_dir [QUOTE] = false) →
        out.isSome = true) :=
  ⟨by decide, by decide,
    Filterfs.append_rule_dup_terminates Example.env_all Store.empty "/a/b/c".toList 1
      (by decide) (by decide)⟩

/-- Counterexample to C25 as stated: the pattern "//a" has one path component, and with the root
the only directory `append_rule` of filterfs.c adds two rules for it, "//a" and "/": `dirname`
yields "//" for "//a", which passes the test made on the parent and is a directory.  The pattern
"///" has no path component and adds the two rules "//" and "/"; the pattern "/" has none and
adds one rule. -/
theorem Filterfs.append_rule_dup_terminates_counterexample :
    path_components "//a".toList = 1 ∧
    Filterfs.dirname "//a".toList = ("//".toList, "//".toList) ∧
    (Filterfs.append_rule_dup Example.env_root Store.empty "//a".toList 1).map
        (fun st => (st.size, (st.ht (calc_hash "//a".toList % HT_LENGTH)).map st.pat,
          (st.ht (calc_hash "/".toList % HT_LENGTH)).map st.pat)) =
      some (2, ["//a".toList], ["/".toList]) ∧
    path_components "///".toList = 0 ∧
    (Filterfs.append_rule_dup Example.env_root Store.empty "///".toList 1).map
        (fun st => (st.size, (st.ht (calc_hash "//".toList % HT_LENGTH)).map st.pat,
          (st.ht (calc_hash "/".toList % HT_LENGTH)).map st.pat)) =
      some (2, ["//".toList], ["/".toList]) ∧
    path_components "/".toList = 0 ∧
    (Filterfs.append_rule_dup Example.env_root Store.empty "/".toList 1).map
        (fun st => st.size) = some 1 := by
  refine ⟨?_, ?_, ?_, ?_, ?_, ?_, ?_⟩ <;> decide

/-! ## Strings in a character array under writes of NUL -/

/-- Writing a NUL into a character array shortens the strings in it or leaves them alone. -/
theorem cstrAt_set_nul (b : Buffer) (k off : Nat) : cstrAt (b.set k NUL) off <+: cstrAt b off := by
  unfold cstrAt
  induction b generalizing k off with
  | nil => simp
  | cons c t ih =>
    cases off with
    | zero =>
      cases k with
      | zero =>
        simp only [List.set_cons_zero, List.drop_zero, List.takeWhile_cons, ne_eq,
          not_true_eq_false, decide_False]
        exact List.nil_prefix
      | succ k =>
        simp only [List.set_cons_succ, List.drop_zero, List.takeWhile_cons]
        have h := ih k 0
        simp only [List.drop_zero] at h
        split
        · exact (List.prefix_cons_inj c).mpr h
        · exact List.nil_prefix
    | succ off =>
      cases k with
      | zero =>
        simp only [List.set_cons_zero, List.drop_succ_cons]
        exact List.prefix_refl _
      | succ k =>
        simp only [List.set_cons_succ, List.drop_succ_cons]
        exact ih k off

/-- In an array that ends in NUL every string ends inside the array. -/
theorem cstrAt_end_lt (b : Buffer) (off : Nat) (hterm : b.getLast? = some NUL)
    (hoff : off < b.length) : off + (cstrAt b off).length < b.length := by
  unfold cstrAt
  induction b generalizing off with
  | nil => simp at hoff
  | cons c t ih =>
    cases off with
    | zero =>
      simp only [List.drop_zero, List.takeWhile_cons, Nat.zero_add]
      split
      · rename_i hc
        cases t with
        | nil =>
          simp only [List.getLast?_singleton, Option.some.injEq] at hterm
          simp [hterm] at hc
        | cons d t =>
          have hterm2 : (d :: t).getLast? = some NUL := by
            rw [List.getLast?_cons_cons] at hterm
            exact hterm
          have h := ih 0 hterm2 (by simp)
          simp only [List.drop_zero, Nat.zero_add] at h
          simp only [List.length_cons] at h ⊢
          omega
      · simp
    | succ off =>
      cases t with
      | nil => simp at hoff
      | cons d t =>
        have hterm2 : (d :: t).getLast? = some NUL := by
          rw [List.getLast?_cons_cons] at hterm
          exact hterm
        have h := ih off hterm2 (by simp at hoff ⊢; omega)
        simp only [List.drop_succ_cons, List.length_cons] at h ⊢
        omega

/-- Writing a NUL keeps the NUL at the end of an array. -/
theorem getLast_set_nul (b : Buffer) (k : Nat) (hterm : b.getLast? = some NUL) :
    (b.set k NUL).getLast? = some NUL := by
  have hne : b ≠ [] := by
    intro h
    rw [h] at hterm
    exact absurd hterm (by simp)
  have hlt : b.length - 1 < b.length := Nat.sub_lt (List.length_pos.mpr hne) Nat.one_pos
  rw [List.getLast?_eq_getElem?] at hterm ⊢
  rw [List.length_set, List.getElem?_set]
  by_cases hk : k = b.length - 1
  · rw [if_pos hk, if_pos (by rw [hk]; exact hlt)]
  · rw [if_neg hk]
    exact hterm

theorem Nulled.nulled_refl (b : Buffer) : Nulled b b :=
  ⟨rfl, fun h => h, fun _ => List.prefix_refl _⟩

theorem Nulled.nulled_trans {b b1 b2 : Buffer} (h1 : Nulled b b1) (h2 : Nulled b1 b2) : Nulled b b2 :=
  ⟨h2.1.trans h1.1, fun h => h2.2.1 (h1.2.1 h), fun off => (h2.2.2 off).trans (h1.2.2 off)⟩

theorem Nulled.nulled_set (b : Buffer) (k : Nat) : Nulled b (b.set k NUL) :=
  ⟨List.length_set _ _ _, getLast_set_nul b k, cstrAt_set_nul b k⟩

theorem Nulled.of_poke {b b1 : Buffer} {off : Nat} {i : Int}
    (h : poke b off i NUL = some b1) : Nulled b b1 := by
  unfold poke at h
  split at h
  · simp only [Option.some.injEq] at h
    rw [← h]
    exact Nulled.nulled_set b _
  · exact absurd h (by simp)

/-- The stripping steps of `append_rule` only overwrite characters with NUL, and
`rule->pattern` is `pattern` or one character on. -/
theorem strip_pattern_nulled (b b1 : Buffer) (off roff : Nat)
    (h : strip_pattern b off = some (b1, roff)) :
    Nulled b b1 ∧ (roff = off ∨ roff = off + 1) := by
  unfold strip_pattern at h
  simp only [Option.bind_eq_some, Option.map_eq_some', Prod.mk.injEq] at h
  obtain ⟨q, hq, b2, hs, hb, hr⟩ := h
  subst hb hr
  have hq2 : Nulled b q.1 ∧ (q.2.1 = off ∨ q.2.1 = off + 1) := by
    unfold strip_quotes at hq
    cases hp0 : peek b off 0 with
    | none => simp [hp0] at hq
    | some c0 =>
      by_cases hc : c0 = QUOTE
      · simp only [hp0, hc, Option.bind_eq_bind, Option.some_bind, if_true,
          Option.map_eq_some'] at hq
        obtain ⟨b3, hp, hq⟩ := hq
        rw [← hq]
        exact ⟨Nulled.of_poke hp, Or.inr rfl⟩
      · simp only [hp0, hc, Option.bind_eq_bind, Option.some_bind, if_false,
          Option.bind_eq_some, Option.map_eq_some'] at hq
        obtain ⟨quoted, _, hq⟩ := hq
        by_cases hy : quoted = true
        · rw [if_pos hy] at hq
          simp only [Option.map_eq_some'] at hq
          obtain ⟨b3, hp, hq⟩ := hq
          rw [← hq]
          exact ⟨Nulled.of_poke hp, Or.inr rfl⟩
        · rw [if_neg hy] at hq
          simp only [Option.some.injEq] at hq
          rw [← hq]
          exact ⟨Nulled.nulled_refl b, Or.inl rfl⟩
  have hs2 : Nulled q.1 b2 := by
    unfold strip_slash at hs
    simp only [Option.bind_eq_bind, Option.bind_eq_some] at hs
    obtain ⟨c1, _, hs⟩ := hs
    by_cases hc : c1 = '/'
    · rw [if_pos hc] at hs
      exact Nulled.of_poke hs
    · rw [if_neg hc] at hs
      simp only [Option.some.injEq] at hs
      rw [← hs]
      exact Nulled.nulled_refl _
  exact ⟨hq2.1.nulled_trans hs2, hq2.2⟩

/-! ## The stripping steps inside a longer array -/

theorem cstrAt_shift (pre c : List Char) (k : Nat) :
    cstrAt (pre ++ c) (pre.length + k) = cstrAt c k := by
  unfold cstrAt
  rw [List.drop_append]

theorem cstrAt_shift_zero (pre c : List Char) : cstrAt (pre ++ c) pre.length = cstrAt c 0 := by
  have h := cstrAt_shift pre c 0
  rw [Nat.add_zero] at h
  exact h

theorem peek_shift (pre c : List Char) (i : Int) (hi : 0 ≤ i) :
    peek (pre ++ c) pre.length i = peek c 0 i := by
  unfold peek
  have h1 : (0 : Int) ≤ (pre.length : Int) + i := by omega
  have h2 : (0 : Int) ≤ ((0 : Nat) : Int) + i := by omega
  have h3 : ((pre.length : Int) + i).toNat = pre.length + i.toNat := by omega
  have h4 : (((0 : Nat) : Int) + i).toNat = i.toNat := by omega
  rw [if_pos h1, if_pos h2, h3, h4, List.getElem?_append_right (Nat.le_add_right _ _),
    Nat.add_sub_cancel_left]

theorem poke_shift (pre c : List Char) (i : Int) (x : Char) (hi : 0 ≤ i) :
    poke (pre ++ c) pre.length i x = (poke c 0 i x).map (fun c1 => pre ++ c1) := by
  unfold poke
  have h3 : ((pre.length : Int) + i).toNat = pre.length + i.toNat := by omega
  have h4 : (((0 : Nat) : Int) + i).toNat = i.toNat := by omega
  rw [h3, h4]
  by_cases hlt : i.toNat < c.length
  · have h1 : (0 : Int) ≤ (pre.length : Int) + i ∧
        pre.length + i.toNat < (pre ++ c).length := by
      rw [List.length_append]
      constructor <;> omega
    have h2 : (0 : Int) ≤ ((0 : Nat) : Int) + i ∧ i.toNat < c.length := by
      constructor <;> omega
    rw [if_pos h1, if_pos h2, Option.map_some']
    congr 1
    rw [List.set_append_right _ _ (Nat.le_add_right _ _), Nat.add_sub_cancel_left]
  · have h1 : ¬ ((0 : Int) ≤ (pre.length : Int) + i ∧
        pre.length + i.toNat < (pre ++ c).length) := by
      rw [List.length_append]
      intro h
      omega
    have h2 : ¬ ((0 : Int) ≤ ((0 : Nat) : Int) + i ∧ i.toNat < c.length) := fun h => hlt h.2
    rw [if_neg h1, if_neg h2]
    rfl

theorem strip_slash_shift (pre c : List Char) (pl : Int) (hpl : 1 ≤ pl) :
    strip_slash (pre ++ c) pre.length pl = (strip_slash c 0 pl).map (fun c1 => pre ++ c1) := by
  unfold strip_slash
  rw [peek_shift pre c (pl - 1) (by omega), poke_shift pre c (pl - 1) NUL (by omega)]
  cases peek c 0 (pl - 1) with
  | none => rfl
  | some c1 =>
    by_cases h : c1 = '/'
    · simp [h]
    · simp [h]

theorem strip_quotes_shift (pre c : List Char) (hne : cstrAt c 0 ≠ []) :
    strip_quotes (pre ++ c) pre.length =
      (strip_quotes c 0).map (fun q => (pre ++ q.1, pre.length + q.2.1, q.2.2)) := by
  have hlen : (1 : Int) ≤ ((cstrAt c 0).length : Int) := by
    have := List.length_pos.mpr hne
    omega
  have hx : (0 : Int) ≤ ((cstrAt c 0).length : Int) - 1 := by omega
  unfold strip_quotes
  simp only [cstrAt_shift_zero, peek_shift pre c 0 (le_refl _), peek_shift pre c _ hx,
    poke_shift pre c _ NUL hx]
  cases peek c 0 0 with
  | none => rfl
  | some c0 =>
    by_cases hc : c0 = QUOTE
    · simp only [hc, Option.bind_eq_bind, Option.some_bind, if_true]
      cases poke c 0 (((cstrAt c 0).length : Int) - 1) NUL <;> simp
    · simp only [hc, Option.bind_eq_bind, Option.some_bind, if_false]
      cases peek c 0 (((cstrAt c 0).length : Int) - 1) with
      | none => rfl
      | some cl =>
        by_cases hl : cl = QUOTE
        · simp only [hl, Option.map_some', decide_True, Option.some_bind, if_true]
          cases poke c 0 (((cstrAt c 0).length : Int) - 1) NUL <;> simp
        · simp [hl]

/-- The stripping steps of `append_rule` on a string inside a longer array, when something is
left of the string once it is unquoted: only the part of the array from the string on is
looked at. -/
theorem strip_pattern_shift (pre s pad : List Char) (hs : NUL ∉ s)
    (hpad : pad.head? = some NUL) (hu : unquoted s ≠ []) :
    strip_pattern (pre ++ (s ++ pad)) pre.length =
      (strip_pattern (s ++ pad) 0).map (fun r => (pre ++ r.1, pre.length + r.2)) := by
  have hs0 : s ≠ [] := by
    intro h
    apply hu
    rw [h]
    rfl
  have hc : cstrAt (s ++ pad) 0 = s := cstrAt_append s pad hs (Or.inl hpad)
  have hlen : 0 < s.length := List.length_pos.mpr hs0
  unfold strip_pattern
  rw [strip_quotes_shift pre (s ++ pad) (by rw [hc]; exact hs0), strip_quotes_dup s pad hs hpad,
    if_neg hs0]
  by_cases hq : is_quoted s = true
  · have hd : s.dropLast ≠ [] := by
      intro h
      apply hu
      unfold unquoted
      rw [if_pos hq, h]
    have hdl : 0 < s.dropLast.length := List.length_pos.mpr hd
    rw [List.length_dropLast] at hdl
    have hpl : (1 : Int) ≤ (s.length : Int) - 1 := by omega
    simp only [hq, if_true, Option.map_some', Option.some_bind]
    rw [strip_slash_shift pre _ _ hpl, Option.map_map, Option.map_map]
    rfl
  · have hpl : (1 : Int) ≤ (s.length : Int) := by omega
    simp only [hq, Bool.false_eq_true, if_false, Option.map_some', Option.some_bind]
    rw [strip_slash_shift pre _ _ hpl, Option.map_map, Option.map_map]
    rfl

/-- The stripping steps of `append_rule` on a string inside a longer array, in closed form. -/
theorem strip_pattern_at (pre s pad : List Char) (hs : NUL ∉ s)
    (hpad : pad.head? = some NUL) (hu : unquoted s ≠ []) :
    strip_pattern (pre ++ (s ++ pad)) pre.length =
      some (pre ++ (stripped s ++ List.replicate (s.length - (stripped s).length) NUL ++ pad),
        pre.length + rule_off s) := by
  rw [strip_pattern_shift pre s pad hs hpad hu, strip_pattern_dup s pad hs hpad, if_neg hu]
  rfl

theorem peek_neg_one (b : Buffer) (off : Nat) :
    peek b off (-1) = if off = 0 then none else b[off - 1]? := by
  unfold peek
  by_cases h : off = 0
  · subst h
    simp
  · have h1 : (0 : Int) ≤ (off : Int) + -1 := by omega
    have h2 : ((off : Int) + -1).toNat = off - 1 := by omega
    rw [if_pos h1, h2, if_neg h]

theorem peek_zero (b : Buffer) (off : Nat) : peek b off 0 = b[off]? := by
  unfold peek
  simp

/-- The first character of an empty string is the NUL, when it lies in the array. -/
theorem cstrAt_nil_head (b : Buffer) (off : Nat) (c : Char) (hs : cstrAt b off = [])
    (hc : b[off]? = some c) : c = NUL := by
  unfold cstrAt at hs
  have hd : b.drop off = c :: b.drop (off + 1) := by
    have hlt : off < b.length := by
      rcases Nat.lt_or_ge off b.length with h | h
      · exact h
      · rw [List.getElem?_eq_none h] at hc
        exact absurd hc (by simp)
    rw [List.getElem?_eq_getElem hlt] at hc
    rw [List.drop_eq_getElem_cons hlt, Option.some.inj hc]
  rw [hd, List.takeWhile_cons] at hs
  by_contra hne
  simp [hne] at hs

/-- A string that is not empty is its first character followed by the string one character
on. -/
theorem cstrAt_succ (b : Buffer) (off : Nat) (hs : cstrAt b off ≠ []) :
    cstrAt b (off + 1) = (cstrAt b off).drop 1 := by
  unfold cstrAt at hs ⊢
  rcases Nat.lt_or_ge off b.length with hlt | hge
  · rw [List.drop_eq_getElem_cons hlt] at hs ⊢
    rw [List.takeWhile_cons] at hs ⊢
    split
    · rfl
    · rename_i hc
      rw [if_neg hc] at hs
      exact absurd rfl hs
  · rw [List.drop_eq_nil_of_le hge] at hs
    exact absurd rfl hs

/-- On an empty string that follows a NUL the first `if` of `append_rule` finds no quotation
mark. -/
theorem strip_quotes_empty (b : Buffer) (off : Nat) (q : Buffer × Nat × Int)
    (hs : cstrAt b off = []) (hpre : off = 0 ∨ b[off - 1]? = some NUL)
    (h : strip_quotes b off = some q) : q.2.1 = off := by
  unfold strip_quotes at h
  simp only [hs, List.length_nil, Nat.cast_zero, zero_sub, peek_zero, peek_neg_one] at h
  cases hp0 : b[off]? with
  | none => simp [hp0] at h
  | some c0 =>
    have hc0 : c0 = NUL := cstrAt_nil_head b off c0 hs hp0
    have hnq : NUL ≠ QUOTE := by decide
    subst hc0
    simp only [hp0, Option.bind_eq_bind, Option.some_bind, hnq, if_false] at h
    by_cases hoff : off = 0
    · simp [hoff] at h
    · rcases hpre with h0 | h1
      · exact absurd h0 hoff
      · simp only [hoff, if_false, h1, Option.map_some', hnq, decide_False, Option.some_bind,
          Bool.false_eq_true, Option.some.injEq] at h
        rw [← h]

theorem dropWhile_head (l : List Char) :
    (l.dropWhile (fun c => decide (c ≠ NUL))) = [] ∨
      (l.dropWhile (fun c => decide (c ≠ NUL))).head? = some NUL := by
  induction l with
  | nil => exact Or.inl rfl
  | cons c t ih =>
    rw [List.dropWhile_cons]
    split
    · exact ih
    · rename_i hc
      right
      have : c = NUL := by simpa using hc
      rw [this]
      rfl

/-- An array that ends in NUL splits at any offset inside it into what lies before, the string
at the offset and a rest that begins with the NUL ending the string. -/
theorem buffer_split (b : Buffer) (off : Nat) (hterm : b.getLast? = some NUL)
    (hoff : off < b.length) :
    ∃ pad, pad.head? = some NUL ∧ b = b.take off ++ (cstrAt b off ++ pad) := by
  have hlt := cstrAt_end_lt b off hterm hoff
  refine ⟨(b.drop off).dropWhile (fun c => decide (c ≠ NUL)), ?_, ?_⟩
  · rcases dropWhile_head (b.drop off) with h | h
    · exfalso
      have h2 := congrArg List.length
        (List.takeWhile_append_dropWhile (fun c => decide (c ≠ NUL)) (b.drop off))
      rw [List.length_append, h, List.length_nil, List.length_drop] at h2
      unfold cstrAt at hlt
      omega
    · exact h
  · unfold cstrAt
    rw [List.takeWhile_append_dropWhile, List.take_append_drop]

/-- A string of which nothing is left once it is unquoted is empty or one quotation mark. -/
theorem unquoted_eq_nil (s : CStr) (h : unquoted s = []) : s = [] ∨ s = [QUOTE] := by
  by_cases hs : s = []
  · exact Or.inl hs
  · by_cases hq : s = [QUOTE]
    · exact Or.inr hq
    · exact absurd h (unquoted_ne_nil_of_ne s hs hq)

/-- The pattern a rule is given has no wildcard when the string `append_rule` tests has none:
for a string in an array that ends in NUL, at the start of the array or behind a NUL. -/
theorem strip_pattern_new_literal (b b1 : Buffer) (off roff : Nat)
    (hterm : b.getLast? = some NUL) (hoff : off < b.length)
    (hpre : off = 0 ∨ b[off - 1]? = some NUL)
    (h : strip_pattern b off = some (b1, roff))
    (hw : has_wildcard (cstrAt b1 off) = false) : has_wildcard (cstrAt b1 roff) = false := by
  obtain ⟨hnulled, hroff⟩ := strip_pattern_nulled b b1 off roff h
  rcases hroff with hroff | hroff
  · rw [hroff]
    exact hw
  · obtain ⟨pad, hpad, hsplit⟩ := buffer_split b off hterm hoff
    have hprelen : (b.take off).length = off := by
      rw [List.length_take]
      exact Nat.min_eq_left (Nat.le_of_lt hoff)
    have hnul : NUL ∉ cstrAt b off := not_nul_mem_cstrAt b off
    by_cases hu : unquoted (cstrAt b off) = []
    · rcases unquoted_eq_nil _ hu with hs | hs
      · exfalso
        unfold strip_pattern at h
        simp only [Option.bind_eq_some, Option.map_eq_some', Prod.mk.injEq] at h
        obtain ⟨q, hq, _, _, _, hr⟩ := h
        have := strip_quotes_empty b off q hs hpre hq
        omega
      · have hpre1 := hnulled.2.2 (off + 1)
        have hb1 : cstrAt b (off + 1) = [] := by
          have h1 : cstrAt b (off + 1) = cstrAt (cstrAt b off ++ pad) 1 := by
            have h2 := cstrAt_shift (b.take off) (cstrAt b off ++ pad) 1
            rw [hprelen, ← hsplit] at h2
            exact h2
          rw [h1, hs]
          cases pad with
          | nil => simp at hpad
          | cons p pad =>
            simp only [List.head?_cons, Option.some.injEq] at hpad
            subst hpad
            simp [cstrAt]
        rw [hb1] at hpre1
        rw [hroff, List.prefix_nil.mp hpre1]
        rfl
    · have hclosed := strip_pattern_at (b.take off) (cstrAt b off) pad hnul hpad hu
      rw [← hsplit, hprelen, h] at hclosed
      simp only [Option.some.injEq, Prod.mk.injEq] at hclosed
      obtain ⟨hb1, hro⟩ := hclosed
      have hro1 : rule_off (cstrAt b off) = 1 := by omega
      have hq : is_quoted (cstrAt b off) = true := by
        unfold rule_off at hro1
        by_contra hq
        rw [if_neg hq] at hro1
        exact absurd hro1 (by decide)
      have hns : NUL ∉ stripped (cstrAt b off) :=
        not_nul_of_initial _ _ (stripped_initial _) hnul
      have hk : stripped (cstrAt b off) = [] →
          2 ≤ (cstrAt b off).length - (stripped (cstrAt b off)).length := by
        intro h0
        rw [h0, List.length_nil, Nat.sub_zero]
        have hd : (cstrAt b off).dropLast ≠ [] := by
          intro h1
          apply hu
          unfold unquoted
          rw [if_pos hq, h1]
        have := List.length_pos.mpr hd
        rw [List.length_dropLast] at this
        omega
      have hat0 : cstrAt b1 off = stripped (cstrAt b off) := by
        rw [hb1]
        have h2 := cstrAt_shift_zero (b.take off)
          (stripped (cstrAt b off) ++
            List.replicate ((cstrAt b off).length - (stripped (cstrAt b off)).length) NUL ++
            pad)
        rw [hprelen] at h2
        rw [h2]
        exact cstrAt_zero_pad _ pad _ hns hpad
      have hat1 : cstrAt b1 (off + 1) = (stripped (cstrAt b off)).drop 1 := by
        rw [hb1]
        have h2 := cstrAt_shift (b.take off)
          (stripped (cstrAt b off) ++
            List.replicate ((cstrAt b off).length - (stripped (cstrAt b off)).length) NUL ++
            pad) 1
        rw [hprelen] at h2
        rw [h2]
        exact cstrAt_one_pad _ pad _ hns hpad hk
      rw [hat0] at hw
      rw [hroff, hat1]
      exact has_wildcard_drop _ 1 hw

/-! ## The table holds no wildcard pattern, however the store is built -/

theorem MemGrows.refl (m : Mem) : MemGrows m m :=
  ⟨Nat.le_refl _, fun _ _ => Nulled.nulled_refl _⟩

theorem MemGrows.trans {m m1 m2 : Mem} (h1 : MemGrows m m1) (h2 : MemGrows m1 m2) :
    MemGrows m m2 :=
  ⟨Nat.le_trans h1.1 h2.1,
    fun k hk => (h1.2 k hk).nulled_trans (h2.2 k (Nat.lt_of_lt_of_le hk h1.1))⟩

theorem MemGrows.append (m : Mem) (x : Buffer) : MemGrows m (m ++ [x]) := by
  refine ⟨by simp, fun k hk => ?_⟩
  simp only [List.getD_eq_getElem?_getD, List.getElem?_append_left hk]
  exact Nulled.nulled_refl _

theorem MemGrows.set (m : Mem) (k : Nat) (b1 : Buffer) (h : Nulled (m.getD k []) b1) :
    MemGrows m (m.set k b1) := by
  refine ⟨by simp, fun j hj => ?_⟩
  by_cases hjk : k = j
  · subst hjk
    simp only [List.getD_eq_getElem?_getD, List.getElem?_set_self hj, Option.getD_some]
    simpa [List.getD_eq_getElem?_getD] using h
  · simp only [List.getD_eq_getElem?_getD, List.getElem?_set_ne hjk]
    exact Nulled.nulled_refl _

/-- A string read through an old pointer is an initial part of what it was. -/
theorem MemGrows.str {m m1 : Mem} (h : MemGrows m m1) (p : Ptr) (hp : p.buf < m.length) :
    Mem.str m1 p <+: Mem.str m p := (h.2 p.buf hp).2.2 p.off

theorem Mem.str_set_self (m : Mem) (k : Nat) (b1 : Buffer) (off : Nat) (hk : k < m.length) :
    Mem.str (m.set k b1) ⟨k, off⟩ = cstrAt b1 off := by
  unfold Mem.str
  simp only [List.getD_eq_getElem?_getD, List.getElem?_set_self hk, Option.getD_some]

/-- An old rule of the table keeps a pattern without wildcard when memory is only overwritten
with NUL or grows. -/
theorem literal_of_grows {m m1 : Mem} (h : MemGrows m m1) (r : Rule)
    (hr : r.pattern.buf < m.length) (hw : has_wildcard (Mem.str m r.pattern) = false) :
    has_wildcard (Mem.str m1 r.pattern) = false :=
  has_wildcard_of_initial _ _ (h.str r.pattern hr) hw

/-- The part of `append_rule` both programs share keeps the invariant of the store. -/
theorem store_rule_ok : CallOk store_rule := by
  intro st p a st1 hlit hvalid h
  obtain ⟨hbuf, hoff, hpre⟩ := hvalid
  unfold store_rule at h
  simp only [Option.bind_eq_bind, Option.bind_eq_some, Option.some.injEq] at h
  obtain ⟨b, hb, ⟨b1, roff⟩, hstrip, hst1⟩ := h
  have hbD : st.mem.getD p.buf [] = b := by
    simp only [List.getD_eq_getElem?_getD, hb, Option.getD_some]
  rw [hbD] at hoff hpre
  have hbmem : b ∈ st.mem := List.getElem?_mem hb
  have hterm := hlit.terminated b hbmem
  obtain ⟨hnulled, _⟩ := strip_pattern_nulled b b1 p.off roff hstrip
  have hgrows : MemGrows st.mem (st.mem.set p.buf b1) :=
    MemGrows.set st.mem p.buf b1 (by rw [hbD]; exact hnulled)
  have hnew : has_wildcard (Mem.str (st.mem.set p.buf b1) p) = false →
      has_wildcard (Mem.str (st.mem.set p.buf b1) ⟨p.buf, roff⟩) = false := by
    intro hw
    have hp : p = ⟨p.buf, p.off⟩ := rfl
    rw [hp, Mem.str_set_self _ _ _ _ hbuf] at hw
    rw [Mem.str_set_self _ _ _ _ hbuf]
    exact strip_pattern_new_literal b b1 p.off roff hterm hoff hpre hstrip hw
  obtain ⟨hmem, hroute⟩ := route_rule_cases st (st.mem.set p.buf b1) p ⟨⟨p.buf, roff⟩, a⟩
  rw [hst1] at hmem hroute
  have hlen : st1.mem.length = st.mem.length := by rw [hmem, List.length_set]
  refine ⟨⟨⟨?_, ?_⟩, ?_, ?_⟩, by rw [hmem]; exact hgrows⟩
  · intro i r hr
    rw [hlen]
    rcases hroute with ⟨_, _, hht⟩ | ⟨_, _, hht⟩
    · rw [hht] at hr
      exact hlit.alloc.ht_alloc i r hr
    · rw [hht] at hr
      by_cases hi : i = calc_hash (Mem.str (st.mem.set p.buf b1) ⟨p.buf, roff⟩) % HT_LENGTH
      · rw [hi, Function.update_same] at hr
        rcases List.mem_append.mp hr with h1 | h1
        · exact hlit.alloc.ht_alloc _ r h1
        · rw [List.mem_singleton.mp h1]
          exact hbuf
      · rw [Function.update_noteq hi] at hr
        exact hlit.alloc.ht_alloc i r hr
  · intro r hr
    rw [hlen]
    rcases hroute with ⟨_, hch, _⟩ | ⟨_, hch, _⟩
    · rw [hch] at hr
      rcases List.mem_append.mp hr with h1 | h1
      · exact hlit.alloc.chain_alloc r h1
      · rw [List.mem_singleton.mp h1]
        exact hbuf
    · rw [hch] at hr
      exact hlit.alloc.chain_alloc r hr
  · intro b2 hb2
    rw [hmem] at hb2
    rcases List.mem_or_eq_of_mem_set hb2 with h1 | h1
    · exact hlit.terminated b2 h1
    · rw [h1]
      exact hnulled.2.1 hterm
  · intro i r hr
    have hold : ∀ r2 ∈ st.ht i, has_wildcard (st1.pat r2) = false := by
      intro r2 hr2
      unfold Store.pat
      rw [hmem]
      exact literal_of_grows hgrows r2 (hlit.alloc.ht_alloc i r2 hr2) (hlit.literal i r2 hr2)
    rcases hroute with ⟨_, _, hht⟩ | ⟨hw, _, hht⟩
    · rw [hht] at hr
      exact hold r hr
    · rw [hht] at hr
      by_cases hi : i = calc_hash (Mem.str (st.mem.set p.buf b1) ⟨p.buf, roff⟩) % HT_LENGTH
      · rw [hi, Function.update_same] at hr
        rcases List.mem_append.mp hr with h1 | h1
        · exact hold r (by rw [hi]; exact h1)
        · rw [List.mem_singleton.mp h1]
          unfold Store.pat
          rw [hmem]
          exact hnew hw
      · rw [Function.update_noteq hi] at hr
        exact hold r hr

/-- Allocating an array that ends in NUL keeps the invariant of the store, and the start of the
new array is a valid pointer. -/
theorem Store.Literal.strdup {st : Store} (h : st.Literal) (x : Buffer)
    (hx : x.getLast? = some NUL) :
    ({ st with mem := st.mem ++ [x] } : Store).Literal ∧
      ({ st with mem := st.mem ++ [x] } : Store).Valid ⟨st.mem.length, 0⟩ := by
  have hne : x ≠ [] := by
    intro h0
    rw [h0] at hx
    exact absurd hx (by simp)
  refine ⟨⟨⟨?_, ?_⟩, ?_, ?_⟩, ?_, ?_, Or.inl rfl⟩
  · intro i r hr
    have := h.alloc.ht_alloc i r hr
    simp only [List.length_append, List.length_singleton]
    omega
  · intro r hr
    have := h.alloc.chain_alloc r hr
    simp only [List.length_append, List.length_singleton]
    omega
  · intro b hb
    rcases List.mem_append.mp hb with h1 | h1
    · exact h.terminated b h1
    · rw [List.mem_singleton.mp h1]
      exact hx
  · intro i r hr
    unfold Store.pat
    simp only []
    rw [Mem.str_append_of_lt _ _ _ (h.alloc.ht_alloc i r hr)]
    exact h.literal i r hr
  · simp
  · simp only [List.getD_eq_getElem?_getD, List.getElem?_append_right (Nat.le_refl _),
      Nat.sub_self, List.getElem?_cons_zero, Option.getD_some]
    exact List.length_pos.mpr hne

theorem getLast_append_nul (s : List Char) : (s ++ [NUL]).getLast? = some NUL := by
  simp

/-- Function `append_rule` of filterfs.c keeps the invariant of the store, whatever the fuel. -/
theorem Filterfs.append_rule_fuel_ok (env : Env) :
    ∀ fuel, CallOk (Filterfs.append_rule_fuel env fuel) := by
  intro fuel
  induction fuel with
  | zero =>
    intro st p a st1 _ _ h
    simp [Filterfs.append_rule_fuel] at h
  | succ fuel ih =>
    intro st p a st2 hlit hvalid h
    rw [Filterfs.append_rule_fuel_succ] at h
    simp only [Option.bind_eq_some] at h
    obtain ⟨st1, h1, h⟩ := h
    obtain ⟨hlit1, hg1⟩ := store_rule_ok st p a st1 hlit hvalid h1
    split at h
    · obtain ⟨hlit1x, hvalid1x⟩ := hlit1.strdup
        ((Filterfs.dirname (st1.mem.str p)).1 ++ [NUL]) (getLast_append_nul _)
      obtain ⟨hlit2, hg2⟩ := ih _ _ a st2 hlit1x hvalid1x h
      exact ⟨hlit2, hg1.trans ((MemGrows.append st1.mem _).trans hg2)⟩
    · simp only [Option.some.injEq] at h
      rw [← h]
      exact ⟨hlit1, hg1⟩

theorem Filterfs.append_rule_ok (env : Env) : CallOk (Filterfs.append_rule env) := by
  intro st p a st1 hlit hvalid h
  exact Filterfs.append_rule_fuel_ok env _ st p a st1 hlit hvalid h

theorem Sparsefs.sparse_append_rule_ok : CallOk Sparsefs.append_rule := store_rule_ok

/-- The loop of `append_rules` keeps the invariant of the store when `append_rule` does. -/
theorem append_rules_with_ok (call : Store → Ptr → Int → Option Store) (hcall : CallOk call) :
    ∀ fuel, CallOk (append_rules_with call fuel) := by
  intro fuel
  induction fuel with
  | zero =>
    intro st p a st1 _ _ h
    simp [append_rules_with] at h
  | succ fuel ih =>
    intro st p a st2 hlit hvalid h
    rw [append_rules_with] at h
    simp only [Option.bind_eq_bind, Option.bind_eq_some] at h
    obtain ⟨st1, h1, h⟩ := h
    obtain ⟨hlit1, hg1⟩ := hcall st p a st1 hlit hvalid h1
    obtain ⟨hbuf, hoff, _⟩ := hvalid
    have hbuf1 : p.buf < st1.mem.length := Nat.lt_of_lt_of_le hbuf hg1.1
    have hnulled := hg1.2 p.buf hbuf
    have hoff1 : p.off < (st1.mem.getD p.buf []).length := by
      rw [hnulled.1]
      exact hoff
    have hbmem : st1.mem.getD p.buf [] ∈ st1.mem := by
      simp only [List.getD_eq_getElem?_getD]
      rw [List.getElem?_eq_getElem hbuf1, Option.getD_some]
      exact List.getElem_mem _
    have hterm1 := hlit1.terminated _ hbmem
    split at h
    · rename_i hcolon
      have hidx : List.indexOf ':' (cstrAt (st1.mem.getD p.buf []) p.off) <
          (cstrAt (st1.mem.getD p.buf []) p.off).length := List.indexOf_lt_length.mpr hcolon
      have hend := cstrAt_end_lt _ p.off hterm1 hoff1
      have hgset : MemGrows st1.mem (st1.mem.set p.buf ((st1.mem.getD p.buf []).set
          (p.off + List.indexOf ':' (cstrAt (st1.mem.getD p.buf []) p.off)) NUL)) :=
        MemGrows.set _ _ _ (Nulled.nulled_set _ _)
      have hlitc : ({ st1 with mem := st1.mem.set p.buf ((st1.mem.getD p.buf []).set
          (p.off + List.indexOf ':' (cstrAt (st1.mem.getD p.buf []) p.off)) NUL) } :
          Store).Literal := by
        refine ⟨⟨?_, ?_⟩, ?_, ?_⟩
        · intro i r hr
          simp only [List.length_set]
          exact hlit1.alloc.ht_alloc i r hr
        · intro r hr
          simp only [List.length_set]
          exact hlit1.alloc.chain_alloc r hr
        · intro b2 hb2
          rcases List.mem_or_eq_of_mem_set hb2 with h3 | h3
          · exact hlit1.terminated b2 h3
          · rw [h3]
            exact getLast_set_nul _ _ hterm1
        · intro i r hr
          exact literal_of_grows hgset r (hlit1.alloc.ht_alloc i r hr) (hlit1.literal i r hr)
      have hvalidc : ({ st1 with mem := st1.mem.set p.buf ((st1.mem.getD p.buf []).set
          (p.off + List.indexOf ':' (cstrAt (st1.mem.getD p.buf []) p.off)) NUL) } :
          Store).Valid
          ⟨p.buf, p.off + List.indexOf ':' (cstrAt (st1.mem.getD p.buf []) p.off) + 1⟩ := by
        unfold Store.Valid
        simp only [List.length_set, List.getD_eq_getElem?_getD, List.getElem?_set_self hbuf1,
          Option.getD_some, Nat.add_sub_cancel]
        refine ⟨hbuf1, ?_, Or.inr ?_⟩
        · simp only [List.getD_eq_getElem?_getD] at hend hidx
          omega
        · rw [List.getElem?_set_self]
          simp only [List.getD_eq_getElem?_getD] at hend hidx
          omega
      obtain ⟨hlit2, hg2⟩ := ih _ _ a st2 hlitc hvalidc h
      exact ⟨hlit2, hg1.trans (hgset.trans hg2)⟩
    · simp only [Option.some.injEq] at h
      rw [← h]
      exact ⟨hlit1, hg1⟩

theorem Sparsefs.append_rules_loop_eq :
    ∀ (fuel : Nat) (st : Store) (p : Ptr) (a : Int),
      Sparsefs.append_rules_loop fuel st p a =
        append_rules_with Sparsefs.append_rule fuel st p a := by
  intro fuel
  induction fuel with
  | zero => intro st p a; rfl
  | succ fuel ih =>
    intro st p a
    rw [Sparsefs.append_rules_loop, append_rules_with]
    cases Sparsefs.append_rule st p a with
    | none => rfl
    | some st1 =>
      simp only [Option.bind_eq_bind, Option.some_bind]
      split
      · exact ih _ _ _
      · rfl

theorem Store.empty_literal : Store.empty.Literal :=
  ⟨Store.empty_sound.alloc, fun _ h => by simp [Store.empty] at h, Store.empty_sound.literal⟩

/-- Adding the rules of one option or line in sparsefs.c keeps the invariant of the store. -/
theorem Sparsefs.sparse_add_rules_literal (st st1 : Store) (arg : RuleArg) (hlit : st.Literal)
    (h : Sparsefs.add_rules st arg = some st1) : st1.Literal := by
  cases arg with
  | list patterns a =>
    obtain ⟨hl, hv⟩ := hlit.strdup (patterns ++ [NUL]) (getLast_append_nul _)
    have h2 : Sparsefs.append_rules_loop _ _ _ _ = some st1 := h
    rw [Sparsefs.append_rules_loop_eq] at h2
    exact (append_rules_with_ok _ Sparsefs.sparse_append_rule_ok _ _ _ a st1 hl hv h2).1
  | line pattern a =>
    obtain ⟨hl, hv⟩ := hlit.strdup (pattern ++ [NUL]) (getLast_append_nul _)
    exact (Sparsefs.sparse_append_rule_ok _ _ a st1 hl hv h).1

/-- Adding the rules of one option or line in filterfs.c keeps the invariant of the store. -/
theorem Filterfs.add_rules_literal (env : Env) (st st1 : Store) (arg : RuleArg)
    (hlit : st.Literal) (h : Filterfs.add_rules env st arg = some st1) : st1.Literal := by
  cases arg with
  | list patterns a =>
    obtain ⟨hl, hv⟩ := hlit.strdup (patterns ++ [NUL]) (getLast_append_nul _)
    have h2 : append_rules_with (Filterfs.append_rule env) _ _ _ _ = some st1 := h
    exact (append_rules_with_ok _ (Filterfs.append_rule_ok env) _ _ _ a st1 hl hv h2).1
  | line pattern a =>
    obtain ⟨hl, hv⟩ := hlit.strdup (pattern ++ [NUL]) (getLast_append_nul _)
    exact (Filterfs.append_rule_ok env _ _ a st1 hl hv h).1

theorem Sparsefs.sparse_build_literal (args : List RuleArg) :
    ∀ st st2 : Store, st.Literal → Sparsefs.build st args = some st2 → st2.Literal := by
  induction args with
  | nil =>
    intro st st2 hlit h
    simp only [Sparsefs.build, Option.some.injEq] at h
    exact h ▸ hlit
  | cons arg rest ih =>
    intro st st2 hlit h
    simp only [Sparsefs.build, Option.bind_eq_some] at h
    obtain ⟨st1, h1, h2⟩ := h
    exact ih st1 st2 (Sparsefs.sparse_add_rules_literal st st1 arg hlit h1) h2

theorem Filterfs.build_literal (env : Env) (args : List RuleArg) :
    ∀ st st2 : Store, st.Literal → Filterfs.build env st args = some st2 → st2.Literal := by
  induction args with
  | nil =>
    intro st st2 hlit h
    simp only [Filterfs.build, Option.some.injEq] at h
    exact h ▸ hlit
  | cons arg rest ih =>
    intro st st2 hlit h
    simp only [Filterfs.build, Option.bind_eq_some] at h
    obtain ⟨st1, h1, h2⟩ := h
    exact ih st1 st2 (Filterfs.add_rules_literal env st st1 arg hlit h1) h2

/-- C24: let the rule store be built, by sparsefs.c or by filterfs.c, from any options (lists
handed to `append_rules`) and rule-file lines (handed to `append_rule`).  For every path with
`*` or `?` the exact-match lookup finds no rule, and for every path, source root and default
policy `exclude_chroot_path` of filterfs.c returns what `exclude_chroot_path` of sparsefs.c
returns with that root as its one source. -/
theorem Filterfs.exclude_chroot_path_agrees (env0 env : Env) (args : List RuleArg)
    (st : Store) (srcdir : CStr) (default_exclude : Int)
    (hbuilt : Sparsefs.build Store.empty args = some st ∨
      Filterfs.build env0 Store.empty args = some st) :
    (∀ x, has_wildcard x = true → Filterfs.getRule st x = none) ∧
      ∀ x, Filterfs.exclude_chroot_path env ⟨st, srcdir, default_exclude⟩ x =
        Sparsefs.exclude_chroot_path env ⟨st, [srcdir], default_exclude⟩ x := by
  have hlit : st.Literal := by
    rcases hbuilt with h | h
    · exact Sparsefs.sparse_build_literal args _ _ Store.empty_literal h
    · exact Filterfs.build_literal env0 args _ _ Store.empty_literal h
  constructor
  · intro x hx
    rw [Filterfs.getRule_eq]
    cases hf : Sparsefs.getRuleByHash st x with
    | none => rfl
    | some r =>
      exfalso
      obtain ⟨hmem, hpat⟩ := Sparsefs.getRuleByHash_some st x r hf
      have h3 := hlit.literal _ r hmem
      rw [hpat, hx] at h3
      exact absurd h3 (by decide)
  · intro x
    exact Filterfs.exclude_chroot_path_single env st srcdir default_exclude x hlit.literal

/-- Witness of C24: the store built from the option `-X /s/a:/s/b*` and the line `"/s/c/"`;
the lookup finds nothing for the path "/s/b*", and both programs exclude it by the wildcard
rule. -/
theorem Filterfs.exclude_chroot_path_agrees_witness :
    Filterfs.getRule Example.store_built "/s/b*".toList = none ∧
    Filterfs.exclude_chroot_path Example.env_all ⟨Example.store_built, "/s/".toList, 0⟩
        "/s/b*".toList =
      Sparsefs.exclude_chroot_path Example.env_all ⟨Example.store_built, ["/s/".toList], 0⟩
        "/s/b*".toList ∧
    Sparsefs.exclude_chroot_path Example.env_all ⟨Example.store_built, ["/s/".toList], 0⟩
        "/s/b*".toList = 1 :=
  ⟨(Filterfs.exclude_chroot_path_agrees Example.env_all Example.env_all Example.rule_args
      Example.store_built "/s/".toList 0 (Or.inl (Option.some_get _).symm)).1
      "/s/b*".toList (by decide),
    (Filterfs.exclude_chroot_path_agrees Example.env_all Example.env_all Example.rule_args
      Example.store_built "/s/".toList 0 (Or.inl (Option.some_get _).symm)).2 "/s/b*".toList,
    by decide⟩
